import Mathlib

/-!
Verification of the digitalyze validation engine.

Shallow embedding of:
  * `EnhancedValidationService` (src/unnamed/part_006, first document),
  * `validation.service.js` (src/unnamed/part_006, second document),
  * `GraphUtils` (src/Backend/src/utils/graphUtils.js),
translated from the JavaScript source.

Modelling conventions (the typed universe of JS records):
  * A JS record field is `Option τ`; `none` models an absent key
    (`'F' in rec` is false, `rec.F` is `undefined`).
  * Scalar cells that may be a number or a string are `JPrim`.
  * JS truthiness: `none` is falsy; number `0` and string `""` are falsy;
    arrays are always truthy.
  * `AvailableSlots` is modelled in its array-of-numbers form (the
    JSON-string and comma-string coercion layers are not modelled; no claim
    concerns them).  `PreferredPhases` is modelled as an array of numbers or
    a string (range `"a-b"` or comma/bracket list), as in §4.2 of the spec.
  * `AttributesJSON` is not modelled (records in the universe lack the key,
    so the guarded JSON-parse check never fires); no claim concerns it.
  * JS string `parseInt` / `Number` are modelled for decimal integer
    literals (the only shapes the data model produces).
-/

/-- A primitive JS cell value: a number or a string. -/
inductive JPrim where
  | num (n : Int)
  | str (s : String)
deriving DecidableEq, Repr

/-- JS truthiness of a primitive value. -/
def JPrim.truthy : JPrim → Bool
  | .num n => n ≠ 0
  | .str s => s ≠ ""

/-- JS truthiness of an optional primitive (absent value is falsy). -/
def truthyOpt : Option JPrim → Bool
  | none => false
  | some v => v.truthy

/-- JS truthiness of an optional string (absent or empty is falsy). -/
def truthyStr : Option String → Bool
  | none => false
  | some s => s ≠ ""

/-- JS truthiness of an optional number (absent or zero is falsy). -/
def truthyInt : Option Int → Bool
  | none => false
  | some n => n ≠ 0

/-- Numeric value of a list of decimal digit characters. -/
def digitsVal (ds : List Char) : Int :=
  ds.foldl (fun acc c => acc * 10 + (Int.ofNat (c.toNat - '0'.toNat))) 0

/-- JS `parseInt` on a string (decimal): trims, optional sign, digit prefix;
`none` models `NaN`. -/
def parseIntStr (s : String) : Option Int :=
  let t := s.trim
  let core : Int × List Char :=
    match t.data with
    | '-' :: cs => (-1, cs)
    | '+' :: cs => (1, cs)
    | cs => (1, cs)
  let ds := core.2.takeWhile Char.isDigit
  if ds.isEmpty then none else some (core.1 * digitsVal ds)

/-- JS `Number(s)` for the modelled universe of decimal integer strings:
empty/whitespace is `0`; otherwise the whole string must be an optionally
signed decimal integer; `none` models `NaN`. -/
def numberJS (s : String) : Option Int :=
  let t := s.trim
  if t = "" then some 0
  else
    let core : Int × List Char :=
      match t.data with
      | '-' :: cs => (-1, cs)
      | '+' :: cs => (1, cs)
      | cs => (1, cs)
    if core.2 ≠ [] ∧ core.2.all Char.isDigit then
      some (core.1 * digitsVal core.2)
    else none

/-- JS `parseInt` applied to a primitive cell (numbers pass through). -/
def parseIntJ : JPrim → Option Int
  | .num n => some n
  | .str s => parseIntStr s

/-- `PreferredPhases` cell: an array of numbers or a string. -/
inductive PhasesV where
  | arrP (xs : List Int)
  | strP (s : String)
deriving DecidableEq, Repr

/-- A client record (see §3 of the spec; `AttributesJSON` not modelled). -/
structure Client where
  clientID : Option String := none
  clientName : Option String := none
  priorityLevel : Option JPrim := none
  requestedTaskIDs : Option String := none
deriving DecidableEq, Repr

/-- A worker record. -/
structure Worker where
  workerID : Option String := none
  workerName : Option String := none
  skills : Option String := none
  availableSlots : Option (List Int) := none
  maxLoadPerPhase : Option Int := none
deriving DecidableEq, Repr

/-- A task record (`CoRunWith` is the extra field read by the second
service's `detectCircularCoRuns`); named `TaskR` because `Task` is taken by
the Lean core. -/
structure TaskR where
  taskID : Option String := none
  taskName : Option String := none
  duration : Option Int := none
  requiredSkills : Option String := none
  preferredPhases : Option PhasesV := none
  maxConcurrent : Option Int := none
  coRunWith : Option String := none
deriving DecidableEq, Repr

/-- A rule; only the fields read by `detectCircularCoRuns` are modelled. -/
structure Rule where
  type : String := ""
  tasks : Option (List String) := none
deriving DecidableEq, Repr

/-- The message of a finding, one constructor per source template string,
carrying the interpolated values. -/
inductive Msg where
  | missingColumn (entity fld : String)
  | duplicateIdE (entity idField dupId : String)
  | malformedPriority (v : JPrim)
  | malformedSlots (wid : Option String)
  | malformedDuration (v : Int)
  | priorityOutOfRange (p : Int)
  | unknownTaskRef (cid : Option String) (tid : String)
  | skillGapE (skill : String) (tid : Option String)
  | workerOverloadE (wid : Option String) (slotsLen : Nat) (maxLoad : Int)
  | phaseOverloaded (phase demand capacity : Int)
  | maxConcInfeasible (tid : Option String) (maxc : Int) (qualified : Nat)
  | circularCorun (cycle : List String)
  | calcError (which : String)
  | sysErrorE
  | vsBadDataShape
  | vsUnknownEntityType (et : String)
  | vsSystemError
  | vsMissingField (fld : String)
  | vsDuplicateClientID (c : String)
  | vsDuplicateWorkerID (c : String)
  | vsDuplicateTaskID (c : String)
  | vsPriorityNotNumber
  | vsPriorityRange
  | vsTaskRefUnknown (tid : String)
  | vsSkillsEmpty
  | vsSlotsNotIntArray
  | vsMaxLoadNotNumber
  | vsMaxLoadNeg
  | vsOverload
  | vsDurationNotNumber
  | vsDurationRange
  | vsReqSkillsEmpty
  | vsMaxConcNotNumber
  | vsPrefPhasesInvalid
  | vsSkillGap (missing : List String)
  | vsPhaseOversat (phase demand capacity : Int)
  | vsCircular (tid : String)
  | vsConcurrency (maxc : Int) (qualified : Nat)
deriving DecidableEq, Repr

/-- A validation finding; unused JS keys for a particular finding keep their
defaults (`suggestedFix`, a pure function of the other fields, is not
modelled). -/
structure Finding where
  id : String := ""
  type : String := ""
  severity : String := ""
  entity : String := ""
  fld : String := ""
  recordId : Option String := none
  row : Nat := 0
  message : Msg
  affectedRecords : List String := []
deriving DecidableEq, Repr

/-- The `summary` object of a `ValidationResult`. -/
structure Summary where
  totalErrors : Nat := 0
  totalWarnings : Nat := 0
  validationTypes : List String := []
  timestamp : String := ""
  breakdown : Option (Nat × Nat × Nat × Nat) := none
deriving DecidableEq, Repr

/-- The aggregated result of `validateAllData`. -/
structure ValidationResult where
  isValid : Bool
  errors : List Finding
  warnings : List Finding
  summary : Summary
deriving DecidableEq, Repr

/-! ## EnhancedValidationService : utility converters -/

/-- `safeArrayConvert` on a comma-separated string cell: split, trim, drop
falsy entries.  (The array input branch maps/trims element-wise; string
cells are the modelled shape here.) -/
def safeArrayConvert (v : Option String) : List String :=
  match v with
  | none => []
  | some s => if s.trim = "" then []
      else ((s.splitOn ",").map String.trim).filter (fun x => x ≠ "")

/-- `safePhaseConvert`: arrays keep their numeric entries; a string is a
range `"a-b"` (expanded to consecutive integers) or a comma/bracket list. -/
def safePhaseConvert (v : Option PhasesV) : List Int :=
  match v with
  | none => []
  | some (.arrP xs) => xs
  | some (.strP s) =>
    if s.trim = "" then []
    else if s.contains '-' then
      match (s.splitOn "-").map (fun t => parseIntStr t.trim) with
      | some a :: some b :: _ =>
        if a ≤ b then (List.range (b - a + 1).toNat).map (fun i => a + i) else []
      | _ => []
    else
      (((s.replace "[" "").replace "]" "").splitOn ",").filterMap
        (fun t => parseIntStr t.trim)

/-- The JS template interpolation of a possibly-undefined id. -/
def strOf (o : Option String) : String := o.getD "undefined"

/-- The JS expression `rec.Id || index` used in finding ids. -/
def idOr (o : Option String) (i : Nat) : String :=
  match o with
  | some s => if s = "" then toString i else s
  | none => toString i

/-- Truthiness of a `PreferredPhases` cell (arrays truthy, `""` falsy). -/
def truthyPhases : Option PhasesV → Bool
  | none => false
  | some (.arrP _) => true
  | some (.strP s) => s ≠ ""

/-- Truthiness of an `AvailableSlots` cell (arrays are always truthy). -/
def truthySlots : Option (List Int) → Bool
  | none => false
  | some _ => true

/-! ## EnhancedValidationService : structural validations -/

/-- The `missing_required_column` finding. -/
def missingColFinding (entity fld : String) : Finding :=
  { id := "missing_column_" ++ entity ++ "_" ++ fld
    type := "missing_required_column", severity := "error"
    entity := entity, fld := fld, message := .missingColumn entity fld }

/-- `validateRequiredColumns(data, 'clients')`: required keys checked on the
first record only. -/
def validateRequiredColumnsClients (data : List Client) : List Finding :=
  match data with
  | [] => []
  | c :: _ =>
    (if c.clientID.isSome then [] else [missingColFinding "clients" "ClientID"]) ++
    (if c.clientName.isSome then [] else [missingColFinding "clients" "ClientName"]) ++
    (if c.priorityLevel.isSome then [] else [missingColFinding "clients" "PriorityLevel"])

/-- `validateRequiredColumns(data, 'workers')`. -/
def validateRequiredColumnsWorkers (data : List Worker) : List Finding :=
  match data with
  | [] => []
  | w :: _ =>
    (if w.workerID.isSome then [] else [missingColFinding "workers" "WorkerID"]) ++
    (if w.workerName.isSome then [] else [missingColFinding "workers" "WorkerName"]) ++
    (if w.skills.isSome then [] else [missingColFinding "workers" "Skills"]) ++
    (if w.availableSlots.isSome then [] else [missingColFinding "workers" "AvailableSlots"])

/-- `validateRequiredColumns(data, 'tasks')`. -/
def validateRequiredColumnsTasks (data : List TaskR) : List Finding :=
  match data with
  | [] => []
  | t :: _ =>
    (if t.taskID.isSome then [] else [missingColFinding "tasks" "TaskID"]) ++
    (if t.taskName.isSome then [] else [missingColFinding "tasks" "TaskName"]) ++
    (if t.duration.isSome then [] else [missingColFinding "tasks" "Duration"]) ++
    (if t.requiredSkills.isSome then [] else [missingColFinding "tasks" "RequiredSkills"])

/-- First pass of `validateDuplicateIds`: the `duplicates` set, in insertion
order, of truthy ids seen at least twice. -/
def collectDups (ids : List (Option String)) : List String :=
  (ids.foldl (fun (acc : List String × List String) id =>
    match id with
    | some i =>
      if i ≠ "" then
        if i ∈ acc.1 then (acc.1, if i ∈ acc.2 then acc.2 else acc.2 ++ [i])
        else (acc.1 ++ [i], acc.2)
      else acc
    | none => acc) ([], [])).2

/-- `validateDuplicateIds(data, entityType, idField)`: one `duplicate_id`
finding per distinct repeated id. -/
def validateDuplicateIds (ids : List (Option String)) (entityType idField : String) :
    List Finding :=
  (collectDups ids).map (fun d =>
    { id := "duplicate_id_" ++ entityType ++ "_" ++ d
      type := "duplicate_id", severity := "error", entity := entityType
      fld := idField, recordId := some d, message := .duplicateIdE entityType idField d })

/-- `validateDataTypes(clients, workers, tasks)`.  The workers branch
(JSON-parse of `AvailableSlots`) never fails in the array-typed universe and
contributes nothing. -/
def validateDataTypes (clientsData : List Client) (_workersData : List Worker)
    (tasksData : List TaskR) : List Finding :=
  (clientsData.enum.flatMap (fun ic =>
    let (index, client) := ic
    if truthyOpt client.priorityLevel then
      match client.priorityLevel with
      | some v =>
        match parseIntJ v with
        | none =>
          [{ id := "malformed_priority_" ++ idOr client.clientID index
             type := "malformed_data", severity := "error", entity := "clients"
             fld := "PriorityLevel", recordId := client.clientID, row := index + 1
             message := .malformedPriority v }]
        | some _ => []
      | none => []
    else [])) ++
  (tasksData.enum.flatMap (fun it =>
    let (index, task) := it
    if truthyInt task.duration then
      match task.duration with
      | some d =>
        if d < 1 then
          [{ id := "malformed_duration_" ++ idOr task.taskID index
             type := "malformed_data", severity := "error", entity := "tasks"
             fld := "Duration", recordId := task.taskID, row := index + 1
             message := .malformedDuration d }]
        else []
      | none => []
    else []))

/-- `validateRanges(clients, workers, tasks)`: `PriorityLevel` in 1..5. -/
def validateRanges (clientsData : List Client) (_workersData : List Worker)
    (_tasksData : List TaskR) : List Finding :=
  clientsData.enum.flatMap (fun ic =>
    let (index, client) := ic
    if truthyOpt client.priorityLevel then
      match client.priorityLevel with
      | some v =>
        match parseIntJ v with
        | some p =>
          if p < 1 ∨ p > 5 then
            [{ id := "priority_out_of_range_" ++ idOr client.clientID index
               type := "out_of_range", severity := "error", entity := "clients"
               fld := "PriorityLevel", recordId := client.clientID, row := index + 1
               message := .priorityOutOfRange p }]
          else []
        | none => []
      | none => []
    else [])

/-! ## EnhancedValidationService : referential validations -/

/-- `validateTaskReferences(clients, tasks)`. -/
def validateTaskReferences (clientsData : List Client) (tasksData : List TaskR) :
    List Finding :=
  let validTaskIds : List String :=
    tasksData.filterMap (fun t =>
      match t.taskID with
      | some s => if s ≠ "" then some s else none
      | none => none)
  clientsData.enum.flatMap (fun ic =>
    let (index, client) := ic
    if truthyStr client.requestedTaskIDs then
      (safeArrayConvert client.requestedTaskIDs).flatMap (fun taskId =>
        if taskId ≠ "" ∧ taskId ∉ validTaskIds then
          [{ id := "unknown_task_reference_" ++ strOf client.clientID ++ "_" ++ taskId
             type := "unknown_reference", severity := "error", entity := "clients"
             fld := "RequestedTaskIDs", recordId := client.clientID, row := index + 1
             message := .unknownTaskRef client.clientID taskId }]
        else [])
    else [])

/-- `validateSkillCoverage(tasks, workers)`. -/
def validateSkillCoverage (tasksData : List TaskR) (workersData : List Worker) :
    List Finding :=
  let workerSkills : List String :=
    workersData.flatMap (fun w =>
      if truthyStr w.skills then (safeArrayConvert w.skills).map String.toLower else [])
  tasksData.enum.flatMap (fun it =>
    let (index, task) := it
    if truthyStr task.requiredSkills then
      (safeArrayConvert task.requiredSkills).flatMap (fun skill =>
        let cleanSkill := skill.trim.toLower
        if cleanSkill ≠ "" ∧ cleanSkill ∉ workerSkills then
          [{ id := "skill_gap_" ++ strOf task.taskID ++ "_" ++ skill.trim
             type := "skill_coverage_gap", severity := "error", entity := "tasks"
             fld := "RequiredSkills", recordId := task.taskID, row := index + 1
             message := .skillGapE skill.trim task.taskID }]
        else [])
    else [])

/-! ## EnhancedValidationService : business validations -/

/-- `validateWorkerOverload(workers)`: note the source emits the warning
when `availableSlots.length > maxLoad`. -/
def validateWorkerOverload (workersData : List Worker) : List Finding :=
  workersData.enum.flatMap (fun iw =>
    let (index, worker) := iw
    if truthySlots worker.availableSlots ∧ truthyInt worker.maxLoadPerPhase then
      match worker.availableSlots, worker.maxLoadPerPhase with
      | some slots, some maxLoad =>
        if (slots.length : Int) > maxLoad then
          [{ id := "worker_overload_" ++ idOr worker.workerID index
             type := "worker_overload", severity := "warning", entity := "workers"
             recordId := worker.workerID, fld := "MaxLoadPerPhase", row := index + 1
             message := .workerOverloadE worker.workerID slots.length maxLoad }]
        else []
      | _, _ => []
    else [])

/-! ## Association maps (JS `Object` / `Map` as insertion-ordered pairs) -/

/-- `m[k] = (m[k] || 0) + v` on a JS object with numeric values. -/
def bumpA (m : List (Int × Int)) (k : Int) (v : Int) : List (Int × Int) :=
  match m with
  | [] => [(k, v)]
  | (k', v') :: rest =>
    if k' = k then (k', v' + v) :: rest else (k', v') :: bumpA rest k v

/-- Lookup in an association map. -/
def alookup [DecidableEq α] (m : List (α × β)) (k : α) : Option β :=
  (m.find? (fun e => e.1 = k)).map (fun e => e.2)

/-- Stable insertion into an ascending-by-key list. -/
def insertAsc (e : Int × Int) : List (Int × Int) → List (Int × Int)
  | [] => [e]
  | x :: xs => if e.1 < x.1 then e :: x :: xs else x :: insertAsc e xs

/-- Stable ascending-by-key sort. -/
def sortAsc (l : List (Int × Int)) : List (Int × Int) :=
  l.foldr insertAsc []

/-- `Object.entries` on a numeric-keyed JS object: integer-like keys (the
non-negatives) enumerate in ascending order, other keys in insertion
order. -/
def entriesJS (m : List (Int × Int)) : List (Int × Int) :=
  sortAsc (m.filter (fun e => 0 ≤ e.1)) ++ m.filter (fun e => e.1 < 0)

/-- `calculatePhaseCapacity(workers)`: each worker contributes `+1` to every
phase in its `AvailableSlots` (the source adds 1, not `MaxLoadPerPhase`). -/
def calculatePhaseCapacity (workersData : List Worker) : List (Int × Int) :=
  workersData.foldl (fun capacity worker =>
    if truthySlots worker.availableSlots then
      match worker.availableSlots with
      | some slots => slots.foldl (fun c phase => bumpA c phase 1) capacity
      | none => capacity
    else capacity) []

/-- `calculatePhaseDemand(tasks)`: each task contributes `Duration` to every
phase in its (converted) `PreferredPhases`. -/
def calculatePhaseDemand (tasksData : List TaskR) : List (Int × Int) :=
  tasksData.foldl (fun demand task =>
    if truthyInt task.duration ∧ truthyPhases task.preferredPhases then
      match task.duration with
      | some duration =>
        (safePhaseConvert task.preferredPhases).foldl
          (fun d phase => bumpA d phase duration) demand
      | none => demand
    else demand) []

/-- `taskUsesPhase(task, phase)`. -/
def taskUsesPhase (task : TaskR) (phase : Int) : Bool :=
  if truthyPhases task.preferredPhases then
    phase ∈ safePhaseConvert task.preferredPhases
  else false

/-- `validatePhaseSlotSaturation(tasks, workers)`: one `phase_slot_saturation`
error per demand-map phase whose demand exceeds capacity.  (The `catch`
branch is unreachable in the typed universe.) -/
def validatePhaseSlotSaturation (tasksData : List TaskR) (workersData : List Worker) :
    List Finding :=
  let phaseCapacity := calculatePhaseCapacity workersData
  let phaseDemand := calculatePhaseDemand tasksData
  (entriesJS phaseDemand).flatMap (fun e =>
    let (phase, demand) := e
    let capacity := (alookup phaseCapacity phase).getD 0
    if demand > capacity then
      [{ id := "phase_saturation_" ++ toString phase
         type := "phase_slot_saturation", severity := "error", entity := "operational"
         message := .phaseOverloaded phase demand capacity
         affectedRecords := (tasksData.filter (fun t => taskUsesPhase t phase)).map
           (fun t => strOf t.taskID) }]
    else [])

/-- `validateMaxConcurrency(tasks, workers)`. -/
def validateMaxConcurrency (tasksData : List TaskR) (workersData : List Worker) :
    List Finding :=
  tasksData.enum.flatMap (fun it =>
    let (index, task) := it
    if truthyInt task.maxConcurrent ∧ truthyStr task.requiredSkills then
      match task.maxConcurrent with
      | some maxConcurrent =>
        let requiredSkills := (safeArrayConvert task.requiredSkills).map String.toLower
        let qualifiedWorkers := workersData.filter (fun worker =>
          if truthyStr worker.skills then
            let workerSkills := (safeArrayConvert worker.skills).map String.toLower
            requiredSkills.all (fun skill => skill ∈ workerSkills)
          else false)
        if (qualifiedWorkers.length : Int) < maxConcurrent then
          [{ id := "max_concurrency_infeasible_" ++ strOf task.taskID
             type := "max_concurrency_infeasible", severity := "warning", entity := "tasks"
             fld := "MaxConcurrent", recordId := task.taskID, row := index + 1
             message := .maxConcInfeasible task.taskID maxConcurrent qualifiedWorkers.length }]
        else []
      | none => []
    else [])

/-! ## Generic directed graph (JS `Map<Node, Set<Node>>`) -/

/-- A directed graph: insertion-ordered entries, node to successor list. -/
abbrev GraphA (α : Type) := List (α × List α)

/-- `graph.has(k)`. -/
def mhasKey [DecidableEq α] (g : GraphA α) (k : α) : Bool :=
  g.any (fun e => e.1 = k)

/-- `graph.set(k, v)` (replace, else append). -/
def msetG [DecidableEq α] (g : GraphA α) (k : α) (v : List α) : GraphA α :=
  match g with
  | [] => [(k, v)]
  | (k', v') :: rest =>
    if k' = k then (k, v) :: rest else (k', v') :: msetG rest k v

/-- `graph.get(k).add(x)` (`Set.add`: append if absent); no entry, no-op. -/
def adjAdd [DecidableEq α] (g : GraphA α) (k : α) (x : α) : GraphA α :=
  match g with
  | [] => []
  | (k', v') :: rest =>
    if k' = k then (k', if x ∈ v' then v' else v' ++ [x]) :: rest
    else (k', v') :: adjAdd rest k x

/-- `graph.get(k) || new Set()`. -/
def adj [DecidableEq α] (g : GraphA α) (k : α) : List α :=
  ((g.find? (fun e => e.1 = k)).map (fun e => e.2)).getD []

/-- All node occurrences of a graph (keys and successors); its length bounds
the DFS recursion depth. -/
def univList (g : GraphA α) : List α :=
  g.map (fun e => e.1) ++ (g.map (fun e => e.2)).flatten

/-- The edge relation of a graph. -/
def edgeG [DecidableEq α] (g : GraphA α) (u v : α) : Prop :=
  v ∈ adj g u

instance [DecidableEq α] (g : GraphA α) (u v : α) : Decidable (edgeG g u v) := by
  unfold edgeG; infer_instance

/-- The graph has a directed cycle: some node reaches itself in ≥ 1 step. -/
def hasCycle [DecidableEq α] (g : GraphA α) : Prop :=
  ∃ u, Relation.TransGen (edgeG g) u u

/-- The state of the source's DFS: the `visited` and `recursionStack` sets
(insertion-ordered). -/
structure DfsSt (α : Type) where
  visited : List α
  recStack : List α
deriving Repr

/-- `path.slice(path.indexOf(node))` plus the repeated node; `indexOf = -1`
slices the last element. -/
def sliceCycle [DecidableEq α] (path : List α) (n : α) : List α :=
  if n ∈ path then (path.drop (path.indexOf n)) ++ [n]
  else
    match path.getLast? with
    | some l => [l, n]
    | none => [n]

/-- The `for (neighbor of …)` loop around a DFS step `f`: run `f` on each
neighbor in turn, threading the state and propagating the first cycle. -/
def dfsFold (f : α → List α → DfsSt α → DfsSt α × Option (List α)) :
    List α → List α → DfsSt α → DfsSt α × Option (List α)
  | [], _, s => (s, none)
  | v :: vs, path, s =>
    match f v path s with
    | (s', some c) => (s', some c)
    | (s', none) => dfsFold f vs path s'

/-- The recursive `dfs(node, path)` of `detectCycles` /
`detectCircularCoRuns`, with the mutated `visited` / `recursionStack` sets
passed as state; `fuel` bounds the recursion depth (the top level supplies
more fuel than the depth can reach). -/
def dfsG [DecidableEq α] (g : GraphA α) :
    Nat → α → List α → DfsSt α → DfsSt α × Option (List α)
  | 0, _, _, s => (s, none)
  | fuel + 1, n, path, s =>
    if n ∈ s.recStack then (s, some (sliceCycle path n))
    else if n ∈ s.visited then (s, none)
    else
      let s1 : DfsSt α := ⟨s.visited ++ [n], s.recStack ++ [n]⟩
      match dfsFold (fun v p st => dfsG g fuel v p st) (adj g n) (path ++ [n]) s1 with
      | (s2, some c) => (s2, some c)
      | (s2, none) => (⟨s2.visited, s2.recStack.erase n⟩, none)

/-- The neighbor loop instantiated with `dfsG` at a given fuel. -/
def dfsListG [DecidableEq α] (g : GraphA α) (fuel : Nat) :
    List α → List α → DfsSt α → DfsSt α × Option (List α) :=
  dfsFold (fun v p st => dfsG g fuel v p st)

/-- The `for (node of graph.keys())` loop of `detectCycles`: DFS from every
unvisited key, collecting every returned cycle. -/
def detectCyclesGo [DecidableEq α] (g : GraphA α) (fuel : Nat) :
    List α → DfsSt α → List (List α) → DfsSt α × List (List α)
  | [], s, acc => (s, acc)
  | k :: ks, s, acc =>
    if k ∈ s.visited then detectCyclesGo g fuel ks s acc
    else
      match dfsG g fuel k [] s with
      | (s', some c) => detectCyclesGo g fuel ks s' (acc ++ [c])
      | (s', none) => detectCyclesGo g fuel ks s' acc

/-- `GraphUtils.detectCycles(graph)`. -/
def detectCycles [DecidableEq α] (g : GraphA α) : List (List α) :=
  (detectCyclesGo g ((univList g).length + 1) (g.map (fun e => e.1))
    ⟨[], []⟩ []).2

/-- `GraphUtils.isAcyclic(graph)`. -/
def isAcyclic [DecidableEq α] (g : GraphA α) : Bool :=
  (detectCycles g).length == 0

/-- The ordered pairs `(tasks[i], tasks[j])`, `i < j`, of the co-run
double loop. -/
def ijPairs : List α → List (α × α)
  | [] => []
  | a :: rest => rest.map (fun b => (a, b)) ++ ijPairs rest

/-- The key loop of `detectCircularCoRuns`, stopping at the first cycle
(`break` in the source). -/
def firstCycleGo [DecidableEq α] (g : GraphA α) (fuel : Nat) :
    List α → DfsSt α → Option (List α)
  | [], _ => none
  | k :: ks, s =>
    if k ∈ s.visited then firstCycleGo g fuel ks s
    else
      match dfsG g fuel k [] s with
      | (_, some c) => some c
      | (s', none) => firstCycleGo g fuel ks s'

/-- First cycle found when DFS-ing every unvisited key in order. -/
def firstCycle [DecidableEq α] (g : GraphA α) : Option (List α) :=
  firstCycleGo g ((univList g).length + 1) (g.map (fun e => e.1)) ⟨[], []⟩

/-- The dependency graph of `detectCircularCoRuns`: a key per task id, and,
for each co-run rule, both directed edges for every pair of its tasks that
are both keys. -/
def coRunGraph (tasksData : List TaskR) (coRunRules : List Rule) :
    GraphA (Option String) :=
  let g0 : GraphA (Option String) :=
    tasksData.foldl (fun g task => msetG g task.taskID []) []
  coRunRules.foldl (fun g rule =>
    match rule.tasks with
    | some ts =>
      (ijPairs ts).foldl (fun g p =>
        if mhasKey g (some p.1) ∧ mhasKey g (some p.2) then
          adjAdd (adjAdd g (some p.1) (some p.2)) (some p.2) (some p.1)
        else g) g
    | none => g) g0

/-- `EnhancedValidationService.detectCircularCoRuns(tasks, rules)`: build
the co-run graph, report the first cycle only.  (The `catch` branch is
unreachable in the typed universe.) -/
def detectCircularCoRuns (tasksData : List TaskR) (rules : List Rule) :
    List Finding :=
  let coRunRules := rules.filter (fun r => r.type = "coRun")
  if coRunRules.length = 0 then []
  else
    let graph := coRunGraph tasksData coRunRules
    match firstCycle graph with
    | some cycle =>
      [{ id := "circular_corun_" ++ String.intercalate "_" (cycle.map strOf)
         type := "circular_corun", severity := "error", entity := "rules"
         message := .circularCorun (cycle.map strOf)
         affectedRecords := cycle.map strOf }]
    | none => []

/-! ## EnhancedValidationService : orchestration -/

/-- `validateStructural`. -/
def validateStructural (clientsData : List Client) (workersData : List Worker)
    (tasksData : List TaskR) : List Finding :=
  validateRequiredColumnsClients clientsData ++
  validateRequiredColumnsWorkers workersData ++
  validateRequiredColumnsTasks tasksData ++
  validateDuplicateIds (clientsData.map (fun c => c.clientID)) "clients" "ClientID" ++
  validateDuplicateIds (workersData.map (fun w => w.workerID)) "workers" "WorkerID" ++
  validateDuplicateIds (tasksData.map (fun t => t.taskID)) "tasks" "TaskID" ++
  validateDataTypes clientsData workersData tasksData ++
  validateRanges clientsData workersData tasksData

/-- `validateReferential`. -/
def validateReferential (clientsData : List Client) (workersData : List Worker)
    (tasksData : List TaskR) : List Finding :=
  validateTaskReferences clientsData tasksData ++
  validateSkillCoverage tasksData workersData

/-- `validateBusinessLogic`. -/
def validateBusinessLogic (_clientsData : List Client) (workersData : List Worker)
    (tasksData : List TaskR) : List Finding :=
  validateWorkerOverload workersData ++
  validatePhaseSlotSaturation tasksData workersData

/-- `validateOperational`. -/
def validateOperational (_clientsData : List Client) (workersData : List Worker)
    (tasksData : List TaskR) (rules : List Rule) : List Finding :=
  validateMaxConcurrency tasksData workersData ++
  (if rules.length > 0 then detectCircularCoRuns tasksData rules else [])

/-- `aggregateResults(results)`, with the wall-clock `toISOString()` value
passed in as `now`. -/
def aggregateResults (now : String)
    (structural referential business operational : List Finding) : ValidationResult :=
  let all := structural ++ referential ++ business ++ operational
  let allErrors := all.filter (fun r => r.severity = "error")
  let allWarnings := all.filter (fun r => r.severity = "warning")
  { isValid := allErrors.length == 0
    errors := allErrors
    warnings := allWarnings
    summary :=
      { totalErrors := allErrors.length
        totalWarnings := allWarnings.length
        validationTypes := ["structural", "referential", "business", "operational"]
        timestamp := now
        breakdown := some (structural.length, referential.length,
          business.length, operational.length) } }

/-- An entity argument as received over the wire: an array of records, or
any non-array value (string, number, object, null…), which every record
loop rejects by throwing `TypeError`. -/
inductive JsArg (α : Type) where
  | arr (xs : List α)
  | notArr
deriving DecidableEq, Repr

/-- A validation stage applied to raw arguments: iterating a non-array
throws (`.error ()`), which the orchestrator's `catch` receives. -/
def stageJ (f : List Client → List Worker → List TaskR → List Finding)
    (c : JsArg Client) (w : JsArg Worker) (t : JsArg TaskR) :
    Except Unit (List Finding) :=
  match c, w, t with
  | .arr cs, .arr ws, .arr ts => .ok (f cs ws ts)
  | _, _, _ => .error ()

/-- The one-error result built in `validateAllData`'s `catch`. -/
def systemErrorResult (now : String) : ValidationResult :=
  { isValid := false
    errors := [{ id := "validation_system_error", type := "system"
                 severity := "error", entity := "system", message := .sysErrorE }]
    warnings := []
    summary := { totalErrors := 1, totalWarnings := 0, validationTypes := []
                 timestamp := now, breakdown := none } }

/-- `validateAllData(clients, workers, tasks, rules)`: run the four stages,
aggregate; any internal throw is caught and becomes the system-error
result.  `now` is the wall-clock `toISOString()` value at aggregation
time. -/
def validateAllData (now : String) (clientsData : JsArg Client)
    (workersData : JsArg Worker) (tasksData : JsArg TaskR)
    (rules : List Rule) : ValidationResult :=
  let run : Except Unit ValidationResult := do
    let structural ← stageJ validateStructural clientsData workersData tasksData
    let referential ← stageJ validateReferential clientsData workersData tasksData
    let business ← stageJ validateBusinessLogic clientsData workersData tasksData
    let operational ← stageJ (fun c w t => validateOperational c w t rules)
      clientsData workersData tasksData
    pure (aggregateResults now structural referential business operational)
  match run with
  | .ok res => res
  | .error _ => systemErrorResult now

/-! ## validation.service.js

Severities are the string values of `severityMap` ('high' / 'medium').
The Redis cache layer is not modelled (the spec places the external cache
out of scope); validation runs unconditionally. -/

/-- `arrayifyCommaString(str)`: non-strings and falsy strings give `[]`. -/
def arrayifyCommaString (v : Option String) : List String :=
  match v with
  | none => []
  | some s =>
    if s = "" then []
    else ((s.splitOn ",").map String.trim).filter (fun x => x ≠ "")

/-- `parseRange(rangeStr)`: strings only; `"a-b"` expands via `Number` (so
`Number("") = 0`), otherwise a single number; `none` models `null`.  An
array input is not a string and gives `null`. -/
def parseRange (v : Option PhasesV) : Option (List Int) :=
  match v with
  | none => none
  | some (.arrP _) => none
  | some (.strP s) =>
    if s = "" then none
    else if s.contains '-' then
      match (s.splitOn "-").map numberJS with
      | some a :: some b :: _ =>
        if a > b then none
        else some ((List.range (b - a + 1).toNat).map (fun i => a + i))
      | _ => none
    else
      match numberJS s with
      | some n => some [n]
      | none => none

/-- `parseSlots(slots)` on the modelled array form: arrays pass through. -/
def parseSlots (slots : List Int) : Option (List Int) :=
  some slots

/-- `validateRequiredFields` specialised to the client fields
`['ClientID','PriorityLevel']` (a field is missing when falsy or `''`). -/
def reqFieldsClients (c : Client) (rowIndex : Nat) : List Finding :=
  (if truthyStr c.clientID then [] else
    [{ row := rowIndex, fld := "ClientID", type := "MissingField", severity := "high"
       message := .vsMissingField "ClientID" }]) ++
  (if truthyOpt c.priorityLevel then [] else
    [{ row := rowIndex, fld := "PriorityLevel", type := "MissingField", severity := "high"
       message := .vsMissingField "PriorityLevel" }])

/-- `validateRequiredFields` specialised to the worker fields
`['WorkerID','Skills','AvailableSlots','MaxLoadPerPhase']`. -/
def reqFieldsWorkers (w : Worker) (rowIndex : Nat) : List Finding :=
  (if truthyStr w.workerID then [] else
    [{ row := rowIndex, fld := "WorkerID", type := "MissingField", severity := "high"
       message := .vsMissingField "WorkerID" }]) ++
  (if truthyStr w.skills then [] else
    [{ row := rowIndex, fld := "Skills", type := "MissingField", severity := "high"
       message := .vsMissingField "Skills" }]) ++
  (if truthySlots w.availableSlots then [] else
    [{ row := rowIndex, fld := "AvailableSlots", type := "MissingField", severity := "high"
       message := .vsMissingField "AvailableSlots" }]) ++
  (if truthyInt w.maxLoadPerPhase then [] else
    [{ row := rowIndex, fld := "MaxLoadPerPhase", type := "MissingField", severity := "high"
       message := .vsMissingField "MaxLoadPerPhase" }])

/-- `validateRequiredFields` specialised to the task fields
`['TaskID','Duration','RequiredSkills']`. -/
def reqFieldsTasks (t : TaskR) (rowIndex : Nat) : List Finding :=
  (if truthyStr t.taskID then [] else
    [{ row := rowIndex, fld := "TaskID", type := "MissingField", severity := "high"
       message := .vsMissingField "TaskID" }]) ++
  (if truthyInt t.duration then [] else
    [{ row := rowIndex, fld := "Duration", type := "MissingField", severity := "high"
       message := .vsMissingField "Duration" }]) ++
  (if truthyStr t.requiredSkills then [] else
    [{ row := rowIndex, fld := "RequiredSkills", type := "MissingField", severity := "high"
       message := .vsMissingField "RequiredSkills" }])

/-- Per-record body of `validateClients` (`i` is the 0-based loop index,
`clientIds` the visited-set of ids so far). -/
def clientBlock (taskIds : List (Option String)) (client : Client) (i : Nat)
    (clientIds : List String) : List Finding :=
  let rowIndex := i + 1
  reqFieldsClients client rowIndex ++
  (match client.clientID with
   | some cid =>
     if cid ≠ "" ∧ cid ∈ clientIds then
       [{ row := rowIndex, fld := "ClientID", type := "DuplicateID", severity := "high"
          message := .vsDuplicateClientID cid }]
     else []
   | none => []) ++
  (match client.priorityLevel with
   | some (.str _) =>
     [{ row := rowIndex, fld := "PriorityLevel", type := "TypeError", severity := "medium"
        message := .vsPriorityNotNumber }]
   | some (.num p) =>
     if p < 1 ∨ p > 5 then
       [{ row := rowIndex, fld := "PriorityLevel", type := "RangeError", severity := "medium"
          message := .vsPriorityRange }]
     else []
   | none => []) ++
  (if truthyStr client.requestedTaskIDs then
     (arrayifyCommaString client.requestedTaskIDs).flatMap (fun taskId =>
       if some taskId ∈ taskIds then [] else
         [{ row := rowIndex, fld := "RequestedTaskIDs", type := "UnknownReference"
            severity := "high", message := .vsTaskRefUnknown taskId }])
   else [])

/-- The visited-set update shared by the three entity folds: a truthy id is
added after its duplicate check (`Set.add`). -/
def nextIds (ids : List String) (o : Option String) : List String :=
  match o with
  | some cid => if cid ≠ "" ∧ cid ∉ ids then ids ++ [cid] else ids
  | none => ids

/-- `validateClients(clients, tasks)`: fold over records threading the
`clientIds` visited set (a truthy id is added after its duplicate check). -/
def validateClientsGo (taskIds : List (Option String)) :
    List Client → Nat → List String → List Finding
  | [], _, _ => []
  | client :: rest, i, clientIds =>
    clientBlock taskIds client i clientIds ++
    validateClientsGo taskIds rest (i + 1)
      (nextIds clientIds client.clientID)

/-- `validateClients(clients, tasks = [])`. -/
def validateClients (clients : List Client) (tasks : List TaskR) : List Finding :=
  validateClientsGo (tasks.map (fun t => t.taskID)) clients 0 []

/-- Per-record body of `validateWorkers`.  In the array-typed universe
`parseSlots` always yields an integer array, so the `AvailableSlots`
TypeError branch contributes nothing. -/
def workerBlock (worker : Worker) (i : Nat) (workerIds : List String) : List Finding :=
  let rowIndex := i + 1
  reqFieldsWorkers worker rowIndex ++
  (match worker.workerID with
   | some wid =>
     if wid ≠ "" ∧ wid ∈ workerIds then
       [{ row := rowIndex, fld := "WorkerID", type := "DuplicateID", severity := "high"
          message := .vsDuplicateWorkerID wid }]
     else []
   | none => []) ++
  (if truthyStr worker.skills then
     if (arrayifyCommaString worker.skills).length = 0 then
       [{ row := rowIndex, fld := "Skills", type := "LogicalConflict", severity := "high"
          message := .vsSkillsEmpty }]
     else []
   else []) ++
  (match worker.maxLoadPerPhase with
   | some m =>
     if m < 0 then
       [{ row := rowIndex, fld := "MaxLoadPerPhase", type := "RangeError", severity := "medium"
          message := .vsMaxLoadNeg }]
     else []
   | none => []) ++
  (if truthySlots worker.availableSlots ∧ truthyInt worker.maxLoadPerPhase then
     match worker.availableSlots, worker.maxLoadPerPhase with
     | some slots, some m =>
       match parseSlots slots with
       | some parsed =>
         if (parsed.length : Int) < m then
           [{ row := rowIndex, fld := "MaxLoadPerPhase", type := "WorkerOverload"
              severity := "medium", message := .vsOverload }]
         else []
       | none => []
     | _, _ => []
   else [])

/-- `validateWorkers(workers)` fold. -/
def validateWorkersGo : List Worker → Nat → List String → List Finding
  | [], _, _ => []
  | worker :: rest, i, workerIds =>
    workerBlock worker i workerIds ++
    validateWorkersGo rest (i + 1)
      (nextIds workerIds worker.workerID)

/-- `validateWorkers(workers)`. -/
def validateWorkers (workers : List Worker) : List Finding :=
  validateWorkersGo workers 0 []

/-- Per-record body of `validateTasks`.  `Duration` / `MaxConcurrent` are
numbers in the typed universe, so their TypeError branches contribute
nothing. -/
def taskBlock (task : TaskR) (i : Nat) (taskIds : List String) : List Finding :=
  let rowIndex := i + 1
  reqFieldsTasks task rowIndex ++
  (match task.taskID with
   | some tid =>
     if tid ≠ "" ∧ tid ∈ taskIds then
       [{ row := rowIndex, fld := "TaskID", type := "DuplicateID", severity := "high"
          message := .vsDuplicateTaskID tid }]
     else []
   | none => []) ++
  (match task.duration with
   | some d =>
     if d < 1 then
       [{ row := rowIndex, fld := "Duration", type := "RangeError", severity := "medium"
          message := .vsDurationRange }]
     else []
   | none => []) ++
  (if truthyStr task.requiredSkills then
     if (arrayifyCommaString task.requiredSkills).length = 0 then
       [{ row := rowIndex, fld := "RequiredSkills", type := "LogicalConflict"
          severity := "high", message := .vsReqSkillsEmpty }]
     else []
   else []) ++
  (if truthyPhases task.preferredPhases then
     match parseRange task.preferredPhases with
     | some _ => []
     | none =>
       [{ row := rowIndex, fld := "PreferredPhases", type := "TypeError"
          severity := "medium", message := .vsPrefPhasesInvalid }]
   else [])

/-- `validateTasks(tasks)` fold. -/
def validateTasksGo : List TaskR → Nat → List String → List Finding
  | [], _, _ => []
  | task :: rest, i, taskIds =>
    taskBlock task i taskIds ++
    validateTasksGo rest (i + 1)
      (nextIds taskIds task.taskID)

/-- `validateTasks(tasks)`. -/
def validateTasks (tasks : List TaskR) : List Finding :=
  validateTasksGo tasks 0 []

/-- `validateSkillCoverage(tasks, workers)` of validation.service.js:
case-sensitive; one `SkillGap` finding per task listing all its missing
skills. -/
def validateSkillCoverageVS (tasks : List TaskR) (workers : List Worker) :
    List Finding :=
  let workerSkills : List String :=
    workers.flatMap (fun w =>
      if truthyStr w.skills then arrayifyCommaString w.skills else [])
  tasks.enum.flatMap (fun it =>
    let (index, task) := it
    if truthyStr task.requiredSkills then
      let requiredSkills := arrayifyCommaString task.requiredSkills
      let missingSkills := requiredSkills.filter (fun s => s ∉ workerSkills)
      if missingSkills.length > 0 then
        [{ row := index + 1, fld := "RequiredSkills", type := "SkillGap"
           severity := "high", message := .vsSkillGap missingSkills }]
      else []
    else [])

/-- `validatePhaseSlotSaturation(tasks, workers)` of validation.service.js:
capacity adds `MaxLoadPerPhase` per available phase; demand uses
`parseRange`, so only string-form `PreferredPhases` contribute. -/
def validatePhaseSlotSaturationVS (tasks : List TaskR) (workers : List Worker) :
    List Finding :=
  let phaseCapacity : List (Int × Int) :=
    workers.foldl (fun capacity worker =>
      if truthySlots worker.availableSlots ∧ truthyInt worker.maxLoadPerPhase then
        match worker.availableSlots, worker.maxLoadPerPhase with
        | some slots, some maxLoad =>
          match parseSlots slots with
          | some parsed => parsed.foldl (fun c phase => bumpA c phase maxLoad) capacity
          | none => capacity
        | _, _ => capacity
      else capacity) []
  let phaseDemand : List (Int × Int) :=
    tasks.foldl (fun demand task =>
      if truthyPhases task.preferredPhases ∧ truthyInt task.duration then
        match task.duration with
        | some duration =>
          match parseRange task.preferredPhases with
          | some phases => phases.foldl (fun d phase => bumpA d phase duration) demand
          | none => demand
        | none => demand
      else demand) []
  (entriesJS phaseDemand).flatMap (fun e =>
    let (phase, demand) := e
    let capacity := (alookup phaseCapacity phase).getD 0
    if demand > capacity then
      [{ row := 0, fld := "PhaseCapacity", type := "LogicalConflict", severity := "high"
         message := .vsPhaseOversat phase demand capacity }]
    else [])

/-- The `CoRunWith` graph of validation.service.js's `detectCircularCoRuns`
(string keys; an absent `TaskID` renders as `"undefined"`). -/
def coRunGraphVS (tasks : List TaskR) : List (String × List String) :=
  tasks.foldl (fun g task =>
    if truthyStr task.coRunWith then
      msetG g (strOf task.taskID) (arrayifyCommaString task.coRunWith)
    else g) []

/-- Neighbor loop of the boolean DFS below, around a step `f`; pops `node`
off the recursion stack when every neighbor came back `false`. -/
def hasCycleFold (f : String → DfsSt String → DfsSt String × Bool) :
    List String → DfsSt String → String → DfsSt String × Bool
  | [], s, node => (⟨s.visited, s.recStack.erase node⟩, false)
  | v :: vs, s, node =>
    match f v s with
    | (s', true) => (s', true)
    | (s', false) => hasCycleFold f vs s' node

/-- The boolean `hasCycle(node)` DFS of validation.service.js (shared
`visited` / `recStack`, the latter not restored on a `true` return). -/
def hasCycleVS (g : List (String × List String)) :
    Nat → String → DfsSt String → DfsSt String × Bool
  | 0, _, s => (s, false)
  | fuel + 1, node, s =>
    if node ∈ s.recStack then (s, true)
    else if node ∈ s.visited then (s, false)
    else
      hasCycleFold (fun v st => hasCycleVS g fuel v st) ((alookup g node).getD [])
        ⟨s.visited ++ [node], s.recStack ++ [node]⟩ node

/-- `detectCircularCoRuns(tasks)` of validation.service.js: runs the shared
DFS from every graph key, one `CircularReference` finding per key reporting
a cycle. -/
def detectCircularCoRunsVS (tasks : List TaskR) : List Finding :=
  let graph := coRunGraphVS tasks
  let fuel := (graph.map (fun e => e.1) ++ (graph.map (fun e => e.2)).flatten).length + 1
  ((graph.map (fun e => e.1)).foldl
    (fun (acc : DfsSt String × List Finding) taskId =>
      match hasCycleVS graph fuel taskId acc.1 with
      | (s', true) =>
        let taskIndex :=
          match tasks.findIdx? (fun t => t.taskID = some taskId) with
          | some j => (j : Int)
          | none => -1
        (s', acc.2 ++
          [{ row := (taskIndex + 1).toNat, fld := "CoRunWith", type := "CircularReference"
             severity := "high", message := .vsCircular taskId }])
      | (s', false) => (s', acc.2))
    (⟨[], []⟩, [])).2

/-- `validateMaxConcurrentFeasibility(tasks, workers)`. -/
def validateMaxConcurrentFeasibility (tasks : List TaskR) (workers : List Worker) :
    List Finding :=
  tasks.enum.flatMap (fun it =>
    let (index, task) := it
    if truthyInt task.maxConcurrent ∧ truthyStr task.requiredSkills then
      match task.maxConcurrent with
      | some maxConcurrent =>
        let requiredSkills := arrayifyCommaString task.requiredSkills
        let qualifiedWorkers := workers.filter (fun worker =>
          if truthyStr worker.skills then
            let workerSkills := arrayifyCommaString worker.skills
            requiredSkills.all (fun skill => skill ∈ workerSkills)
          else false)
        if maxConcurrent > (qualifiedWorkers.length : Int) then
          [{ row := index + 1, fld := "MaxConcurrent", type := "ConcurrencyIssue"
             severity := "medium"
             message := .vsConcurrency maxConcurrent qualifiedWorkers.length }]
        else []
      | none => []
    else [])

/-- `validateCrossEntityRules(clients, workers, tasks, rules)`; the three
per-rule validators are empty in the source. -/
def validateCrossEntityRules (_clients : List Client) (workers : List Worker)
    (tasks : List TaskR) (_rules : List Rule) : List Finding :=
  validateSkillCoverageVS tasks workers ++
  validatePhaseSlotSaturationVS tasks workers ++
  detectCircularCoRunsVS tasks ++
  validateMaxConcurrentFeasibility tasks workers

/-- The `fullDataStore` argument of `validateRecords` (each entity list may
be absent). -/
structure FullDataStore where
  clients : Option (List Client) := none
  workers : Option (List Worker) := none
  tasks : Option (List TaskR) := none
  rules : Option (List Rule) := none
deriving DecidableEq, Repr

/-- The `data` argument of `validateRecords`: an array of records of the
entity named by `entityType`, or any non-array value.  (Calls pairing an
entity type with records of another entity are outside the modelled
universe.) -/
inductive EntityArg where
  | notArr
  | clientsA (cs : List Client)
  | workersA (ws : List Worker)
  | tasksA (ts : List TaskR)
deriving DecidableEq, Repr

/-- `validateRecords(data, entityType, fullDataStore)`: the non-array guard
short-circuits with one `TypeError` finding; unknown entity types return
one `TypeError` finding without the cross-entity pass; otherwise the
entity-specific validation plus, when the store holds all three entity
lists, the cross-entity pass. -/
def validateRecords (data : EntityArg) (entityType : String)
    (fullDataStore : FullDataStore) : List Finding :=
  match data with
  | .notArr =>
    [{ row := 0, fld := "data", type := "TypeError", severity := "medium"
       message := .vsBadDataShape }]
  | _ =>
    let base : Option (List Finding) :=
      match entityType, data with
      | "clients", .clientsA cs => some (validateClients cs (fullDataStore.tasks.getD []))
      | "workers", .workersA ws => some (validateWorkers ws)
      | "tasks", .tasksA ts => some (validateTasks ts)
      | _, _ => none
    match base with
    | none =>
      [{ row := 0, fld := "entityType", type := "TypeError", severity := "medium"
         message := .vsUnknownEntityType entityType }]
    | some errors =>
      errors ++
      (match fullDataStore.clients, fullDataStore.workers, fullDataStore.tasks with
       | some cs, some ws, some ts =>
         validateCrossEntityRules cs ws ts (fullDataStore.rules.getD [])
       | _, _, _ => [])

/-! ## GraphUtils.topologicalSort (Kahn's algorithm) -/

/-- Association-map `set` (replace, else append) for arbitrary values. -/
def aset [DecidableEq α] (m : List (α × β)) (k : α) (v : β) : List (α × β) :=
  match m with
  | [] => [(k, v)]
  | (k', v') :: rest =>
    if k' = k then (k, v) :: rest else (k', v') :: aset rest k v

/-- `(inDegree.get(v) || 0)`: absent, `NaN` and `0` all read as `0`
(`none` in the value models `NaN`). -/
def degRead (x : Option (Option Int)) : Int :=
  match x with
  | some (some d) => d
  | some none => 0
  | none => 0

/-- The in-degree map after the two initialisation loops of
`topologicalSort`: keys to `0`, then `+1` per incoming edge. -/
def buildInDeg [DecidableEq α] (g : GraphA α) : List (α × Option Int) :=
  let m0 := g.foldl (fun m e => aset m e.1 (some 0)) []
  g.foldl (fun m e =>
    e.2.foldl (fun m v => aset m v (some (degRead (alookup m v) + 1))) m) m0

/-- One neighbor pass of the Kahn loop: decrement each neighbor's stored
degree (`undefined - 1` and `NaN - 1` are `NaN`, modelled `none`), enqueue
it when the new value is exactly `0`. -/
def kahnNbrs [DecidableEq α] (ns : List α) (m : List (α × Option Int))
    (q : List α) : List (α × Option Int) × List α :=
  ns.foldl (fun acc v =>
    let newDeg : Option Int :=
      match alookup acc.1 v with
      | some (some d) => some (d - 1)
      | some none => none
      | none => none
    (aset acc.1 v newDeg, if newDeg = some 0 then acc.2 ++ [v] else acc.2)) (m, q)

/-- The `while (queue.length > 0)` loop of `topologicalSort`; `fuel` bounds
the iteration count (the caller supplies enough for the loop to drain the
queue). -/
def kahnLoop [DecidableEq α] (g : GraphA α) :
    Nat → List (α × Option Int) → List α → List α →
    List (α × Option Int) × List α × List α
  | 0, m, q, res => (m, q, res)
  | fuel + 1, m, q, res =>
    match q with
    | [] => (m, [], res)
    | node :: qt =>
      let step := kahnNbrs (adj g node) m qt
      kahnLoop g fuel step.1 step.2 (res ++ [node])

/-- Total stored positive degree, used to size the loop fuel. -/
def sumPos (m : List (α × Option Int)) : Nat :=
  (m.map (fun e =>
    match e.2 with
    | some d => d.toNat
    | none => 0)).sum

/-- `GraphUtils.topologicalSort(graph)`: Kahn's algorithm; `none` (JS
`null`) when fewer than `graph.size` nodes were output. -/
def topologicalSort [DecidableEq α] (g : GraphA α) : Option (List α) :=
  let m := buildInDeg g
  let q0 := (m.filter (fun e => e.2 = some 0)).map (fun e => e.1)
  let fuel := q0.length + sumPos m + 1
  let res := (kahnLoop g fuel m q0 []).2.2
  if res.length ≠ g.length then none else some res

/-- Well-formed `Map<Node, Set<Node>>` graph in the representation of
spec §4.1: unique keys, duplicate-free successor sets, and every successor
has its own entry (a leaf has an empty set). -/
def WFGraph [DecidableEq α] (g : GraphA α) : Prop :=
  (g.map (fun e => e.1)).Nodup ∧
  (∀ e ∈ g, e.2.Nodup) ∧
  (∀ e ∈ g, ∀ v ∈ e.2, v ∈ g.map (fun e => e.1))

instance [DecidableEq α] (g : GraphA α) : Decidable (WFGraph g) := by
  unfold WFGraph; infer_instance

/-! ## Claims -/

/-- Concrete inputs of the spec's phase-saturation example: one worker with
`AvailableSlots [1]`, `MaxLoadPerPhase 2`; one task with
`PreferredPhases [1]`, `Duration 3`. -/
def c1Workers : List Worker :=
  [{ availableSlots := some [1], maxLoadPerPhase := some 2 }]

/-- The task of the phase-saturation example. -/
def c1Tasks : List TaskR :=
  [{ duration := some 3, preferredPhases := some (.arrP [1]) }]

/-- C5 (code_bug): the repository's own documentation
(VALIDATION_ANALYSIS.md §9) and spec §4.2 describe the worker-overload
warning as firing when `count(AvailableSlots) < MaxLoadPerPhase`, but
`validateWorkerOverload` tests `availableSlots.length > maxLoad`: the
worker with 1 slot and max load 2 (claimed overloaded) yields no finding,
while a worker with 3 slots and max load 2 yields the warning. -/
theorem C5_worker_overload_comparison_reversed :
    validateWorkerOverload
      [{ workerID := some "W1", availableSlots := some [1],
         maxLoadPerPhase := some 2 }] = [] ∧
    (validateWorkerOverload
      [{ workerID := some "W1", availableSlots := some [1, 2, 3],
         maxLoadPerPhase := some 2 }]).map
        (fun f => (f.type, f.severity, f.message)) =
      [("worker_overload", "warning", .workerOverloadE (some "W1") 3 2)] := by
  constructor <;> rfl

/-- The three tasks of the circular co-run example. -/
def c2Tasks : List TaskR :=
  [{ taskID := some "T1" }, { taskID := some "T2" }, { taskID := some "T3" }]

/-- The three co-run rules T1–T2, T2–T3, T3–T1. -/
def c2Rules : List Rule :=
  [{ type := "coRun", tasks := some ["T1", "T2"] },
   { type := "coRun", tasks := some ["T2", "T3"] },
   { type := "coRun", tasks := some ["T3", "T1"] }]

/-- C2 (counterexample): on the three-rule triangle the single reported
cycle does not contain all three tasks — no emitted finding mentions T3. -/
theorem C2_counterexample :
    ¬ ∃ f ∈ detectCircularCoRuns c2Tasks c2Rules,
        "T1" ∈ f.affectedRecords ∧ "T2" ∈ f.affectedRecords ∧
        "T3" ∈ f.affectedRecords := by
  decide

/-- C2 (amended): the triangle yields exactly one `circular_corun` error,
and its reported cycle is `[T1, T2, T1]` — the two-node cycle formed by the
first rule's bidirectional edge, found first and reported alone (the
traversal stops at the first cycle). -/
theorem C2_first_cycle_is_T1_T2 :
    detectCircularCoRuns c2Tasks c2Rules =
      [{ id := "circular_corun_T1_T2_T1", type := "circular_corun"
         severity := "error", entity := "rules"
         message := .circularCorun ["T1", "T2", "T1"]
         affectedRecords := ["T1", "T2", "T1"] }] := by
  rfl

/-- C6 (counterexample): two calls of the orchestrator on byte-identical
(empty) inputs at different instants give different `ValidationResult`s —
the summary embeds the wall-clock `toISOString()` timestamp. -/
theorem C6_counterexample :
    validateAllData "2024-01-01T00:00:00.000Z" (.arr []) (.arr []) (.arr []) [] ≠
    validateAllData "2024-01-01T00:00:01.000Z" (.arr []) (.arr []) (.arr []) [] := by
  decide

/-- C6 (amended): the orchestrator is deterministic in its data inputs
modulo the summary timestamp: two calls with identical inputs agree on
`isValid`, `errors`, `warnings`, and every summary component except
`timestamp`, which is exactly the wall-clock instant of the call. -/
theorem C6_deterministic_modulo_timestamp (now₁ now₂ : String)
    (c : JsArg Client) (w : JsArg Worker) (t : JsArg TaskR) (rules : List Rule) :
    (validateAllData now₁ c w t rules).isValid =
      (validateAllData now₂ c w t rules).isValid ∧
    (validateAllData now₁ c w t rules).errors =
      (validateAllData now₂ c w t rules).errors ∧
    (validateAllData now₁ c w t rules).warnings =
      (validateAllData now₂ c w t rules).warnings ∧
    (validateAllData now₁ c w t rules).summary.totalErrors =
      (validateAllData now₂ c w t rules).summary.totalErrors ∧
    (validateAllData now₁ c w t rules).summary.totalWarnings =
      (validateAllData now₂ c w t rules).summary.totalWarnings ∧
    (validateAllData now₁ c w t rules).summary.validationTypes =
      (validateAllData now₂ c w t rules).summary.validationTypes ∧
    (validateAllData now₁ c w t rules).summary.breakdown =
      (validateAllData now₂ c w t rules).summary.breakdown ∧
    (validateAllData now₁ c w t rules).summary.timestamp = now₁ := by
  cases c <;> cases w <;> cases t <;>
    exact ⟨rfl, rfl, rfl, rfl, rfl, rfl, rfl, rfl⟩

/-- C7 (confirmed): the entry points are total functions of their raw
arguments.  A non-array `data` short-circuits `validateRecords` with the
single `TypeError` finding; a non-array entity argument to the orchestrator
makes a stage throw, and the `catch` converts it to the single-system-error
result with `isValid = false` — nothing escapes to the caller. -/
theorem C7_error_containment :
    (∀ entityType store,
      validateRecords .notArr entityType store =
        [{ row := 0, fld := "data", type := "TypeError", severity := "medium"
           message := .vsBadDataShape }]) ∧
    (∀ now w t rules,
      validateAllData now (JsArg.notArr) w t rules = systemErrorResult now) ∧
    (∀ now c t rules,
      validateAllData now c (JsArg.notArr) t rules = systemErrorResult now) ∧
    (∀ now c w rules,
      validateAllData now c w (JsArg.notArr) rules = systemErrorResult now) ∧
    (∀ now, (systemErrorResult now).isValid = false ∧
      (systemErrorResult now).errors.length = 1 ∧
      (systemErrorResult now).errors.map (fun f => f.type) = ["system"]) := by
  refine ⟨fun _ _ => rfl, ?_, ?_, ?_, fun _ => ⟨rfl, rfl, rfl⟩⟩
  · intro now w t rules; cases w <;> cases t <;> rfl
  · intro now c t rules; cases c <;> cases t <;> rfl
  · intro now c w rules; cases c <;> cases w <;> rfl

/-- Findings whose presence does not depend on the duplicate-id state are
contributed by every record's block into the fold's output. -/
theorem validateWorkersGo_mem (l : List Worker) (n : Nat) (ids : List String)
    (i : Nat) (w : Worker) (hw : l.get? i = some w) (f : Finding)
    (hf : ∀ ids', f ∈ workerBlock w (n + i) ids') :
    f ∈ validateWorkersGo l n ids := by
  induction l generalizing n ids i with
  | nil => simp at hw
  | cons head tail ih =>
    cases i with
    | zero =>
      simp only [List.get?] at hw
      cases hw
      simp only [validateWorkersGo, List.mem_append]
      exact Or.inl (hf ids)
    | succ j =>
      simp only [List.get?] at hw
      simp only [validateWorkersGo, List.mem_append]
      refine Or.inr (ih (n + 1) _ j hw ?_)
      intro ids'
      have := hf ids'
      have harith : n + 1 + j = n + (j + 1) := by omega
      rw [harith]
      exact this

/-- C10 (confirmed): at the `validateWorkers` interface a worker whose
`MaxLoadPerPhase` equals the number `0` — a value the data model allows —
is reported with a `MissingField` finding for `MaxLoadPerPhase`, because
the required-field check treats every falsy value as absent. -/
theorem C10_maxload_zero_reported_missing (workers : List Worker) (i : Nat)
    (w : Worker) (hw : workers.get? i = some w)
    (hm : w.maxLoadPerPhase = some 0) :
    ∃ f ∈ validateWorkers workers,
      f.type = "MissingField" ∧ f.fld = "MaxLoadPerPhase" ∧ f.row = i + 1 := by
  refine ⟨{ row := i + 1, fld := "MaxLoadPerPhase", type := "MissingField"
            severity := "high", message := .vsMissingField "MaxLoadPerPhase" },
          ?_, rfl, rfl, rfl⟩
  refine validateWorkersGo_mem workers 0 [] i w hw _ ?_
  intro ids'
  have hnt : truthyInt w.maxLoadPerPhase = false := by
    rw [hm]; rfl
  simp only [workerBlock, reqFieldsWorkers, hnt, List.mem_append,
    Nat.zero_add]
  simp

/-- A concrete worker record whose `MaxLoadPerPhase` is the number `0`. -/
def c10Worker : Worker :=
  { workerID := some "W", skills := some "js", availableSlots := some [1]
    maxLoadPerPhase := some 0 }

/-- C10 witness: a concrete worker with `MaxLoadPerPhase = 0`. -/
theorem C10_witness :
    [c10Worker].get? 0 = some c10Worker ∧
    c10Worker.maxLoadPerPhase = some 0 ∧
    ∃ f ∈ validateWorkers [c10Worker],
      f.type = "MissingField" ∧ f.fld = "MaxLoadPerPhase" ∧ f.row = 0 + 1 :=
  ⟨rfl, rfl, C10_maxload_zero_reported_missing [c10Worker] 0 c10Worker rfl rfl⟩

/-- The duplicate-`ClientID` finding predicate for a given id. -/
def isDupClientMsg (c : String) (f : Finding) : Bool :=
  f.message == Msg.vsDuplicateClientID c

/-- Only the duplicate-check chunk of a client block produces
duplicate-`ClientID` findings: the block contributes one such finding for
`c` exactly when the record's id is `c` and `c` was already seen. -/
theorem clientBlock_dup_count (taskIds : List (Option String)) (cl : Client)
    (i : Nat) (ids : List String) (c : String) (hc : c ≠ "") :
    (clientBlock taskIds cl i ids).countP (isDupClientMsg c) =
      if cl.clientID = some c ∧ c ∈ ids then 1 else 0 := by
  unfold clientBlock
  rw [List.countP_append, List.countP_append, List.countP_append]
  have h1 : (reqFieldsClients cl (i + 1)).countP (isDupClientMsg c) = 0 := by
    refine List.countP_eq_zero.mpr ?_
    intro f hf
    unfold reqFieldsClients at hf
    rcases List.mem_append.mp hf with h | h <;>
      [skip; skip] <;>
      · split at h <;> simp_all [isDupClientMsg]
  have h3 :
      (match cl.priorityLevel with
       | some (.str _) =>
         [{ row := i + 1, fld := "PriorityLevel", type := "TypeError"
            severity := "medium", message := .vsPriorityNotNumber : Finding }]
       | some (.num p) =>
         if p < 1 ∨ p > 5 then
           [{ row := i + 1, fld := "PriorityLevel", type := "RangeError"
              severity := "medium", message := .vsPriorityRange : Finding }]
         else []
       | none => []).countP (isDupClientMsg c) = 0 := by
    refine List.countP_eq_zero.mpr ?_
    intro f hf
    match hp : cl.priorityLevel with
    | some (.str _) => rw [hp] at hf; simp_all [isDupClientMsg]
    | some (.num p) =>
      rw [hp] at hf
      split at hf <;> simp_all [isDupClientMsg]
    | none => rw [hp] at hf; simp_all
  have h4 :
      (if truthyStr cl.requestedTaskIDs then
        (arrayifyCommaString cl.requestedTaskIDs).flatMap (fun taskId =>
          if some taskId ∈ taskIds then [] else
            [{ row := i + 1, fld := "RequestedTaskIDs", type := "UnknownReference"
               severity := "high", message := .vsTaskRefUnknown taskId : Finding }])
      else []).countP (isDupClientMsg c) = 0 := by
    refine List.countP_eq_zero.mpr ?_
    intro f hf
    split at hf
    · obtain ⟨x, _, hfx⟩ := List.mem_flatMap.mp hf
      split at hfx <;> simp_all [isDupClientMsg]
    · simp at hf
  rw [h1, h3, h4]
  simp only [Nat.add_zero, Nat.zero_add]
  match hcl : cl.clientID with
  | some cid =>
    by_cases hceq : cid = c
    · subst hceq
      by_cases hmem : cid ∈ ids
      · simp [isDupClientMsg, hmem, hc]
      · simp [isDupClientMsg, hmem, hc]
    · have hni : ¬(some cid = some c ∧ c ∈ ids) := by
        intro h
        exact hceq (by injection h.1)
      rw [if_neg hni]
      refine List.countP_eq_zero.mpr ?_
      intro f hf
      split at hf <;> simp_all [isDupClientMsg]
  | none => simp

/-- Membership in the updated visited set, for a truthy id. -/
theorem mem_nextIds (ids : List String) (o : Option String) (c : String)
    (hc : c ≠ "") : c ∈ nextIds ids o ↔ (c ∈ ids ∨ o = some c) := by
  match o with
  | none => simp [nextIds]
  | some d =>
    by_cases hdc : d = c
    · subst hdc
      simp only [nextIds, Option.some.injEq]
      split
      · simp
      · rename_i h
        constructor
        · intro h'; exact Or.inl h'
        · intro _
          by_cases hm : d ∈ ids
          · exact hm
          · exact absurd ⟨hc, hm⟩ h
    · simp only [nextIds, Option.some.injEq]
      split
      · simp [hdc, Ne.symm hdc]
      · simp [hdc]

/-- The visited-set fold of `validateClients` flags, for a given id `c`,
every occurrence except the first: the duplicate-finding count is the
occurrence count, minus one when `c` has not been seen before the fold. -/
theorem clientsGo_dup_count (taskIds : List (Option String)) (l : List Client)
    (n : Nat) (ids : List String) (c : String) (hc : c ≠ "") :
    (validateClientsGo taskIds l n ids).countP (isDupClientMsg c) =
      if c ∈ ids then l.countP (fun cl => cl.clientID = some c)
      else l.countP (fun cl => cl.clientID = some c) - 1 := by
  induction l generalizing n ids with
  | nil => simp [validateClientsGo]
  | cons head tail ih =>
    rw [validateClientsGo, List.countP_append,
      clientBlock_dup_count taskIds head n ids c hc, List.countP_cons,
      ih (n + 1) (nextIds ids head.clientID)]
    by_cases hhead : head.clientID = some c
    · have hnext : c ∈ nextIds ids head.clientID :=
        (mem_nextIds ids head.clientID c hc).mpr (Or.inr hhead)
      rw [if_pos hnext]
      by_cases hmem : c ∈ ids
      · rw [if_pos ⟨hhead, hmem⟩, if_pos hmem]
        simp [hhead]
        omega
      · rw [if_neg (by intro h; exact hmem h.2), if_neg hmem]
        simp [hhead]
    · rw [if_neg (by intro h; exact hhead h.1)]
      have hnext : c ∈ nextIds ids head.clientID ↔ c ∈ ids := by
        rw [mem_nextIds ids head.clientID c hc]
        simp [hhead]
      by_cases hmem : c ∈ ids
      · rw [if_pos (hnext.mpr hmem), if_pos hmem]
        simp [hhead]
      · rw [if_neg (fun h => hmem (hnext.mp h)), if_neg hmem]
        simp [hhead]

/-- Every finding of a client block carries that record's 1-based row. -/
theorem clientBlock_row (taskIds : List (Option String)) (cl : Client)
    (i : Nat) (ids : List String) :
    ∀ f ∈ clientBlock taskIds cl i ids, f.row = i + 1 := by
  intro f hf
  unfold clientBlock at hf
  rcases List.mem_append.mp hf with hf | hf
  · rcases List.mem_append.mp hf with hf | hf
    · rcases List.mem_append.mp hf with hf | hf
      · unfold reqFieldsClients at hf
        rcases List.mem_append.mp hf with hf | hf <;> (split at hf <;> simp_all)
      · split at hf <;> simp_all
    · match hp : cl.priorityLevel with
      | some (.str _) => rw [hp] at hf; simp_all
      | some (.num p) => rw [hp] at hf; split at hf <;> simp_all
      | none => rw [hp] at hf; simp_all
  · split at hf
    · obtain ⟨x, _, hfx⟩ := List.mem_flatMap.mp hf
      split at hfx <;> simp_all
    · simp at hf

/-- Every finding of the client fold sits at a row past the running
index. -/
theorem clientsGo_row_ge (taskIds : List (Option String)) (l : List Client)
    (n : Nat) (ids : List String) :
    ∀ f ∈ validateClientsGo taskIds l n ids, n + 1 ≤ f.row := by
  induction l generalizing n ids with
  | nil => intro f hf; simp [validateClientsGo] at hf
  | cons head tail ih =>
    intro f hf
    rw [validateClientsGo] at hf
    rcases List.mem_append.mp hf with hf | hf
    · exact le_of_eq (clientBlock_row taskIds head n ids f hf).symm
    · exact Nat.le_of_succ_le (ih (n + 1) _ f hf)

/-- A duplicate-`ClientID` finding can only come from a record with that id
after the id is already in the visited set. -/
theorem clientBlock_dup_mem (taskIds : List (Option String)) (cl : Client)
    (i : Nat) (ids : List String) (c : String) (hc : c ≠ "") (f : Finding)
    (hf : f ∈ clientBlock taskIds cl i ids) (hd : isDupClientMsg c f = true) :
    cl.clientID = some c ∧ c ∈ ids := by
  by_contra hcon
  have h0 := clientBlock_dup_count taskIds cl i ids c hc
  rw [if_neg hcon] at h0
  exact (List.countP_eq_zero.mp h0) f hf hd

/-- No duplicate-`ClientID` finding for an unseen id sits at the row of its
first occurrence. -/
theorem clientsGo_dup_not_first (taskIds : List (Option String))
    (l : List Client) (n : Nat) (ids : List String) (c : String)
    (hc : c ≠ "") (hni : c ∉ ids) :
    ∀ f ∈ validateClientsGo taskIds l n ids, isDupClientMsg c f = true →
      f.row ≠ n + l.findIdx (fun cl => cl.clientID = some c) + 1 := by
  induction l generalizing n ids with
  | nil => intro f hf; simp [validateClientsGo] at hf
  | cons head tail ih =>
    intro f hf hd
    rw [validateClientsGo] at hf
    rcases List.mem_append.mp hf with hf | hf
    · exact absurd (clientBlock_dup_mem taskIds head n ids c hc f hf hd).2 hni
    · by_cases hhead : head.clientID = some c
      · have hidx : (head :: tail).findIdx (fun cl => cl.clientID = some c) = 0 := by
          simp [List.findIdx_cons, hhead]
        rw [hidx]
        have := clientsGo_row_ge taskIds tail (n + 1) _ f hf
        omega
      · have hidx : (head :: tail).findIdx (fun cl => cl.clientID = some c) =
            tail.findIdx (fun cl => cl.clientID = some c) + 1 := by
          simp [List.findIdx_cons, hhead]
        have hni' : c ∉ nextIds ids head.clientID := by
          rw [mem_nextIds ids head.clientID c hc]
          intro h
          rcases h with h | h
          · exact hni h
          · exact hhead h
        have := ih (n + 1) _ hni' f hf hd
        rw [hidx]
        omega

/-- C4 (confirmed): when some `ClientID` value `c` occurs `k ≥ 2` times in
the client list, validation emits exactly `k − 1` `DuplicateID` findings
referencing `c`, and none of them sits at the first occurrence's row. -/
theorem C4_duplicate_clientID (clients : List Client) (tasks : List TaskR)
    (c : String) (hc : c ≠ "")
    (hk : 2 ≤ clients.countP (fun cl => cl.clientID = some c)) :
    (validateClients clients tasks).countP (isDupClientMsg c) =
      clients.countP (fun cl => cl.clientID = some c) - 1 ∧
    ∀ f ∈ validateClients clients tasks, isDupClientMsg c f = true →
      f.row ≠ clients.findIdx (fun cl => cl.clientID = some c) + 1 := by
  constructor
  · rw [validateClients, clientsGo_dup_count _ _ _ _ c hc,
      if_neg (List.not_mem_nil c)]
  · intro f hf hd
    rw [validateClients] at hf
    have := clientsGo_dup_not_first (tasks.map (fun t => t.taskID)) clients 0 []
      c hc (List.not_mem_nil c) f hf hd
    simpa using this

/-- The duplicated client record of the C4 witness. -/
def c4Client : Client := { clientID := some "C1", priorityLevel := some (.num 3) }

/-- C4 witness: `C1` occurring three times yields exactly two duplicate
findings, neither at row 1. -/
theorem C4_witness :
    ("C1" ≠ "" ∧
      2 ≤ [c4Client, c4Client, c4Client].countP
        (fun cl => cl.clientID = some "C1")) ∧
    ((validateClients [c4Client, c4Client, c4Client] []).countP
        (isDupClientMsg "C1") =
      [c4Client, c4Client, c4Client].countP
        (fun cl => cl.clientID = some "C1") - 1 ∧
    ∀ f ∈ validateClients [c4Client, c4Client, c4Client] [],
      isDupClientMsg "C1" f = true →
        f.row ≠ [c4Client, c4Client, c4Client].findIdx
          (fun cl => cl.clientID = some "C1") + 1) :=
  ⟨⟨by decide, by decide⟩,
    C4_duplicate_clientID [c4Client, c4Client, c4Client] [] "C1"
      (by decide) (by decide)⟩

/-! ## C1 : characterisation of phase-slot saturation -/

/-- Keys of an association map. -/
def keysOf (m : List (α × β)) : List α := m.map Prod.fst

/-- Total contribution of a stream of `(key, value)` pairs at one key. -/
def sumAt (l : List (Int × Int)) (p : Int) : Int :=
  ((l.filter (fun e => e.1 = p)).map Prod.snd).sum

/-- Fold a contribution stream into an association map. -/
def foldBump (l : List (Int × Int)) (m : List (Int × Int)) : List (Int × Int) :=
  l.foldl (fun m e => bumpA m e.1 e.2) m

/-- What `calculatePhaseCapacity` computes per phase, declaratively: the
number of slot entries equal to that phase across workers with truthy
`AvailableSlots` — one unit per worker-slot, `MaxLoadPerPhase` ignored. -/
def capacitySpec (workers : List Worker) (p : Int) : Int :=
  (workers.map (fun w =>
    if truthySlots w.availableSlots then
      ((w.availableSlots.getD []).count p : Int)
    else 0)).sum

/-- What `calculatePhaseDemand` computes per phase, declaratively: the sum
over contributing tasks of `Duration` for each occurrence of the phase in
the task's converted `PreferredPhases`. -/
def demandSpec (tasks : List TaskR) (p : Int) : Int :=
  (tasks.map (fun t =>
    if truthyInt t.duration ∧ truthyPhases t.preferredPhases then
      ((safePhaseConvert t.preferredPhases).count p : Int) * t.duration.getD 0
    else 0)).sum

/-- The worker contribution stream behind `calculatePhaseCapacity`. -/
def capStream (workers : List Worker) : List (Int × Int) :=
  workers.flatMap (fun w =>
    if truthySlots w.availableSlots then
      (w.availableSlots.getD []).map (fun q => (q, 1))
    else [])

/-- The task contribution stream behind `calculatePhaseDemand`. -/
def demStream (tasks : List TaskR) : List (Int × Int) :=
  tasks.flatMap (fun t =>
    if truthyInt t.duration ∧ truthyPhases t.preferredPhases then
      (safePhaseConvert t.preferredPhases).map (fun q => (q, t.duration.getD 0))
    else [])

theorem alookup_nil [DecidableEq α] (q : α) :
    alookup ([] : List (α × β)) q = none := rfl

theorem alookup_cons [DecidableEq α] (a : α) (b : β) (rest : List (α × β))
    (q : α) :
    alookup ((a, b) :: rest) q = if a = q then some b else alookup rest q := by
  by_cases h : a = q <;> simp [alookup, List.find?, h]

theorem alookup_bumpA (m : List (Int × Int)) (k v q : Int) :
    alookup (bumpA m k v) q =
      if q = k then some ((alookup m k).getD 0 + v) else alookup m q := by
  induction m with
  | nil =>
    rw [bumpA, alookup_cons]
    by_cases h : q = k
    · rw [if_pos h, if_pos (h.symm), alookup_nil]
      simp
    · rw [if_neg h, if_neg (fun hh => h hh.symm), alookup_nil]
  | cons e rest ih =>
    obtain ⟨a, b⟩ := e
    rw [bumpA]
    by_cases hek : a = k
    · subst hek
      rw [if_pos rfl, alookup_cons, alookup_cons]
      by_cases hq : a = q
      · rw [if_pos hq, if_pos hq.symm]
        simp
      · rw [if_neg hq, if_neg (fun hh => hq hh.symm), alookup_cons, if_neg hq]
    · rw [if_neg hek, alookup_cons]
      by_cases hq : a = q
      · subst hq
        rw [if_pos rfl, if_neg (fun hh => hek hh), alookup_cons, if_pos rfl]
      · rw [if_neg hq, ih]
        by_cases hqk : q = k
        · rw [if_pos hqk, if_pos hqk, alookup_cons, if_neg hek]
        · rw [if_neg hqk, if_neg hqk, alookup_cons, if_neg hq]

theorem keysOf_bumpA (m : List (Int × Int)) (k v : Int) :
    keysOf (bumpA m k v) =
      if k ∈ keysOf m then keysOf m else keysOf m ++ [k] := by
  induction m with
  | nil => simp [bumpA, keysOf]
  | cons e rest ih =>
    obtain ⟨a, b⟩ := e
    rw [bumpA]
    by_cases hek : a = k
    · subst hek
      simp [keysOf]
    · rw [if_neg hek]
      have h1 : keysOf ((a, b) :: bumpA rest k v) = a :: keysOf (bumpA rest k v) := rfl
      have h2 : keysOf ((a, b) :: rest) = a :: keysOf rest := rfl
      rw [h1, h2, ih]
      by_cases hm : k ∈ keysOf rest
      · rw [if_pos hm, if_pos (by simp [hm])]
      · rw [if_neg hm, if_neg (by simp [hm, Ne.symm hek])]
        simp

theorem nodup_keysOf_bumpA (m : List (Int × Int)) (k v : Int)
    (h : (keysOf m).Nodup) : (keysOf (bumpA m k v)).Nodup := by
  rw [keysOf_bumpA]
  by_cases hm : k ∈ keysOf m
  · rwa [if_pos hm]
  · rw [if_neg hm]
    simp [List.nodup_append, h, hm]

theorem lookupD_foldBump (l : List (Int × Int)) (m : List (Int × Int)) (p : Int) :
    (alookup (foldBump l m) p).getD 0 = (alookup m p).getD 0 + sumAt l p := by
  induction l generalizing m with
  | nil => simp [foldBump, sumAt]
  | cons e rest ih =>
    obtain ⟨a, b⟩ := e
    have hstep : foldBump ((a, b) :: rest) m = foldBump rest (bumpA m a b) := rfl
    rw [hstep, ih, alookup_bumpA]
    by_cases hp : p = a
    · rw [if_pos hp]
      subst hp
      have hsum : sumAt ((p, b) :: rest) p = b + sumAt rest p := by
        simp [sumAt, List.filter_cons]
      rw [hsum]
      simp only [Option.getD_some]
      omega
    · rw [if_neg hp]
      have hap : ¬a = p := fun h => hp h.symm
      have hsum : sumAt ((a, b) :: rest) p = sumAt rest p := by
        simp [sumAt, List.filter_cons, hap]
      rw [hsum]

theorem mem_keysOf_foldBump (l : List (Int × Int)) (m : List (Int × Int)) (p : Int) :
    p ∈ keysOf (foldBump l m) ↔ p ∈ keysOf m ∨ p ∈ l.map Prod.fst := by
  induction l generalizing m with
  | nil => simp [foldBump]
  | cons e rest ih =>
    obtain ⟨a, b⟩ := e
    have hstep : foldBump ((a, b) :: rest) m = foldBump rest (bumpA m a b) := rfl
    rw [hstep, ih]
    have hkeys := keysOf_bumpA m a b
    by_cases hm : a ∈ keysOf m
    · rw [hkeys, if_pos hm]
      simp only [List.map_cons, List.mem_cons]
      constructor
      · rintro (h | h)
        · exact Or.inl h
        · exact Or.inr (Or.inr h)
      · rintro (h | h | h)
        · exact Or.inl h
        · exact Or.inl (by rw [h]; exact hm)
        · exact Or.inr h
    · rw [hkeys, if_neg hm]
      simp only [List.mem_append, List.mem_singleton, List.map_cons,
        List.mem_cons]
      tauto

theorem nodup_keysOf_foldBump (l : List (Int × Int)) (m : List (Int × Int))
    (h : (keysOf m).Nodup) : (keysOf (foldBump l m)).Nodup := by
  induction l generalizing m with
  | nil => exact h
  | cons e rest ih =>
    exact ih (bumpA m e.1 e.2) (nodup_keysOf_bumpA m e.1 e.2 h)

theorem alookup_of_mem_nodup [DecidableEq α] (m : List (α × β)) (k : α) (v : β)
    (hnd : (keysOf m).Nodup) (hmem : (k, v) ∈ m) : alookup m k = some v := by
  induction m with
  | nil => simp at hmem
  | cons e rest ih =>
    obtain ⟨a, b⟩ := e
    have hnd' : (a :: keysOf rest).Nodup := hnd
    rw [alookup_cons]
    rcases List.mem_cons.mp hmem with h | h
    · have h1 : k = a := congrArg Prod.fst h
      have h2 : v = b := congrArg Prod.snd h
      rw [if_pos h1.symm, h2]
    · have ha : a ≠ k := by
        intro hak
        subst hak
        exact (List.nodup_cons.mp hnd').1
          (List.mem_map.mpr ⟨(a, v), h, rfl⟩)
      rw [if_neg ha]
      exact ih (List.nodup_cons.mp hnd').2 h

theorem sumAt_nil (p : Int) : sumAt [] p = 0 := rfl

theorem sumAt_append (a b : List (Int × Int)) (p : Int) :
    sumAt (a ++ b) p = sumAt a p + sumAt b p := by
  simp [sumAt, List.filter_append]

theorem sumAt_map_const (xs : List Int) (c p : Int) :
    sumAt (xs.map (fun q => (q, c))) p = (xs.count p : Int) * c := by
  induction xs with
  | nil => simp [sumAt]
  | cons x rest ih =>
    by_cases hx : x = p
    · subst hx
      have hstep : sumAt ((x, c) :: rest.map (fun q => (q, c))) x =
          c + sumAt (rest.map (fun q => (q, c))) x := by
        simp [sumAt, List.filter_cons]
      simp only [List.map_cons, hstep, ih, List.count_cons_self]
      push_cast
      ring
    · have hxp : ¬x = p := hx
      have hstep : sumAt ((x, c) :: rest.map (fun q => (q, c))) p =
          sumAt (rest.map (fun q => (q, c))) p := by
        simp [sumAt, List.filter_cons, hxp]
      simp only [List.map_cons, hstep, ih, List.count_cons, hxp,
        if_false]
      simp [hxp]

theorem sumAt_zero_of_not_mem (l : List (Int × Int)) (p : Int)
    (h : p ∉ l.map Prod.fst) : sumAt l p = 0 := by
  have hfil : l.filter (fun e => e.1 = p) = [] := by
    refine List.filter_eq_nil_iff.mpr ?_
    intro e he
    simp only [decide_eq_true_eq]
    intro hep
    exact h (List.mem_map.mpr ⟨e, he, hep⟩)
  simp [sumAt, hfil]

theorem foldBump_append (a b : List (Int × Int)) (m : List (Int × Int)) :
    foldBump (a ++ b) m = foldBump b (foldBump a m) := by
  simp [foldBump, List.foldl_append]

theorem calcCap_eq_foldBump (workers : List Worker) :
    ∀ m, workers.foldl (fun capacity worker =>
      if truthySlots worker.availableSlots then
        match worker.availableSlots with
        | some slots => slots.foldl (fun c phase => bumpA c phase 1) capacity
        | none => capacity
      else capacity) m = foldBump (capStream workers) m := by
  induction workers with
  | nil => intro m; rfl
  | cons w rest ih =>
    intro m
    have hsplit : capStream (w :: rest) =
        (if truthySlots w.availableSlots then
          (w.availableSlots.getD []).map (fun q => (q, 1))
        else []) ++ capStream rest := by
      simp [capStream]
    have hhead :
        (if truthySlots w.availableSlots then
          match w.availableSlots with
          | some slots => slots.foldl (fun c phase => bumpA c phase 1) m
          | none => m
        else m) =
        foldBump (if truthySlots w.availableSlots then
          (w.availableSlots.getD []).map (fun q => (q, 1)) else []) m := by
      match hs : w.availableSlots with
      | some slots => simp [truthySlots, foldBump, List.foldl_map]
      | none => rfl
    rw [List.foldl_cons, hsplit, foldBump_append, hhead, ih]

theorem calculatePhaseCapacity_eq (workers : List Worker) :
    calculatePhaseCapacity workers = foldBump (capStream workers) [] :=
  calcCap_eq_foldBump workers []

theorem calcDem_eq_foldBump (tasks : List TaskR) :
    ∀ m, tasks.foldl (fun demand task =>
      if truthyInt task.duration ∧ truthyPhases task.preferredPhases then
        match task.duration with
        | some duration =>
          (safePhaseConvert task.preferredPhases).foldl
            (fun d phase => bumpA d phase duration) demand
        | none => demand
      else demand) m = foldBump (demStream tasks) m := by
  induction tasks with
  | nil => intro m; rfl
  | cons t rest ih =>
    intro m
    have hsplit : demStream (t :: rest) =
        (if truthyInt t.duration ∧ truthyPhases t.preferredPhases then
          (safePhaseConvert t.preferredPhases).map
            (fun q => (q, t.duration.getD 0))
        else []) ++ demStream rest := by
      simp [demStream]
    have hhead :
        (if truthyInt t.duration ∧ truthyPhases t.preferredPhases then
          match t.duration with
          | some duration =>
            (safePhaseConvert t.preferredPhases).foldl
              (fun d phase => bumpA d phase duration) m
          | none => m
        else m) =
        foldBump (if truthyInt t.duration ∧ truthyPhases t.preferredPhases then
          (safePhaseConvert t.preferredPhases).map
            (fun q => (q, t.duration.getD 0)) else []) m := by
      by_cases hg : truthyInt t.duration ∧ truthyPhases t.preferredPhases
      · rw [if_pos hg, if_pos hg]
        match hd : t.duration with
        | some duration => simp [foldBump, List.foldl_map]
        | none =>
          rw [hd] at hg
          exact absurd hg.1 (by simp [truthyInt])
      · rw [if_neg hg, if_neg hg]
        rfl
    rw [List.foldl_cons, hsplit, foldBump_append, hhead, ih]

theorem calculatePhaseDemand_eq (tasks : List TaskR) :
    calculatePhaseDemand tasks = foldBump (demStream tasks) [] :=
  calcDem_eq_foldBump tasks []

theorem sumAt_capStream (workers : List Worker) (p : Int) :
    sumAt (capStream workers) p = capacitySpec workers p := by
  induction workers with
  | nil => rfl
  | cons w rest ih =>
    have hsplit : capStream (w :: rest) =
        (if truthySlots w.availableSlots then
          (w.availableSlots.getD []).map (fun q => (q, 1))
        else []) ++ capStream rest := by
      simp [capStream]
    rw [hsplit, sumAt_append, ih]
    unfold capacitySpec
    rw [List.map_cons, List.sum_cons]
    congr 1
    split
    · rw [sumAt_map_const]
      ring
    · rfl

theorem sumAt_demStream (tasks : List TaskR) (p : Int) :
    sumAt (demStream tasks) p = demandSpec tasks p := by
  induction tasks with
  | nil => rfl
  | cons t rest ih =>
    have hsplit : demStream (t :: rest) =
        (if truthyInt t.duration ∧ truthyPhases t.preferredPhases then
          (safePhaseConvert t.preferredPhases).map
            (fun q => (q, t.duration.getD 0))
        else []) ++ demStream rest := by
      simp [demStream]
    rw [hsplit, sumAt_append, ih]
    unfold demandSpec
    rw [List.map_cons, List.sum_cons]
    congr 1
    split
    · rw [sumAt_map_const]
    · rfl

theorem capacitySpec_nonneg (workers : List Worker) (p : Int) :
    0 ≤ capacitySpec workers p := by
  unfold capacitySpec
  refine List.sum_nonneg ?_
  intro x hx
  obtain ⟨w, _, hw⟩ := List.mem_map.mp hx
  subst hw
  split
  · positivity
  · exact le_refl 0

theorem insertAsc_perm (e : Int × Int) (l : List (Int × Int)) :
    (insertAsc e l).Perm (e :: l) := by
  induction l with
  | nil => exact List.Perm.refl _
  | cons x xs ih =>
    rw [insertAsc]
    split
    · exact List.Perm.refl _
    · exact (List.Perm.cons x ih).trans (List.Perm.swap e x xs)

theorem sortAsc_perm (l : List (Int × Int)) : (sortAsc l).Perm l := by
  induction l with
  | nil => exact List.Perm.refl _
  | cons x xs ih =>
    have : sortAsc (x :: xs) = insertAsc x (sortAsc xs) := rfl
    rw [this]
    exact (insertAsc_perm x (sortAsc xs)).trans (List.Perm.cons x ih)

theorem entriesJS_perm (m : List (Int × Int)) : (entriesJS m).Perm m := by
  unfold entriesJS
  have h1 := (sortAsc_perm (m.filter (fun e => decide (0 ≤ e.1)))).append_right
    (m.filter (fun e => e.1 < 0))
  refine h1.trans ?_
  have h2 : m.filter (fun e => decide (e.1 < 0)) =
      m.filter (fun e => !decide (0 ≤ e.1)) := by
    refine List.filter_congr ?_
    intro e _
    by_cases h : 0 ≤ e.1
    · simp [h, Int.not_lt.mpr h]
    · simp [h, Int.not_le.mp h]
  rw [h2]
  exact List.filter_append_perm _ m

theorem countP_flatMap (l : List α) (f : α → List β) (p : β → Bool) :
    (l.flatMap f).countP p = (l.map (fun a => (f a).countP p)).sum := by
  induction l with
  | nil => rfl
  | cons x xs ih =>
    rw [List.flatMap_cons, List.countP_append, ih, List.map_cons,
      List.sum_cons]

/-- Sum over an association list with duplicate-free keys of a function that
vanishes off one key. -/
theorem sum_keyed (dm : List (Int × Int)) (h : (Int × Int) → Nat) (p : Int)
    (t : Nat) (hnd : (keysOf dm).Nodup)
    (hh : ∀ e ∈ dm, h e = if e.1 = p then t else 0) :
    (dm.map h).sum = if p ∈ keysOf dm then t else 0 := by
  induction dm with
  | nil => simp [keysOf]
  | cons e rest ih =>
    have hnd' : (e.1 :: keysOf rest).Nodup := hnd
    rw [List.map_cons, List.sum_cons,
      ih (List.nodup_cons.mp hnd').2 (fun x hx => hh x (List.mem_cons_of_mem e hx)),
      hh e (List.mem_cons_self e rest)]
    by_cases hep : e.1 = p
    · subst hep
      have hnp : e.1 ∉ keysOf rest := (List.nodup_cons.mp hnd').1
      rw [if_pos rfl, if_neg hnp,
        if_pos (show e.1 ∈ keysOf (e :: rest) by
          simp only [keysOf, List.map_cons]
          exact List.mem_cons_self _ _)]
      simp
    · rw [if_neg hep]
      have hmem : p ∈ keysOf (e :: rest) ↔ p ∈ keysOf rest := by
        simp only [keysOf, List.map_cons, List.mem_cons]
        constructor
        · rintro (hc | hc)
          · exact absurd hc.symm hep
          · exact hc
        · exact Or.inr
      by_cases hp : p ∈ keysOf rest
      · rw [if_pos hp, if_pos (hmem.mpr hp)]
        simp
      · rw [if_neg hp, if_neg (fun hc => hp (hmem.mp hc))]

/-- Does a finding report saturation of phase `p` (any demand/capacity)? -/
def msgPhaseIs (p : Int) (f : Finding) : Bool :=
  match f.message with
  | .phaseOverloaded q _ _ => q == p
  | _ => false

theorem capLookup_eq (workers : List Worker) (q : Int) :
    (alookup (calculatePhaseCapacity workers) q).getD 0 =
      capacitySpec workers q := by
  rw [calculatePhaseCapacity_eq, lookupD_foldBump, sumAt_capStream]
  simp [alookup]

theorem demValue_eq (tasks : List TaskR) (e : Int × Int)
    (he : e ∈ calculatePhaseDemand tasks) : e.2 = demandSpec tasks e.1 := by
  have hnd : (keysOf (calculatePhaseDemand tasks)).Nodup := by
    rw [calculatePhaseDemand_eq]
    exact nodup_keysOf_foldBump _ _ (by simp [keysOf])
  have hl : alookup (calculatePhaseDemand tasks) e.1 = some e.2 :=
    alookup_of_mem_nodup _ e.1 e.2 hnd (by simpa using he)
  have hv := lookupD_foldBump (demStream tasks) [] e.1
  rw [← calculatePhaseDemand_eq, hl, sumAt_demStream] at hv
  simpa [alookup] using hv

/-- C1 (counterexample): on the spec's example input — one worker
`{AvailableSlots:[1], MaxLoadPerPhase:2}`, one task
`{PreferredPhases:[1], Duration:3}` — the emitted finding reports capacity
1, not 2: `calculatePhaseCapacity` counts workers, ignoring
`MaxLoadPerPhase`. -/
theorem C1_counterexample :
    (validatePhaseSlotSaturation c1Tasks c1Workers).length = 1 ∧
    (∀ f ∈ validatePhaseSlotSaturation c1Tasks c1Workers,
      f.message ≠ Msg.phaseOverloaded 1 3 2) := by
  decide

/-- C1 (amended): one `phase_slot_saturation` finding is emitted exactly
for each phase whose demand (Σ `Duration` over the phase occurrences of
contributing tasks' `PreferredPhases`) exceeds capacity, where capacity is
the number of worker `AvailableSlots` entries equal to that phase — one per
worker-slot, `MaxLoadPerPhase` ignored; the finding carries exactly those
demand and capacity values, and the spec example yields one finding for
phase 1 with demand 3 and capacity 1. -/
theorem C1_saturation_characterised (tasks : List TaskR) (workers : List Worker)
    (p : Int) :
    ((validatePhaseSlotSaturation tasks workers).countP
      (fun f => f.message ==
        Msg.phaseOverloaded p (demandSpec tasks p) (capacitySpec workers p)) =
      if demandSpec tasks p > capacitySpec workers p then 1 else 0) ∧
    ((validatePhaseSlotSaturation tasks workers).countP (msgPhaseIs p) =
      if demandSpec tasks p > capacitySpec workers p then 1 else 0) ∧
    (validatePhaseSlotSaturation c1Tasks c1Workers).map
      (fun f => f.message) = [Msg.phaseOverloaded 1 3 1] := by
  have hcap := capLookup_eq workers
  have hdm_nodup : (keysOf (calculatePhaseDemand tasks)).Nodup := by
    rw [calculatePhaseDemand_eq]
    exact nodup_keysOf_foldBump _ _ (by simp [keysOf])
  have hperm : (entriesJS (calculatePhaseDemand tasks)).Perm
      (calculatePhaseDemand tasks) := entriesJS_perm _
  have hkeys : p ∈ keysOf (calculatePhaseDemand tasks) ↔
      p ∈ (demStream tasks).map Prod.fst := by
    rw [calculatePhaseDemand_eq]
    simpa [keysOf] using mem_keysOf_foldBump (demStream tasks) [] p
  have hnotkey : p ∉ keysOf (calculatePhaseDemand tasks) →
      demandSpec tasks p = 0 := by
    intro h
    rw [← sumAt_demStream]
    exact sumAt_zero_of_not_mem _ _ (fun hc => h (hkeys.mpr hc))
  have hmain : ∀ (pred : Finding → Bool),
      (∀ q, pred { id := "phase_saturation_" ++ toString q
                   type := "phase_slot_saturation", severity := "error"
                   entity := "operational"
                   message := .phaseOverloaded q (demandSpec tasks q)
                     (capacitySpec workers q)
                   affectedRecords := (tasks.filter
                     (fun t => taskUsesPhase t q)).map
                       (fun t => strOf t.taskID) } = decide (q = p)) →
      (validatePhaseSlotSaturation tasks workers).countP pred =
        if demandSpec tasks p > capacitySpec workers p then 1 else 0 := by
    intro pred hpred
    unfold validatePhaseSlotSaturation
    rw [countP_flatMap, (hperm.map _).sum_eq,
      sum_keyed _ _ p (if demandSpec tasks p > capacitySpec workers p then 1 else 0)
        hdm_nodup ?_]
    · by_cases hk : p ∈ keysOf (calculatePhaseDemand tasks)
      · rw [if_pos hk]
      · rw [if_neg hk]
        have hz := hnotkey hk
        rw [hz, if_neg (by
          intro hcon
          exact absurd (lt_of_le_of_lt (capacitySpec_nonneg workers p) hcon)
            (lt_irrefl 0))]
    · intro e he
      obtain ⟨q, d⟩ := e
      have hd : d = demandSpec tasks q := demValue_eq tasks (q, d) he
      simp only
      rw [hcap q]
      by_cases hq : q = p
      · rw [if_pos hq]
        subst hd
        by_cases hgt : demandSpec tasks q > capacitySpec workers q
        · rw [if_pos hgt, if_pos (by rw [← hq] at *; exact hgt)]
          rw [List.countP_cons, List.countP_nil, hpred q]
          simp [hq]
        · rw [if_neg hgt, if_neg (by rw [← hq] at *; exact hgt), List.countP_nil]
      · rw [if_neg hq]
        subst hd
        split
        · rw [List.countP_cons, List.countP_nil, hpred q]
          simp [hq]
        · rw [List.countP_nil]
  refine ⟨?_, ?_, by decide⟩
  · refine hmain _ ?_
    intro q
    by_cases hq : q = p
    · simp [hq]
    · simp [hq]
  · refine hmain _ ?_
    intro q
    by_cases hq : q = p
    · simp [msgPhaseIs, hq]
    · simp [msgPhaseIs, hq]

/-! ## DFS cycle detection: soundness and completeness -/

/-- A node is black when its DFS call has returned: visited and off the
recursion stack. -/
def Black (s : DfsSt α) (u : α) : Prop :=
  u ∈ s.visited ∧ u ∉ s.recStack

/-- Black nodes only point at black nodes. -/
def BlackClosed [DecidableEq α] (g : GraphA α) (s : DfsSt α) : Prop :=
  ∀ u, Black s u → ∀ v, edgeG g u v → Black s v

/-- No black node lies on a directed cycle. -/
def BlackAcyclic [DecidableEq α] (g : GraphA α) (s : DfsSt α) : Prop :=
  ∀ u, Black s u → ¬ Relation.TransGen (edgeG g) u u

/-- The DFS invariant. -/
def DfsInv [DecidableEq α] (g : GraphA α) (s : DfsSt α) : Prop :=
  BlackClosed g s ∧ BlackAcyclic g s

/-- Number of distinct graph nodes not yet visited; bounds the remaining
recursion depth. -/
def slack [DecidableEq α] (g : GraphA α) (s : DfsSt α) : Nat :=
  ((univList g).dedup.filter (fun u => u ∉ s.visited)).length

theorem reach_black [DecidableEq α] (g : GraphA α) (s : DfsSt α)
    (hc : BlackClosed g s) (v x : α) (hv : Black s v)
    (hr : Relation.ReflTransGen (edgeG g) v x) : Black s x := by
  induction hr with
  | refl => exact hv
  | tail _ hbc ih => exact hc _ ih _ hbc

theorem edge_src_key [DecidableEq α] (g : GraphA α) (u v : α)
    (h : edgeG g u v) : u ∈ g.map (fun e => e.1) := by
  unfold edgeG adj at h
  match hf : g.find? (fun e => e.1 = u) with
  | none => rw [hf] at h; simp at h
  | some e =>
    have hmem := List.mem_of_find?_eq_some hf
    have hpred := List.find?_some hf
    simp only [decide_eq_true_eq] at hpred
    exact hpred ▸ List.mem_map.mpr ⟨e, hmem, rfl⟩

theorem adj_subset_univList [DecidableEq α] (g : GraphA α) (n v : α)
    (h : v ∈ adj g n) : v ∈ univList g := by
  unfold adj at h
  match hf : g.find? (fun e => e.1 = n) with
  | none => rw [hf] at h; simp at h
  | some e =>
    rw [hf] at h
    simp at h
    have hmem := List.mem_of_find?_eq_some hf
    unfold univList
    refine List.mem_append.mpr (Or.inr ?_)
    exact List.mem_flatten.mpr ⟨e.2, List.mem_map.mpr ⟨e, hmem, rfl⟩, h⟩

theorem keys_subset_univList [DecidableEq α] (g : GraphA α) (k : α)
    (h : k ∈ g.map (fun e => e.1)) : k ∈ univList g :=
  List.mem_append.mpr (Or.inl h)

theorem length_filter_le_of_imp (l : List α) (p q : α → Bool)
    (h : ∀ x ∈ l, q x → p x) : (l.filter q).length ≤ (l.filter p).length := by
  induction l with
  | nil => simp
  | cons x xs ih =>
    have ihx := ih (fun y hy => h y (List.mem_cons_of_mem x hy))
    by_cases hq : q x
    · rw [List.filter_cons_of_pos hq,
        List.filter_cons_of_pos (h x (List.mem_cons_self x xs) hq)]
      simpa using ihx
    · rw [List.filter_cons_of_neg (by simpa using hq)]
      by_cases hp : p x
      · rw [List.filter_cons_of_pos hp]
        exact le_trans ihx (Nat.le_succ _)
      · rw [List.filter_cons_of_neg (by simpa using hp)]
        exact ihx

theorem slack_le_of_grow [DecidableEq α] (g : GraphA α) (s s' : DfsSt α)
    (h : ∀ u ∈ s.visited, u ∈ s'.visited) : slack g s' ≤ slack g s := by
  refine length_filter_le_of_imp _ _ _ ?_
  intro x _ hx
  simp only [decide_eq_true_eq] at *
  intro hmem
  exact hx (h x hmem)

theorem slack_lt_of_add [DecidableEq α] (g : GraphA α) (s : DfsSt α) (n : α)
    (r : List α) (hn : n ∈ univList g) (hv : n ∉ s.visited) :
    slack g ⟨s.visited ++ [n], r⟩ < slack g s := by
  unfold slack
  show ((univList g).dedup.filter (fun u => u ∉ s.visited ++ [n])).length <
      ((univList g).dedup.filter (fun u => u ∉ s.visited)).length
  have hnd : ((univList g).dedup).Nodup := List.nodup_dedup _
  have hnmem : n ∈ (univList g).dedup := List.mem_dedup.mpr hn
  obtain ⟨l₁, l₂, hsplit⟩ := List.append_of_mem hnmem
  rw [hsplit, List.filter_append, List.filter_append, List.filter_cons,
    List.filter_cons]
  have hq : (decide (n ∉ s.visited ++ [n]) : Bool) = false := by simp
  have hp : (decide (n ∉ s.visited) : Bool) = true := by simpa using hv
  rw [hq, hp, if_neg Bool.false_ne_true, if_pos rfl]
  simp only [List.length_append, List.length_cons]
  have h₁ : (l₁.filter (fun u => u ∉ s.visited ++ [n])).length ≤
      (l₁.filter (fun u => u ∉ s.visited)).length := by
    refine length_filter_le_of_imp _ _ _ ?_
    intro x _ hx
    simp only [decide_eq_true_eq] at *
    intro hmem
    exact hx (by simp [hmem])
  have h₂ : (l₂.filter (fun u => u ∉ s.visited ++ [n])).length ≤
      (l₂.filter (fun u => u ∉ s.visited)).length := by
    refine length_filter_le_of_imp _ _ _ ?_
    intro x _ hx
    simp only [decide_eq_true_eq] at *
    intro hmem
    exact hx (by simp [hmem])
  omega

theorem slack_lt_bound [DecidableEq α] (g : GraphA α) (s : DfsSt α) :
    slack g s < (univList g).length + 1 := by
  have h1 : ((univList g).dedup.filter (fun u => u ∉ s.visited)).length ≤
      (univList g).dedup.length := List.length_filter_le _ _
  have h2 : (univList g).dedup.length ≤ (univList g).length :=
    (List.dedup_sublist _).length_le
  unfold slack
  omega

/-- Frame property of a DFS step: visited only grows, and a `none` return
restores the recursion stack. -/
def FrameOK [DecidableEq α] (f : α → List α → DfsSt α → DfsSt α × Option (List α)) : Prop :=
  ∀ v path s,
    (∀ u ∈ s.visited, u ∈ (f v path s).1.visited) ∧
    ((f v path s).2 = none → (f v path s).1.recStack = s.recStack)

theorem dfsFold_frame [DecidableEq α]
    (f : α → List α → DfsSt α → DfsSt α × Option (List α)) (hf : FrameOK f) :
    ∀ (ns : List α) (path : List α) (s : DfsSt α),
      (∀ u ∈ s.visited, u ∈ (dfsFold f ns path s).1.visited) ∧
      ((dfsFold f ns path s).2 = none →
        (dfsFold f ns path s).1.recStack = s.recStack) := by
  intro ns
  induction ns with
  | nil => intro path s; exact ⟨fun u hu => hu, fun _ => rfl⟩
  | cons v vs ih =>
    intro path s
    rw [dfsFold]
    match hcall : f v path s with
    | (s', some c) =>
      refine ⟨fun u hu => ?_, fun hcon => by simp at hcon⟩
      have := (hf v path s).1 u hu
      rw [hcall] at this
      exact this
    | (s', none) =>
      have hgrow := (hf v path s).1
      have hrec := (hf v path s).2
      rw [hcall] at hgrow hrec
      refine ⟨fun u hu => (ih path s').1 u (hgrow u hu), fun hnone => ?_⟩
      rw [(ih path s').2 hnone]
      exact hrec rfl

theorem dfsG_frame [DecidableEq α] (g : GraphA α) :
    ∀ fuel, FrameOK (fun v path s => dfsG g fuel v path s) := by
  intro fuel
  induction fuel with
  | zero => intro v path s; exact ⟨fun u hu => hu, fun _ => rfl⟩
  | succ fuel ih =>
    intro n path s
    simp only [dfsG]
    by_cases h1 : n ∈ s.recStack
    · rw [if_pos h1]
      exact ⟨fun u hu => hu, fun hcon => by simp at hcon⟩
    · rw [if_neg h1]
      by_cases h2 : n ∈ s.visited
      · rw [if_pos h2]
        exact ⟨fun u hu => hu, fun _ => rfl⟩
      · rw [if_neg h2]
        have hfold := dfsFold_frame _ ih (adj g n) (path ++ [n])
          ⟨s.visited ++ [n], s.recStack ++ [n]⟩
        match hres : dfsFold (fun v p st => dfsG g fuel v p st) (adj g n)
            (path ++ [n]) ⟨s.visited ++ [n], s.recStack ++ [n]⟩ with
        | (s2, some c) =>
          rw [hres] at hfold
          refine ⟨fun u hu => hfold.1 u (by simp [hu]), fun hcon => by simp at hcon⟩
        | (s2, none) =>
          rw [hres] at hfold
          refine ⟨fun u hu => hfold.1 u (by simp [hu]), fun _ => ?_⟩
          show s2.recStack.erase n = s.recStack
          rw [hfold.2 rfl]
          show (s.recStack ++ [n]).erase n = s.recStack
          rw [List.erase_append_right _ h1]
          simp

/-- Exploration property of a DFS step at a given fuel: a `none` return from
an invariant-satisfying state yields an invariant state in which the node is
black. -/
def ExploreOK [DecidableEq α] (g : GraphA α) (fuel : Nat)
    (f : α → List α → DfsSt α → DfsSt α × Option (List α)) : Prop :=
  ∀ v path s s', v ∈ univList g → DfsInv g s → slack g s < fuel →
    f v path s = (s', none) →
    DfsInv g s' ∧ v ∈ s'.visited ∧ v ∉ s'.recStack ∧
    s'.recStack = s.recStack ∧ (∀ u ∈ s.visited, u ∈ s'.visited)

theorem dfsFold_explore [DecidableEq α] (g : GraphA α) (fuel : Nat)
    (f : α → List α → DfsSt α → DfsSt α × Option (List α))
    (hf : ExploreOK g fuel f) :
    ∀ (ns path : List α) (s s' : DfsSt α),
      (∀ v ∈ ns, v ∈ univList g) → DfsInv g s → slack g s < fuel →
      dfsFold f ns path s = (s', none) →
      DfsInv g s' ∧ s'.recStack = s.recStack ∧
      (∀ u ∈ s.visited, u ∈ s'.visited) ∧
      (∀ v ∈ ns, v ∈ s'.visited ∧ v ∉ s'.recStack) := by
  intro ns
  induction ns with
  | nil =>
    intro path s s' _ hinv _ heq
    rw [dfsFold] at heq
    injection heq with h1 h2
    subst h1
    exact ⟨hinv, rfl, fun u hu => hu, by simp⟩
  | cons v vs ih =>
    intro path s s' hns hinv hslack heq
    rw [dfsFold] at heq
    match hcall : f v path s with
    | (s₁, some c) => rw [hcall] at heq; simp at heq
    | (s₁, none) =>
      rw [hcall] at heq
      have hstep := hf v path s s₁ (hns v (List.mem_cons_self v vs)) hinv
        hslack hcall
      obtain ⟨hinv₁, hv₁, hvr₁, hrec₁, hgrow₁⟩ := hstep
      have hslack₁ : slack g s₁ < fuel :=
        lt_of_le_of_lt (slack_le_of_grow g s s₁ hgrow₁) hslack
      have hrest := ih path s₁ s' (fun x hx => hns x (List.mem_cons_of_mem v hx))
        hinv₁ hslack₁ heq
      obtain ⟨hinv', hrec', hgrow', hvs'⟩ := hrest
      refine ⟨hinv', hrec'.trans hrec₁, fun u hu => hgrow' u (hgrow₁ u hu), ?_⟩
      intro x hx
      rcases List.mem_cons.mp hx with hxv | hxvs
      · subst hxv
        refine ⟨hgrow' x hv₁, ?_⟩
        rw [hrec']
        exact hvr₁
      · exact hvs' x hxvs

theorem black_push [DecidableEq α] (s : DfsSt α) (n : α) (hnv : n ∉ s.visited)
    (u : α) :
    Black (⟨s.visited ++ [n], s.recStack ++ [n]⟩ : DfsSt α) u ↔ Black s u := by
  unfold Black
  by_cases hun : u = n
  · subst hun
    simp [hnv]
  · simp [hun]

theorem dfsInv_congr [DecidableEq α] (g : GraphA α) (s s' : DfsSt α)
    (h : ∀ u, Black s' u ↔ Black s u) (hinv : DfsInv g s) : DfsInv g s' := by
  obtain ⟨hc, ha⟩ := hinv
  constructor
  · intro u hu v hv
    exact (h v).mpr (hc u ((h u).mp hu) v hv)
  · intro u hu
    exact ha u ((h u).mp hu)

theorem dfsG_explore [DecidableEq α] (g : GraphA α) :
    ∀ fuel, ExploreOK g fuel (fun v path s => dfsG g fuel v path s) := by
  intro fuel
  induction fuel with
  | zero =>
    intro v path s s' _ _ hslack _
    exact absurd hslack (by omega)
  | succ fuel ih =>
    intro n path s s' hn hinv hslack heq
    simp only [dfsG] at heq
    by_cases h1 : n ∈ s.recStack
    · rw [if_pos h1] at heq
      simp at heq
    · rw [if_neg h1] at heq
      by_cases h2 : n ∈ s.visited
      · rw [if_pos h2] at heq
        injection heq with hs _
        subst hs
        exact ⟨hinv, h2, h1, rfl, fun u hu => hu⟩
      · rw [if_neg h2] at heq
        set s1 : DfsSt α := ⟨s.visited ++ [n], s.recStack ++ [n]⟩ with hs1
        have hinv1 : DfsInv g s1 :=
          dfsInv_congr g s s1 (fun u => black_push s n h2 u) hinv
        have hslack1 : slack g s1 < fuel :=
          lt_of_lt_of_le (slack_lt_of_add g s n _ hn h2) (by omega)
        match hfold : dfsFold (fun v p st => dfsG g fuel v p st) (adj g n)
            (path ++ [n]) s1 with
        | (s2, some c) => rw [hfold] at heq; simp at heq
        | (s2, none) =>
          rw [hfold] at heq
          injection heq with hs hr
          have hexp := dfsFold_explore g fuel _ ih (adj g n) (path ++ [n])
            s1 s2 (fun v hv => adj_subset_univList g n v hv) hinv1 hslack1 hfold
          obtain ⟨hinv2, hrec2, hgrow2, hadj2⟩ := hexp
          have hrecs2 : s2.recStack = s.recStack ++ [n] := hrec2
          have hrec' : s'.recStack = s.recStack := by
            rw [← hs]
            show (s2.recStack.erase n) = s.recStack
            rw [hrecs2, List.erase_append_right _ h1]
            simp
          have hnvis2 : n ∈ s2.visited := hgrow2 n (by simp [hs1])
          have hblack' : ∀ u, Black s' u ↔ (Black s2 u ∨ u = n) := by
            intro u
            unfold Black
            constructor
            · intro hu
              by_cases hun : u = n
              · exact Or.inr hun
              · refine Or.inl ⟨by rw [← hs] at hu; exact hu.1, ?_⟩
                rw [hrecs2]
                intro hc
                rcases List.mem_append.mp hc with hc | hc
                · exact (hrec' ▸ hu.2) hc
                · exact hun (List.mem_singleton.mp hc)
            · intro hu
              rcases hu with hu | hu
              · refine ⟨by rw [← hs]; exact hu.1, ?_⟩
                rw [hrec']
                intro hc
                exact hu.2 (hrecs2 ▸ List.mem_append_left _ hc)
              · subst hu
                refine ⟨by rw [← hs]; exact hnvis2, ?_⟩
                rw [hrec']
                exact h1
          have hinv' : DfsInv g s' := by
            constructor
            · intro u hu v hv
              rcases (hblack' u).mp hu with hb | hb
              · exact (hblack' v).mpr (Or.inl (hinv2.1 u hb v hv))
              · subst hb
                have := hadj2 v hv
                exact (hblack' v).mpr (Or.inl ⟨this.1, this.2⟩)
            · intro u hu hcyc
              rcases (hblack' u).mp hu with hb | hb
              · exact hinv2.2 u hb hcyc
              · subst hb
                obtain ⟨v, hv, hreach⟩ := Relation.TransGen.head'_iff.mp hcyc
                have hbv : Black s2 v := by
                  have := hadj2 v hv
                  exact ⟨this.1, this.2⟩
                have hbu : Black s2 u := reach_black g s2 hinv2.1 v u hbv hreach
                exact hbu.2 (hrecs2 ▸ List.mem_append_right _ (by simp))
          refine ⟨hinv', by rw [← hs]; exact hnvis2, ?_, hrec', ?_⟩
          · rw [hrec']
            exact h1
          · intro u hu
            rw [← hs]
            exact hgrow2 u (by simp [hs1, hu])

theorem chain'_reach_getLast [DecidableEq α] (g : GraphA α) :
    ∀ (l : List α) (x y : α), List.Chain' (edgeG g) (x :: l) →
      (x :: l).getLast? = some y → Relation.ReflTransGen (edgeG g) x y := by
  intro l
  induction l with
  | nil =>
    intro x y _ hlast
    have : x = y := by simpa using hlast
    exact this ▸ Relation.ReflTransGen.refl
  | cons z l ih =>
    intro x y hchain hlast
    have hc := List.chain'_cons.mp hchain
    rw [List.getLast?_cons_cons] at hlast
    exact Relation.ReflTransGen.head hc.1 (ih z y hc.2 hlast)

/-- Soundness of a DFS step: from a state whose recursion stack equals the
edge-chained `path`, a returned cycle witnesses a directed cycle in the
graph. -/
def SoundOK [DecidableEq α] (g : GraphA α)
    (f : α → List α → DfsSt α → DfsSt α × Option (List α)) : Prop :=
  ∀ v path s s' c, s.recStack = path → List.Chain' (edgeG g) path →
    (∀ x, path.getLast? = some x → edgeG g x v) →
    f v path s = (s', some c) → ∃ u, Relation.TransGen (edgeG g) u u

theorem dfsFold_sound [DecidableEq α] (g : GraphA α)
    (f : α → List α → DfsSt α → DfsSt α × Option (List α))
    (hframe : FrameOK f) (hf : SoundOK g f) :
    ∀ (ns path : List α) (s s' : DfsSt α) (c : List α),
      s.recStack = path → List.Chain' (edgeG g) path →
      (∀ v ∈ ns, ∀ x, path.getLast? = some x → edgeG g x v) →
      dfsFold f ns path s = (s', some c) →
      ∃ u, Relation.TransGen (edgeG g) u u := by
  intro ns
  induction ns with
  | nil =>
    intro path s s' c _ _ _ heq
    rw [dfsFold] at heq
    simp at heq
  | cons v vs ih =>
    intro path s s' c hrec hchain hns heq
    rw [dfsFold] at heq
    match hcall : f v path s with
    | (s₁, some c₁) =>
      exact hf v path s s₁ c₁ hrec hchain
        (hns v (List.mem_cons_self v vs)) hcall
    | (s₁, none) =>
      rw [hcall] at heq
      have hrec₁ : s₁.recStack = path := by
        have := (hframe v path s).2
        rw [hcall] at this
        rw [this rfl, hrec]
      exact ih path s₁ s' c hrec₁ hchain
        (fun x hx => hns x (List.mem_cons_of_mem v hx)) heq

theorem dfsG_sound [DecidableEq α] (g : GraphA α) :
    ∀ fuel, SoundOK g (fun v path s => dfsG g fuel v path s) := by
  intro fuel
  induction fuel with
  | zero =>
    intro v path s s' c _ _ _ heq
    simp only [dfsG] at heq
    simp at heq
  | succ fuel ih =>
    intro n path s s' c hrec hchain hlast heq
    simp only [dfsG] at heq
    by_cases h1 : n ∈ s.recStack
    · -- the repeated node closes a directed walk along the path
      have hnp : n ∈ path := hrec ▸ h1
      obtain ⟨l₁, l₂, hsplit⟩ := List.append_of_mem hnp
      have hchain₂ : List.Chain' (edgeG g) (n :: l₂) :=
        hchain.suffix ⟨l₁, hsplit.symm⟩
      have hlast₂ : path.getLast? = (n :: l₂).getLast? := by
        rw [hsplit, List.getLast?_append]
        match hl2 : (n :: l₂).getLast? with
        | some z => rfl
        | none =>
          rw [List.getLast?_eq_none_iff] at hl2
          exact absurd hl2 (by simp)
      match hl : (n :: l₂).getLast? with
      | none =>
        rw [List.getLast?_eq_none_iff] at hl
        exact absurd hl (by simp)
      | some y =>
        have hreach : Relation.ReflTransGen (edgeG g) n y :=
          chain'_reach_getLast g l₂ n y hchain₂ hl
        have hedge : edgeG g y n := hlast y (by rw [hlast₂, hl])
        exact ⟨n, Relation.TransGen.tail'_iff.mpr ⟨y, hreach, hedge⟩⟩
    · rw [if_neg h1] at heq
      by_cases h2 : n ∈ s.visited
      · rw [if_pos h2] at heq
        simp at heq
      · rw [if_neg h2] at heq
        set s1 : DfsSt α := ⟨s.visited ++ [n], s.recStack ++ [n]⟩ with hs1
        have hrec1 : s1.recStack = path ++ [n] := by
          rw [hs1]
          show s.recStack ++ [n] = path ++ [n]
          rw [hrec]
        have hchain1 : List.Chain' (edgeG g) (path ++ [n]) := by
          rw [List.chain'_append]
          refine ⟨hchain, List.chain'_singleton n, ?_⟩
          intro x hx y hy
          have hyn : n = y := by simpa using hy
          exact hyn ▸ hlast x hx
        have hns1 : ∀ v ∈ adj g n, ∀ x,
            (path ++ [n]).getLast? = some x → edgeG g x v := by
          intro v hv x hx
          rw [List.getLast?_concat] at hx
          injection hx with hxn
          exact hxn ▸ hv
        match hfold : dfsFold (fun v p st => dfsG g fuel v p st) (adj g n)
            (path ++ [n]) s1 with
        | (s2, some c₂) =>
          exact dfsFold_sound g _ (dfsG_frame g fuel) ih (adj g n)
            (path ++ [n]) s1 s2 c₂ hrec1 hchain1 hns1 hfold
        | (s2, none) =>
          rw [hfold] at heq
          simp at heq

theorem detectCyclesGo_acc_grow [DecidableEq α] (g : GraphA α) (fuel : Nat) :
    ∀ (ks : List α) (s : DfsSt α) (acc : List (List α)),
      ∃ ext, (detectCyclesGo g fuel ks s acc).2 = acc ++ ext := by
  intro ks
  induction ks with
  | nil => intro s acc; exact ⟨[], by simp [detectCyclesGo]⟩
  | cons k ks ih =>
    intro s acc
    rw [detectCyclesGo]
    by_cases hk : k ∈ s.visited
    · rw [if_pos hk]; exact ih s acc
    · rw [if_neg hk]
      match dfsG g fuel k [] s with
      | (s', some c) =>
        obtain ⟨ext, hext⟩ := ih s' (acc ++ [c])
        exact ⟨[c] ++ ext, by rw [hext, List.append_assoc]⟩
      | (s', none) => exact ih s' acc

theorem detectCyclesGo_sound [DecidableEq α] (g : GraphA α) (fuel : Nat) :
    ∀ (ks : List α) (s : DfsSt α) (acc : List (List α)),
      s.recStack = [] → (detectCyclesGo g fuel ks s acc).2 ≠ acc →
      hasCycle g := by
  intro ks
  induction ks with
  | nil => intro s acc _ hne; simp [detectCyclesGo] at hne
  | cons k ks ih =>
    intro s acc hrec hne
    rw [detectCyclesGo] at hne
    by_cases hk : k ∈ s.visited
    · rw [if_pos hk] at hne
      exact ih s acc hrec hne
    · rw [if_neg hk] at hne
      match hcall : dfsG g fuel k [] s with
      | (s', some c) =>
        exact dfsG_sound g fuel k [] s s' c hrec List.chain'_nil
          (fun x hx => by simp at hx) hcall
      | (s', none) =>
        simp only [hcall] at hne
        have hrec' : s'.recStack = [] := by
          have hfr := (dfsG_frame g fuel k [] s).2
          simp only [hcall] at hfr
          rw [hfr trivial, hrec]
        exact ih s' acc hrec' hne

theorem detectCyclesGo_complete [DecidableEq α] (g : GraphA α)
    (fuel : Nat) (hfuel : fuel = (univList g).length + 1) :
    ∀ (ks : List α) (s : DfsSt α) (acc : List (List α)),
      (∀ k ∈ ks, k ∈ univList g) → DfsInv g s → s.recStack = [] →
      (detectCyclesGo g fuel ks s acc).2 = acc →
      DfsInv g (detectCyclesGo g fuel ks s acc).1 ∧
      (detectCyclesGo g fuel ks s acc).1.recStack = [] ∧
      (∀ u ∈ s.visited, u ∈ (detectCyclesGo g fuel ks s acc).1.visited) ∧
      (∀ k ∈ ks, k ∈ (detectCyclesGo g fuel ks s acc).1.visited) := by
  intro ks
  induction ks with
  | nil =>
    intro s acc _ hinv hrec _
    rw [detectCyclesGo]
    exact ⟨hinv, hrec, fun u hu => hu, by simp⟩
  | cons k ks ih =>
    intro s acc hks hinv hrec hacc
    rw [detectCyclesGo] at hacc ⊢
    by_cases hk : k ∈ s.visited
    · rw [if_pos hk] at hacc ⊢
      have hrest := ih s acc (fun x hx => hks x (List.mem_cons_of_mem k hx))
        hinv hrec hacc
      refine ⟨hrest.1, hrest.2.1, hrest.2.2.1, ?_⟩
      intro x hx
      rcases List.mem_cons.mp hx with hx | hx
      · exact hx ▸ hrest.2.2.1 k hk
      · exact hrest.2.2.2 x hx
    · rw [if_neg hk] at hacc ⊢
      match hcall : dfsG g fuel k [] s with
      | (s', some c) =>
        simp only [hcall] at hacc
        obtain ⟨ext, hext⟩ := detectCyclesGo_acc_grow g fuel ks s' (acc ++ [c])
        rw [hext] at hacc
        have hlen := congrArg List.length hacc
        simp [Nat.add_assoc] at hlen
      | (s', none) =>
        simp only [hcall] at hacc ⊢
        have hstep := dfsG_explore g fuel k [] s s'
          (hks k (List.mem_cons_self k ks)) hinv
          (hfuel ▸ slack_lt_bound g s) hcall
        obtain ⟨hinv', hkv', _, hrec', hgrow'⟩ := hstep
        have hrec'' : s'.recStack = [] := by rw [hrec', hrec]
        have hrest := ih s' acc (fun x hx => hks x (List.mem_cons_of_mem k hx))
          hinv' hrec'' hacc
        refine ⟨hrest.1, hrest.2.1, fun u hu => hrest.2.2.1 u (hgrow' u hu), ?_⟩
        intro x hx
        rcases List.mem_cons.mp hx with hx | hx
        · exact hx ▸ hrest.2.2.1 k hkv'
        · exact hrest.2.2.2 x hx

/-- The DFS cycle detector is sound and complete for cycle existence:
`detectCycles` returns a non-empty list iff the graph has a directed
cycle. -/
theorem detectCycles_ne_nil_iff_hasCycle [DecidableEq α] (g : GraphA α) :
    detectCycles g ≠ [] ↔ hasCycle g := by
  constructor
  · intro hne
    rw [detectCycles] at hne
    exact detectCyclesGo_sound g _ (g.map (fun e => e.1)) ⟨[], []⟩ [] rfl hne
  · intro hcyc
    rcases eq_or_ne (detectCycles g) [] with hnil | hne
    · exfalso
      rw [detectCycles] at hnil
      have hcomp := detectCyclesGo_complete g _ rfl (g.map (fun e => e.1))
        ⟨[], []⟩ []
        (fun k hk => keys_subset_univList g k hk)
        ⟨fun u hu => absurd hu.1 (by simp), fun u hu => absurd hu.1 (by simp)⟩
        rfl hnil
      obtain ⟨u, hu⟩ := hcyc
      have hukey : u ∈ g.map (fun e => e.1) := by
        obtain ⟨v, hv, _⟩ := Relation.TransGen.head'_iff.mp hu
        exact edge_src_key g u v hv
      have hblack : Black (detectCyclesGo g ((univList g).length + 1)
          (g.map (fun e => e.1)) ⟨[], []⟩ []).1 u := by
        refine ⟨hcomp.2.2.2 u hukey, ?_⟩
        rw [hcomp.2.1]
        simp
      exact hcomp.1.2 u hblack hu
    · exact hne

theorem firstCycleGo_none_iff [DecidableEq α] (g : GraphA α) (fuel : Nat) :
    ∀ (ks : List α) (s : DfsSt α) (acc : List (List α)),
      (firstCycleGo g fuel ks s = none ↔
        (detectCyclesGo g fuel ks s acc).2 = acc) := by
  intro ks
  induction ks with
  | nil => intro s acc; simp [firstCycleGo, detectCyclesGo]
  | cons k ks ih =>
    intro s acc
    rw [firstCycleGo, detectCyclesGo]
    by_cases hk : k ∈ s.visited
    · rw [if_pos hk, if_pos hk]
      exact ih s acc
    · rw [if_neg hk, if_neg hk]
      match hcall : dfsG g fuel k [] s with
      | (s', some c) =>
        simp only
        constructor
        · intro hcon; simp at hcon
        · intro hcon
          obtain ⟨ext, hext⟩ := detectCyclesGo_acc_grow g fuel ks s' (acc ++ [c])
          rw [hext] at hcon
          have hlen := congrArg List.length hcon
          simp [Nat.add_assoc] at hlen
      | (s', none) =>
        simp only
        exact ih s' acc

/-- The break-at-first-cycle scan finds a cycle iff the full scan does. -/
theorem firstCycle_none_iff [DecidableEq α] (g : GraphA α) :
    firstCycle g = none ↔ detectCycles g = [] := by
  rw [firstCycle, detectCycles]
  exact firstCycleGo_none_iff g _ _ _ []

/-! ## C3 : a co-run pair over existing tasks is always reported circular -/

theorem mhasKey_iff_mem_keys [DecidableEq α] (g : GraphA α) (k : α) :
    mhasKey g k = true ↔ k ∈ keysOf g := by
  unfold mhasKey keysOf
  rw [List.any_eq_true]
  constructor
  · rintro ⟨e, he, hpe⟩
    simp only [decide_eq_true_eq] at hpe
    exact List.mem_map.mpr ⟨e, he, hpe⟩
  · intro h
    obtain ⟨e, he, hpe⟩ := List.mem_map.mp h
    exact ⟨e, he, by simp [hpe]⟩

theorem keysOf_msetG [DecidableEq α] (g : GraphA α) (k : α) (v : List α) (x : α) :
    x ∈ keysOf (msetG g k v) ↔ x ∈ keysOf g ∨ x = k := by
  induction g with
  | nil => simp [msetG, keysOf]
  | cons e rest ih =>
    obtain ⟨a, b⟩ := e
    rw [msetG]
    by_cases hak : a = k
    · subst hak
      rw [if_pos rfl]
      simp only [keysOf, List.map_cons, List.mem_cons]
      tauto
    · rw [if_neg hak]
      simp only [keysOf, List.map_cons, List.mem_cons] at *
      constructor
      · rintro (h | h)
        · exact Or.inl (Or.inl h)
        · rcases (ih.mp h) with h | h
          · exact Or.inl (Or.inr h)
          · exact Or.inr h
      · rintro (h | h)
        · rcases h with h | h
          · exact Or.inl h
          · exact Or.inr (ih.mpr (Or.inl h))
        · exact Or.inr (ih.mpr (Or.inr h))

theorem keysOf_taskFold (tasks : List TaskR) :
    ∀ (m : GraphA (Option String)) (x : Option String),
      x ∈ keysOf (tasks.foldl (fun g task => msetG g task.taskID []) m) ↔
        x ∈ keysOf m ∨ x ∈ tasks.map (fun t => t.taskID) := by
  induction tasks with
  | nil => intro m x; simp
  | cons t rest ih =>
    intro m x
    rw [List.foldl_cons, ih]
    rw [keysOf_msetG]
    simp only [List.map_cons, List.mem_cons]
    tauto

theorem adj_cons [DecidableEq α] (a : α) (l : List α) (rest : GraphA α) (u : α) :
    adj ((a, l) :: rest) u = if a = u then l else adj rest u := by
  by_cases h : a = u <;> simp [adj, List.find?, h]

theorem adjAdd_keys [DecidableEq α] (g : GraphA α) (k x u : α) :
    u ∈ keysOf (adjAdd g k x) ↔ u ∈ keysOf g := by
  induction g with
  | nil => simp [adjAdd]
  | cons e rest ih =>
    obtain ⟨a, b⟩ := e
    rw [adjAdd]
    by_cases hak : a = k
    · rw [if_pos hak]
      simp [keysOf]
    · rw [if_neg hak]
      simp only [keysOf, List.map_cons, List.mem_cons] at *
      tauto

theorem adj_adjAdd_superset [DecidableEq α] (g : GraphA α) (k x u v : α)
    (h : v ∈ adj g u) : v ∈ adj (adjAdd g k x) u := by
  induction g with
  | nil => simpa [adj] using h
  | cons e rest ih =>
    obtain ⟨a, b⟩ := e
    rw [adjAdd]
    by_cases hak : a = k
    · rw [if_pos hak, adj_cons]
      rw [adj_cons] at h
      by_cases hau : a = u
      · rw [if_pos hau]
        rw [if_pos hau] at h
        split
        · exact h
        · exact List.mem_append_left _ h
      · rw [if_neg hau]
        rw [if_neg hau] at h
        exact h
    · rw [if_neg hak, adj_cons]
      rw [adj_cons] at h
      by_cases hau : a = u
      · rw [if_pos hau]
        rw [if_pos hau] at h
        exact h
      · rw [if_neg hau]
        rw [if_neg hau] at h
        exact ih h

theorem adj_adjAdd_self [DecidableEq α] (g : GraphA α) (k x : α)
    (h : k ∈ keysOf g) : x ∈ adj (adjAdd g k x) k := by
  induction g with
  | nil => simp [keysOf] at h
  | cons e rest ih =>
    obtain ⟨a, b⟩ := e
    rw [adjAdd]
    by_cases hak : a = k
    · rw [if_pos hak, adj_cons, if_pos hak]
      split
      · next hmem => exact hmem
      · exact List.mem_append_right _ (by simp)
    · rw [if_neg hak, adj_cons, if_neg hak]
      refine ih ?_
      simp only [keysOf, List.map_cons, List.mem_cons] at h
      rcases h with h | h
      · exact absurd h.symm hak
      · exact h

theorem ijPairs_mem {α : Type} (ts : List α) (a b : α) (ha : a ∈ ts)
    (hb : b ∈ ts) (hab : a ≠ b) :
    (a, b) ∈ ijPairs ts ∨ (b, a) ∈ ijPairs ts := by
  induction ts with
  | nil => simp at ha
  | cons h rest ih =>
    rw [ijPairs]
    rcases List.mem_cons.mp ha with hah | har
    · rcases List.mem_cons.mp hb with hbh | hbr
      · exact absurd (hah.trans hbh.symm) hab
      · refine Or.inl (List.mem_append_left _ ?_)
        exact List.mem_map.mpr ⟨b, hbr, by rw [hah]⟩
    · rcases List.mem_cons.mp hb with hbh | hbr
      · refine Or.inr (List.mem_append_left _ ?_)
        exact List.mem_map.mpr ⟨a, har, by rw [hbh]⟩
      · rcases ih har hbr with h | h
        · exact Or.inl (List.mem_append_right _ h)
        · exact Or.inr (List.mem_append_right _ h)

/-- The per-pair step of the co-run graph construction. -/
def pairStep (g : GraphA (Option String)) (p : String × String) :
    GraphA (Option String) :=
  if mhasKey g (some p.1) ∧ mhasKey g (some p.2) then
    adjAdd (adjAdd g (some p.1) (some p.2)) (some p.2) (some p.1)
  else g

theorem coRunGraph_eq (tasksData : List TaskR) (coRunRules : List Rule) :
    coRunGraph tasksData coRunRules =
      coRunRules.foldl (fun g rule =>
        match rule.tasks with
        | some ts => (ijPairs ts).foldl pairStep g
        | none => g)
      (tasksData.foldl (fun g task => msetG g task.taskID []) []) := rfl

theorem pairStep_keys (g : GraphA (Option String)) (p : String × String)
    (u : Option String) : u ∈ keysOf (pairStep g p) ↔ u ∈ keysOf g := by
  unfold pairStep
  split
  · rw [adjAdd_keys, adjAdd_keys]
  · exact Iff.rfl

theorem pairStep_edge (g : GraphA (Option String)) (p : String × String)
    (u v : Option String) (h : v ∈ adj g u) : v ∈ adj (pairStep g p) u := by
  unfold pairStep
  split
  · exact adj_adjAdd_superset _ _ _ _ _ (adj_adjAdd_superset _ _ _ _ _ h)
  · exact h

theorem pairsFold_keys (ps : List (String × String)) :
    ∀ (g : GraphA (Option String)) (u : Option String),
      (u ∈ keysOf (ps.foldl pairStep g) ↔ u ∈ keysOf g) := by
  induction ps with
  | nil => intro g u; exact Iff.rfl
  | cons p ps ih =>
    intro g u
    rw [List.foldl_cons, ih, pairStep_keys]

theorem pairsFold_edge (ps : List (String × String)) :
    ∀ (g : GraphA (Option String)) (u v : Option String),
      v ∈ adj g u → v ∈ adj (ps.foldl pairStep g) u := by
  induction ps with
  | nil => intro g u v h; exact h
  | cons p ps ih =>
    intro g u v h
    rw [List.foldl_cons]
    exact ih _ u v (pairStep_edge g p u v h)

theorem pairsFold_hit (ps : List (String × String)) :
    ∀ (g : GraphA (Option String)) (a b : String),
      (a, b) ∈ ps → some a ∈ keysOf g → some b ∈ keysOf g →
      some b ∈ adj (ps.foldl pairStep g) (some a) ∧
      some a ∈ adj (ps.foldl pairStep g) (some b) := by
  induction ps with
  | nil => intro g a b h; simp at h
  | cons p ps ih =>
    intro g a b hmem hka hkb
    rw [List.foldl_cons]
    rcases List.mem_cons.mp hmem with hp | hp
    · subst hp
      have hstep : pairStep g (a, b) =
          adjAdd (adjAdd g (some a) (some b)) (some b) (some a) := by
        unfold pairStep
        rw [if_pos ⟨(mhasKey_iff_mem_keys g (some a)).mpr hka,
          (mhasKey_iff_mem_keys g (some b)).mpr hkb⟩]
      constructor
      · refine pairsFold_edge ps _ _ _ ?_
        rw [hstep]
        exact adj_adjAdd_superset _ _ _ _ _
          (adj_adjAdd_self g (some a) (some b) hka)
      · refine pairsFold_edge ps _ _ _ ?_
        rw [hstep]
        refine adj_adjAdd_self _ (some b) (some a) ?_
        rw [adjAdd_keys]
        exact hkb
    · refine ih (pairStep g p) a b hp ?_ ?_
      · rw [pairStep_keys]; exact hka
      · rw [pairStep_keys]; exact hkb

theorem ruleStep_keys (g : GraphA (Option String)) (rule : Rule)
    (u : Option String) :
    (u ∈ keysOf ((match rule.tasks with
      | some ts => (ijPairs ts).foldl pairStep g
      | none => g) : GraphA (Option String)) ↔ u ∈ keysOf g) := by
  match rule.tasks with
  | some ts => exact pairsFold_keys (ijPairs ts) g u
  | none => exact Iff.rfl

theorem rulesFold_edge (rules : List Rule) :
    ∀ (g : GraphA (Option String)) (u v : Option String), v ∈ adj g u →
      v ∈ adj (rules.foldl (fun g rule =>
        match rule.tasks with
        | some ts => (ijPairs ts).foldl pairStep g
        | none => g) g) u := by
  induction rules with
  | nil => intro g u v h; exact h
  | cons r rest ih =>
    intro g u v h
    rw [List.foldl_cons]
    refine ih _ u v ?_
    match r.tasks with
    | some ts => exact pairsFold_edge (ijPairs ts) g u v h
    | none => exact h

theorem rulesFold_hit (rules : List Rule) :
    ∀ (g : GraphA (Option String)) (r : Rule) (ts : List String)
      (a b : String),
      r ∈ rules → r.tasks = some ts → (a, b) ∈ ijPairs ts →
      some a ∈ keysOf g → some b ∈ keysOf g →
      (some b ∈ adj (rules.foldl (fun g rule =>
        match rule.tasks with
        | some ts => (ijPairs ts).foldl pairStep g
        | none => g) g) (some a) ∧
       some a ∈ adj (rules.foldl (fun g rule =>
        match rule.tasks with
        | some ts => (ijPairs ts).foldl pairStep g
        | none => g) g) (some b)) := by
  induction rules with
  | nil => intro g r ts a b hr; simp at hr
  | cons r₀ rest ih =>
    intro g r ts a b hr hts hpair hka hkb
    rw [List.foldl_cons]
    rcases List.mem_cons.mp hr with hr0 | hrr
    · subst hr0
      rw [hts]
      have hhit := pairsFold_hit (ijPairs ts) g a b hpair hka hkb
      exact ⟨rulesFold_edge rest _ _ _ hhit.1, rulesFold_edge rest _ _ _ hhit.2⟩
    · refine ih _ r ts a b hrr hts hpair ?_ ?_
      · exact (ruleStep_keys g r₀ (some a)).mpr hka
      · exact (ruleStep_keys g r₀ (some b)).mpr hkb

/-- C3 (confirmed): any active coRun rule naming two distinct existing
tasks makes `detectCircularCoRuns` report a `circular_corun` error — the
bidirectional pair edges always form a two-node directed cycle, which the
DFS always finds. -/
theorem C3_corun_pair_reported_circular (tasks : List TaskR)
    (rules : List Rule) (r : Rule) (hr : r ∈ rules)
    (htype : r.type = "coRun") (ts : List String) (hts : r.tasks = some ts)
    (a b : String) (ha : a ∈ ts) (hb : b ∈ ts) (hab : a ≠ b)
    (hka : some a ∈ tasks.map (fun t => t.taskID))
    (hkb : some b ∈ tasks.map (fun t => t.taskID)) :
    ∃ f ∈ detectCircularCoRuns tasks rules, f.type = "circular_corun" := by
  have hrmem : r ∈ rules.filter (fun r => r.type = "coRun") :=
    List.mem_filter.mpr ⟨hr, by simp [htype]⟩
  have hlen : ¬(rules.filter (fun r => r.type = "coRun")).length = 0 := by
    intro h
    rw [List.length_eq_zero] at h
    rw [h] at hrmem
    simp at hrmem
  have hkeys0 : ∀ x, (x ∈ keysOf (tasks.foldl
      (fun g task => msetG g task.taskID []) ([] : GraphA (Option String))) ↔
      x ∈ tasks.map (fun t => t.taskID)) := by
    intro x
    rw [keysOf_taskFold]
    simp [keysOf]
  have hpair := ijPairs_mem ts a b ha hb hab
  have hedges : (some b ∈ adj (coRunGraph tasks
        (rules.filter (fun r => r.type = "coRun"))) (some a) ∧
      some a ∈ adj (coRunGraph tasks
        (rules.filter (fun r => r.type = "coRun"))) (some b)) ∨
      (some a ∈ adj (coRunGraph tasks
        (rules.filter (fun r => r.type = "coRun"))) (some b) ∧
      some b ∈ adj (coRunGraph tasks
        (rules.filter (fun r => r.type = "coRun"))) (some a)) := by
    rw [coRunGraph_eq]
    rcases hpair with hp | hp
    · exact Or.inl (rulesFold_hit _ _ r ts a b hrmem hts hp
        ((hkeys0 _).mpr hka) ((hkeys0 _).mpr hkb))
    · exact Or.inr (rulesFold_hit _ _ r ts b a hrmem hts hp
        ((hkeys0 _).mpr hkb) ((hkeys0 _).mpr hka))
  have hcyc : hasCycle (coRunGraph tasks
      (rules.filter (fun r => r.type = "coRun"))) := by
    rcases hedges with ⟨h1, h2⟩ | ⟨h1, h2⟩
    · exact ⟨some a, Relation.TransGen.tail (Relation.TransGen.single h1) h2⟩
    · exact ⟨some b, Relation.TransGen.tail (Relation.TransGen.single h1) h2⟩
  have hfc : ¬ firstCycle (coRunGraph tasks
      (rules.filter (fun r => r.type = "coRun"))) = none := by
    intro hnone
    exact (detectCycles_ne_nil_iff_hasCycle _).mpr hcyc
      ((firstCycle_none_iff _).mp hnone)
  rw [detectCircularCoRuns]
  rw [if_neg hlen]
  rcases hm : firstCycle (coRunGraph tasks
      (rules.filter (fun r => r.type = "coRun"))) with _ | cycle
  · exact absurd hm hfc
  · simp only [hm]
    refine ⟨_, List.Mem.head _, ?_⟩
    rfl

/-- Two tasks TA, TB linked by a single coRun rule and no other rule. -/
def c3Tasks : List TaskR :=
  [{ taskID := some "TA" }, { taskID := some "TB" }]

/-- The single coRun rule over TA and TB. -/
def c3Rules : List Rule :=
  [{ type := "coRun", tasks := some ["TA", "TB"] }]

/-- Witness for C3 at the concrete two-task, one-rule input. -/
theorem C3_witness :
    ∃ f ∈ detectCircularCoRuns c3Tasks c3Rules,
      f.type = "circular_corun" :=
  C3_corun_pair_reported_circular c3Tasks c3Rules
    { type := "coRun", tasks := some ["TA", "TB"] }
    (by decide) rfl ["TA", "TB"] rfl "TA" "TB"
    (by decide) (by decide) (by decide) (by decide) (by decide)

/-! ## Kahn's algorithm : correctness under the §4.1 representation -/

theorem alookup_aset_self [DecidableEq α] (m : List (α × β)) (k : α) (v : β) :
    alookup (aset m k v) k = some v := by
  induction m with
  | nil => simp [aset, alookup_cons]
  | cons e rest ih =>
    obtain ⟨a, b⟩ := e
    by_cases h : a = k
    · subst h
      rw [aset, if_pos rfl, alookup_cons, if_pos rfl]
    · rw [aset, if_neg h, alookup_cons, if_neg h, ih]

theorem alookup_aset_ne [DecidableEq α] (m : List (α × β)) (k q : α) (v : β)
    (h : k ≠ q) : alookup (aset m k v) q = alookup m q := by
  induction m with
  | nil => simp [aset, alookup_cons, alookup_nil, h]
  | cons e rest ih =>
    obtain ⟨a, b⟩ := e
    by_cases ha : a = k
    · subst ha
      rw [aset, if_pos rfl, alookup_cons, alookup_cons, if_neg h, if_neg h]
    · rw [aset, if_neg ha, alookup_cons, alookup_cons, ih]

theorem mem_keysOf_aset [DecidableEq α] (m : List (α × β)) (k : α) (v : β)
    (x : α) : x ∈ keysOf (aset m k v) ↔ x ∈ keysOf m ∨ x = k := by
  induction m with
  | nil => simp [aset, keysOf]
  | cons e rest ih =>
    obtain ⟨a, b⟩ := e
    by_cases ha : a = k
    · subst ha
      rw [aset, if_pos rfl]
      simp only [keysOf, List.map_cons, List.mem_cons]
      tauto
    · rw [aset, if_neg ha]
      simp only [keysOf, List.map_cons, List.mem_cons] at ih ⊢
      rw [ih]
      tauto

theorem keysOf_aset_of_mem [DecidableEq α] (m : List (α × β)) (k : α) (v : β)
    (h : k ∈ keysOf m) : keysOf (aset m k v) = keysOf m := by
  induction m with
  | nil => simp [keysOf] at h
  | cons e rest ih =>
    obtain ⟨a, b⟩ := e
    by_cases ha : a = k
    · subst ha
      rw [aset, if_pos rfl]
      simp [keysOf]
    · rw [aset, if_neg ha]
      have h' : k ∈ keysOf rest := by
        simp only [keysOf, List.map_cons, List.mem_cons] at h
        rcases h with h | h
        · exact absurd h.symm ha
        · exact h
      show a :: keysOf (aset rest k v) = a :: keysOf rest
      rw [ih h']

theorem nodup_keysOf_aset [DecidableEq α] (m : List (α × β)) (k : α) (v : β)
    (h : (keysOf m).Nodup) : (keysOf (aset m k v)).Nodup := by
  induction m with
  | nil => simp [aset, keysOf]
  | cons e rest ih =>
    obtain ⟨a, b⟩ := e
    have h1 : a ∉ keysOf rest := by
      simp only [keysOf, List.map_cons, List.nodup_cons] at h
      exact h.1
    have h2 : (keysOf rest).Nodup := by
      simp only [keysOf, List.map_cons, List.nodup_cons] at h
      exact h.2
    by_cases ha : a = k
    · subst ha
      rw [aset, if_pos rfl]
      simpa [keysOf] using h
    · rw [aset, if_neg ha]
      simp only [keysOf, List.map_cons, List.nodup_cons]
      refine ⟨?_, ih h2⟩
      intro hmem
      rcases (mem_keysOf_aset rest k v a).mp hmem with hm | hm
      · exact h1 hm
      · exact ha hm

theorem mem_of_alookup_eq_some [DecidableEq α] (m : List (α × β)) (k : α)
    (v : β) (h : alookup m k = some v) : (k, v) ∈ m := by
  unfold alookup at h
  match hf : m.find? (fun e => e.1 = k) with
  | none => rw [hf] at h; simp at h
  | some e =>
    rw [hf] at h
    have hmem := List.mem_of_find?_eq_some hf
    have hpred := List.find?_some hf
    obtain ⟨a, b⟩ := e
    simp only [decide_eq_true_eq] at hpred
    simp only [Option.map_some', Option.some.injEq] at h
    have hak : a = k := hpred
    have hbv : b = v := h
    subst hak; subst hbv
    exact hmem

theorem alookup_fold0 [DecidableEq α] (g : GraphA α) :
    ∀ (acc : List (α × Option Int)) (v : α),
      alookup (g.foldl (fun m e => aset m e.1 (some 0)) acc) v =
        if v ∈ keysOf g then some (some 0) else alookup acc v := by
  induction g with
  | nil => intro acc v; simp [keysOf]
  | cons e rest ih =>
    intro acc v
    rw [List.foldl_cons, ih]
    by_cases hv : v ∈ keysOf rest
    · rw [if_pos hv, if_pos (by simp [keysOf]; right; simpa [keysOf] using hv)]
    · rw [if_neg hv]
      by_cases he : e.1 = v
      · rw [if_pos (by simp [keysOf]; left; exact he.symm), he,
          alookup_aset_self]
      · have hnotin : v ∉ keysOf (e :: rest) := by
          simp only [keysOf, List.map_cons, List.mem_cons]
          push_neg
          exact ⟨fun hh => he hh.symm, by simpa [keysOf] using hv⟩
        rw [if_neg hnotin, alookup_aset_ne acc e.1 v (some 0) he]

theorem mem_keysOf_fold0 [DecidableEq α] (g : GraphA α) :
    ∀ (acc : List (α × Option Int)) (x : α),
      x ∈ keysOf (g.foldl (fun m e => aset m e.1 (some 0)) acc) ↔
        x ∈ keysOf acc ∨ x ∈ keysOf g := by
  induction g with
  | nil => intro acc x; simp [keysOf]
  | cons e rest ih =>
    intro acc x
    rw [List.foldl_cons, ih, mem_keysOf_aset]
    simp only [keysOf, List.map_cons, List.mem_cons]
    tauto

theorem nodup_keysOf_fold0 [DecidableEq α] (g : GraphA α) :
    ∀ (acc : List (α × Option Int)), (keysOf acc).Nodup →
      (keysOf (g.foldl (fun m e => aset m e.1 (some 0)) acc)).Nodup := by
  induction g with
  | nil => intro acc h; exact h
  | cons e rest ih =>
    intro acc h
    rw [List.foldl_cons]
    exact ih _ (nodup_keysOf_aset acc e.1 (some 0) h)

/-- The number of incoming edges of `v`: occurrences of `v` among all the
successor lists of the graph. -/
def inDegC [DecidableEq α] (g : GraphA α) (v : α) : Nat :=
  (g.flatMap (fun e => e.2)).count v

theorem alookup_incFold [DecidableEq α] (K : List α) :
    ∀ (ns : List α) (m : List (α × Option Int)) (f : α → Int),
      (∀ x ∈ ns, x ∈ K) →
      (∀ v, alookup m v = if v ∈ K then some (some (f v)) else none) →
      ∀ v, alookup (ns.foldl
          (fun m v => aset m v (some (degRead (alookup m v) + 1))) m) v =
        if v ∈ K then some (some (f v + ns.count v)) else none := by
  intro ns
  induction ns with
  | nil =>
    intro m f _ hm v
    rw [List.foldl_nil, hm v]
    by_cases hv : v ∈ K <;> simp [hv]
  | cons x xs ih =>
    intro m f hns hm v
    rw [List.foldl_cons]
    have hx : x ∈ K := hns x (List.mem_cons_self x xs)
    have hmx : alookup m x = some (some (f x)) := by rw [hm x, if_pos hx]
    have hm1 : ∀ w, alookup (aset m x (some (degRead (alookup m x) + 1))) w =
        if w ∈ K then some (some (if w = x then f w + 1 else f w)) else none := by
      intro w
      by_cases hw : w = x
      · subst hw
        rw [alookup_aset_self, hmx, if_pos hx]
        show some (some (f w + 1)) = some (some (if w = w then f w + 1 else f w))
        rw [if_pos rfl]
      · rw [alookup_aset_ne m x w _ (fun hh => hw hh.symm), hm w]
        by_cases hwk : w ∈ K
        · rw [if_pos hwk, if_pos hwk, if_neg hw]
        · rw [if_neg hwk, if_neg hwk]
    have := ih (aset m x (some (degRead (alookup m x) + 1)))
      (fun w => if w = x then f w + 1 else f w)
      (fun y hy => hns y (List.mem_cons_of_mem x hy)) hm1 v
    rw [this]
    by_cases hv : v ∈ K
    · rw [if_pos hv, if_pos hv]
      have hcount : (x :: xs).count v = xs.count v + if v = x then 1 else 0 := by
        rw [List.count_cons]
        by_cases hvx : v = x
        · simp [hvx]
        · have hxv : ¬ x = v := fun hh => hvx hh.symm
          simp [hvx, hxv]
      rw [hcount]
      by_cases hvx : v = x
      · rw [if_pos hvx, if_pos hvx]
        push_cast
        ring_nf
      · rw [if_neg hvx, if_neg hvx]
        push_cast
        ring_nf
    · rw [if_neg hv, if_neg hv]

theorem keysOf_incFold [DecidableEq α] :
    ∀ (ns : List α) (m : List (α × Option Int)), (∀ x ∈ ns, x ∈ keysOf m) →
      keysOf (ns.foldl
        (fun m v => aset m v (some (degRead (alookup m v) + 1))) m) = keysOf m := by
  intro ns
  induction ns with
  | nil => intro m _; rfl
  | cons x xs ih =>
    intro m hns
    rw [List.foldl_cons]
    have hx : x ∈ keysOf m := hns x (List.mem_cons_self x xs)
    have hk : keysOf (aset m x (some (degRead (alookup m x) + 1))) = keysOf m :=
      keysOf_aset_of_mem m x _ hx
    rw [ih _ (fun y hy => hk ▸ hns y (List.mem_cons_of_mem x hy)), hk]

theorem keysOf_degFold [DecidableEq α] :
    ∀ (es : List (α × List α)) (m : List (α × Option Int)),
      (∀ e ∈ es, ∀ x ∈ e.2, x ∈ keysOf m) →
      keysOf (es.foldl (fun m e => e.2.foldl
        (fun m v => aset m v (some (degRead (alookup m v) + 1))) m) m) = keysOf m := by
  intro es
  induction es with
  | nil => intro m _; rfl
  | cons e rest ih =>
    intro m hes
    rw [List.foldl_cons]
    have hk : keysOf (e.2.foldl
        (fun m v => aset m v (some (degRead (alookup m v) + 1))) m) = keysOf m :=
      keysOf_incFold e.2 m (hes e (List.mem_cons_self e rest))
    rw [ih _ (fun e' he' x hx => hk ▸ hes e' (List.mem_cons_of_mem e he') x hx), hk]

theorem alookup_degFold [DecidableEq α] (K : List α) :
    ∀ (es : List (α × List α)) (m : List (α × Option Int)) (f : α → Int),
      (∀ e ∈ es, ∀ x ∈ e.2, x ∈ K) →
      (∀ v, alookup m v = if v ∈ K then some (some (f v)) else none) →
      ∀ v, alookup (es.foldl (fun m e => e.2.foldl
          (fun m v => aset m v (some (degRead (alookup m v) + 1))) m) m) v =
        if v ∈ K then some (some (f v + (es.flatMap (fun e => e.2)).count v))
        else none := by
  intro es
  induction es with
  | nil =>
    intro m f _ hm v
    rw [List.foldl_nil, hm v]
    by_cases hv : v ∈ K <;> simp [hv]
  | cons e rest ih =>
    intro m f hes hm v
    rw [List.foldl_cons]
    have h1 := alookup_incFold K e.2 m f (hes e (List.mem_cons_self e rest)) hm
    have := ih _ (fun w => f w + e.2.count w)
      (fun e' he' x hx => hes e' (List.mem_cons_of_mem e he') x hx) h1 v
    rw [this]
    by_cases hv : v ∈ K
    · rw [if_pos hv, if_pos hv]
      rw [List.flatMap_cons, List.count_append]
      push_cast
      ring_nf
    · rw [if_neg hv, if_neg hv]

theorem keysOf_eq (m : List (α × β)) : keysOf m = m.map (fun e => e.1) := rfl

theorem alookup_buildInDeg [DecidableEq α] (g : GraphA α) (hw : WFGraph g)
    (v : α) :
    alookup (buildInDeg g) v =
      if v ∈ keysOf g then some (some ((inDegC g v : Int))) else none := by
  have h0 : ∀ w, alookup (g.foldl (fun m e => aset m e.1 (some 0)) []) w =
      if w ∈ keysOf g then some (some ((fun _ => (0 : Int)) w)) else none := by
    intro w
    rw [alookup_fold0 g [] w]
    by_cases hw' : w ∈ keysOf g <;> simp [hw', alookup_nil]
  have hcl : ∀ e ∈ g, ∀ x ∈ e.2, x ∈ keysOf g := by
    intro e he x hx
    rw [keysOf_eq]
    exact hw.2.2 e he x hx
  have := alookup_degFold (keysOf g) g _ (fun _ => (0 : Int)) hcl h0 v
  show alookup (g.foldl (fun m e => e.2.foldl
      (fun m v => aset m v (some (degRead (alookup m v) + 1))) m)
      (g.foldl (fun m e => aset m e.1 (some 0)) [])) v = _
  rw [this]
  by_cases hv : v ∈ keysOf g
  · rw [if_pos hv, if_pos hv]
    show some (some (0 + _)) = _
    rw [zero_add]
    rfl
  · rw [if_neg hv, if_neg hv]

theorem mem_keysOf_buildInDeg [DecidableEq α] (g : GraphA α) (hw : WFGraph g)
    (x : α) : x ∈ keysOf (buildInDeg g) ↔ x ∈ keysOf g := by
  have hmem0 : ∀ y, y ∈ keysOf (g.foldl
      (fun m e => aset m e.1 (some (0 : Int))) []) ↔ y ∈ keysOf g := by
    intro y
    rw [mem_keysOf_fold0 g [] y]
    simp [keysOf]
  have hcl : ∀ e ∈ g, ∀ x' ∈ e.2,
      x' ∈ keysOf (g.foldl (fun m e => aset m e.1 (some (0 : Int))) []) := by
    intro e he x' hx'
    exact (hmem0 x').mpr (by rw [keysOf_eq]; exact hw.2.2 e he x' hx')
  show x ∈ keysOf (g.foldl (fun m e => e.2.foldl
      (fun m v => aset m v (some (degRead (alookup m v) + 1))) m)
      (g.foldl (fun m e => aset m e.1 (some 0)) [])) ↔ _
  rw [keysOf_degFold g _ hcl]
  exact hmem0 x

theorem nodup_keysOf_buildInDeg [DecidableEq α] (g : GraphA α) (hw : WFGraph g) :
    (keysOf (buildInDeg g)).Nodup := by
  have hmem0 : ∀ y, y ∈ keysOf (g.foldl
      (fun m e => aset m e.1 (some (0 : Int))) []) ↔ y ∈ keysOf g := by
    intro y
    rw [mem_keysOf_fold0 g [] y]
    simp [keysOf]
  have hcl : ∀ e ∈ g, ∀ x' ∈ e.2,
      x' ∈ keysOf (g.foldl (fun m e => aset m e.1 (some (0 : Int))) []) := by
    intro e he x' hx'
    exact (hmem0 x').mpr (by rw [keysOf_eq]; exact hw.2.2 e he x' hx')
  show (keysOf (g.foldl (fun m e => e.2.foldl
      (fun m v => aset m v (some (degRead (alookup m v) + 1))) m)
      (g.foldl (fun m e => aset m e.1 (some 0)) []))).Nodup
  rw [keysOf_degFold g _ hcl]
  exact nodup_keysOf_fold0 g [] (by simp [keysOf])

theorem adj_eq_alookup [DecidableEq α] (g : GraphA α) (k : α) :
    adj g k = (alookup g k).getD [] := rfl

theorem edge_tgt_key [DecidableEq α] (g : GraphA α) (hw : WFGraph g) (u v : α)
    (h : edgeG g u v) : v ∈ keysOf g := by
  unfold edgeG at h
  rw [adj_eq_alookup] at h
  match hl : alookup g u with
  | none => rw [hl] at h; simp at h
  | some l =>
    rw [hl] at h
    simp only [Option.getD_some] at h
    have hent := mem_of_alookup_eq_some g u l hl
    rw [keysOf_eq]
    exact hw.2.2 (u, l) hent v h

theorem adj_nodup [DecidableEq α] (g : GraphA α) (hw : WFGraph g) (u : α) :
    (adj g u).Nodup := by
  rw [adj_eq_alookup]
  match hl : alookup g u with
  | none => simp
  | some l =>
    simpa using hw.2.1 (u, l) (mem_of_alookup_eq_some g u l hl)

theorem inDegC_cons [DecidableEq α] (e : α × List α) (rest : GraphA α) (v : α) :
    inDegC (e :: rest) v = e.2.count v + inDegC rest v := by
  unfold inDegC
  rw [List.flatMap_cons, List.count_append]

theorem inDegC_eq_length_filter [DecidableEq α] (g : GraphA α)
    (hsucc : ∀ e ∈ g, e.2.Nodup) (v : α) :
    inDegC g v = (g.filter (fun e => decide (v ∈ e.2))).length := by
  induction g with
  | nil => rfl
  | cons e rest ih =>
    rw [inDegC_cons]
    have hnd := hsucc e (List.mem_cons_self e rest)
    have ih' := ih (fun e' he' => hsucc e' (List.mem_cons_of_mem e he'))
    by_cases hv : v ∈ e.2
    · rw [List.filter_cons_of_pos (by simpa using hv), List.length_cons, ih']
      have hc : e.2.count v = 1 := List.count_eq_one_of_mem hnd hv
      omega
    · rw [List.filter_cons_of_neg (by simpa using hv), ih']
      have hc : e.2.count v = 0 := List.count_eq_zero_of_not_mem hv
      omega

theorem countP_edges_le [DecidableEq α] (g : GraphA α) (hw : WFGraph g)
    (res : List α) (hnd : res.Nodup) (v : α) :
    res.countP (fun u => decide (v ∈ adj g u)) ≤ inDegC g v := by
  rw [List.countP_eq_length_filter, inDegC_eq_length_filter g hw.2.1 v]
  have hsub : ∀ u ∈ res.filter (fun u => decide (v ∈ adj g u)),
      u ∈ (g.filter (fun e => decide (v ∈ e.2))).map (fun e => e.1) := by
    intro u hu
    have hmemf := List.of_mem_filter hu
    simp only [decide_eq_true_eq] at hmemf
    rw [adj_eq_alookup] at hmemf
    match hl : alookup g u with
    | none => rw [hl] at hmemf; simp at hmemf
    | some l =>
      rw [hl] at hmemf
      simp only [Option.getD_some] at hmemf
      have hent : (u, l) ∈ g := mem_of_alookup_eq_some g u l hl
      exact List.mem_map.mpr
        ⟨(u, l), List.mem_filter.mpr ⟨hent, by simpa using hmemf⟩, rfl⟩
  have hnd' : (res.filter (fun u => decide (v ∈ adj g u))).Nodup :=
    hnd.filter _
  have hsp := List.Nodup.subperm hnd' hsub
  have hlen := hsp.length_le
  rw [List.length_map] at hlen
  exact hlen

/-- Remaining in-degree of `v` once the nodes of `res` have been output:
initial in-degree minus the number of edges into `v` from members of
`res`. -/
def remDeg [DecidableEq α] (g : GraphA α) (res : List α) (v : α) : Int :=
  (inDegC g v : Int) - (res.countP (fun u => decide (v ∈ adj g u)) : Int)

theorem remDeg_nil [DecidableEq α] (g : GraphA α) (v : α) :
    remDeg g [] v = (inDegC g v : Int) := by
  unfold remDeg
  simp

theorem remDeg_nonneg [DecidableEq α] (g : GraphA α) (hw : WFGraph g)
    (res : List α) (hnd : res.Nodup) (v : α) : 0 ≤ remDeg g res v := by
  have := countP_edges_le g hw res hnd v
  unfold remDeg
  omega

theorem remDeg_append_one [DecidableEq α] (g : GraphA α) (res : List α)
    (u v : α) :
    remDeg g (res ++ [u]) v =
      remDeg g res v - (if v ∈ adj g u then 1 else 0) := by
  unfold remDeg
  rw [List.countP_append]
  by_cases h : v ∈ adj g u
  · rw [if_pos h, List.countP_cons_of_pos _ _ (by simpa using h)]
    show (inDegC g v : Int) - ((List.countP _ res + (List.countP _ [] + 1) : Nat) : Int) = _
    rw [List.countP_nil]
    push_cast
    ring
  · rw [if_neg h, List.countP_cons_of_neg _ _ (by simpa using h)]
    rw [List.countP_nil]
    push_cast
    ring

theorem remDeg_zero_all_in [DecidableEq α] (g : GraphA α) (hw : WFGraph g)
    (res : List α) (hnd : res.Nodup) (v : α) (h : remDeg g res v = 0) :
    ∀ u, edgeG g u v → u ∈ res := by
  intro u hu
  by_contra hur
  have hcons : (u :: res).Nodup := List.nodup_cons.mpr ⟨hur, hnd⟩
  have hle := countP_edges_le g hw (u :: res) hcons v
  rw [List.countP_cons_of_pos _ _ (by simpa [edgeG] using hu)] at hle
  unfold remDeg at h
  omega

theorem kahnNbrs_go [DecidableEq α] (K : List α) :
    ∀ (ns : List α) (m : List (α × Option Int)) (q : List α) (f : α → Int),
      ns.Nodup →
      (∀ x ∈ ns, x ∈ K) →
      (∀ x, x ∈ keysOf m ↔ x ∈ K) →
      (keysOf m).Nodup →
      (∀ v ∈ K, alookup m v = some (some (f v))) →
      (∀ v, v ∈ keysOf (kahnNbrs ns m q).1 ↔ v ∈ K) ∧
      (keysOf (kahnNbrs ns m q).1).Nodup ∧
      (∀ v ∈ K, alookup (kahnNbrs ns m q).1 v =
        some (some (f v - (if v ∈ ns then 1 else 0)))) ∧
      (kahnNbrs ns m q).2 = q ++ ns.filter (fun v => decide (f v = 1)) := by
  intro ns
  induction ns with
  | nil =>
    intro m q f _ _ hmk hmnd hf
    refine ⟨hmk, hmnd, ?_, by simp [kahnNbrs]⟩
    intro v hv
    rw [show kahnNbrs ([] : List α) m q = (m, q) from rfl, hf v hv]
    simp
  | cons x xs ih =>
    intro m q f hnd hns hmk hmnd hf
    have hx : x ∈ K := hns x (List.mem_cons_self x xs)
    have hmx := hf x hx
    have hxxs : x ∉ xs := (List.nodup_cons.mp hnd).1
    have hnd' : xs.Nodup := (List.nodup_cons.mp hnd).2
    have hstep : kahnNbrs (x :: xs) m q =
        kahnNbrs xs (aset m x (some (f x - 1)))
          (if f x = 1 then q ++ [x] else q) := by
      unfold kahnNbrs
      rw [List.foldl_cons]
      simp only [hmx]
      by_cases hfx : f x = 1
      · rw [if_pos hfx, hfx]
        norm_num
      · rw [if_neg hfx, if_neg (by simp; omega)]
    have hf' : ∀ v ∈ K, alookup (aset m x (some (f x - 1))) v =
        some (some (if v = x then f v - 1 else f v)) := by
      intro v hv
      by_cases hvx : v = x
      · subst hvx
        rw [alookup_aset_self, if_pos rfl]
      · rw [alookup_aset_ne m x v _ (fun hh => hvx hh.symm), hf v hv,
          if_neg hvx]
    have hmk' : ∀ w, w ∈ keysOf (aset m x (some (f x - 1))) ↔ w ∈ K := by
      intro w
      rw [mem_keysOf_aset]
      constructor
      · rintro (h | h)
        · exact (hmk w).mp h
        · exact h ▸ hx
      · intro h
        exact Or.inl ((hmk w).mpr h)
    obtain ⟨c1, c2, c3, c4⟩ := ih (aset m x (some (f x - 1)))
      (if f x = 1 then q ++ [x] else q)
      (fun w => if w = x then f w - 1 else f w) hnd'
      (fun y hy => hns y (List.mem_cons_of_mem x hy)) hmk'
      (nodup_keysOf_aset m x _ hmnd) hf'
    rw [hstep]
    refine ⟨c1, c2, ?_, ?_⟩
    · intro v hv
      rw [c3 v hv]
      by_cases hvx : v = x
      · subst hvx
        rw [if_pos rfl, if_neg hxxs, if_pos (List.mem_cons_self v xs)]
        norm_num
      · rw [if_neg hvx]
        by_cases hvxs : v ∈ xs
        · rw [if_pos hvxs, if_pos (List.mem_cons_of_mem x hvxs)]
        · rw [if_neg hvxs, if_neg (by
            intro hmem
            rcases List.mem_cons.mp hmem with h | h
            · exact hvx h
            · exact hvxs h)]
    · rw [c4]
      have hfc : xs.filter (fun v => decide ((if v = x then f v - 1 else f v) = 1)) =
          xs.filter (fun v => decide (f v = 1)) := by
        apply List.filter_congr
        intro v hv
        have hvx : ¬ v = x := fun hh => hxxs (hh ▸ hv)
        rw [if_neg hvx]
      rw [hfc]
      by_cases hfx : f x = 1
      · rw [if_pos hfx, List.filter_cons_of_pos (by simpa using hfx)]
        simp
      · rw [if_neg hfx, List.filter_cons_of_neg (by simpa using hfx)]

/-- Invariant of the Kahn loop state: the in-degree map stores the
remaining degree of exactly the graph's keys, output and queue are
duplicate-free keys, a key is output or queued exactly when its remaining
degree is zero, and every in-neighbour of an output node appears strictly
earlier in the output. -/
def KInv [DecidableEq α] (g : GraphA α) (m : List (α × Option Int))
    (q res : List α) : Prop :=
  (∀ x, x ∈ keysOf m ↔ x ∈ keysOf g) ∧
  (keysOf m).Nodup ∧
  (∀ v ∈ keysOf g, alookup m v = some (some (remDeg g res v))) ∧
  (res ++ q).Nodup ∧
  (∀ x ∈ res ++ q, x ∈ keysOf g) ∧
  (∀ v ∈ keysOf g, (v ∈ res ++ q ↔ remDeg g res v = 0)) ∧
  (∀ j (hj : j < res.length) u, edgeG g u (res.get ⟨j, hj⟩) → u ∈ res.take j)

theorem KInv_step [DecidableEq α] (g : GraphA α) (hw : WFGraph g)
    (m : List (α × Option Int)) (node : α) (qt res : List α)
    (hinv : KInv g m (node :: qt) res) :
    KInv g (kahnNbrs (adj g node) m qt).1 (kahnNbrs (adj g node) m qt).2
      (res ++ [node]) := by
  obtain ⟨hmk, hmnd, hdeg, hqnd, hqsub, hzero, hord⟩ := hinv
  have hresnd : res.Nodup := List.Nodup.of_append_left hqnd
  have hnodesub : node ∈ keysOf g := hqsub node (by simp)
  have hnode0 : remDeg g res node = 0 := (hzero node hnodesub).mp (by simp)
  have hdisj : res.Disjoint (node :: qt) := List.disjoint_of_nodup_append hqnd
  have hnodenres : node ∉ res := fun h => hdisj h (by simp)
  have hressub : ∀ x ∈ res, x ∈ keysOf g :=
    fun x hx => hqsub x (List.mem_append_left _ hx)
  have hall : ∀ u, edgeG g u node → u ∈ res :=
    remDeg_zero_all_in g hw res hresnd node hnode0
  have hnsnd := adj_nodup g hw node
  have hnssub : ∀ x ∈ adj g node, x ∈ keysOf g :=
    fun x hx => edge_tgt_key g hw node x hx
  obtain ⟨c1, c2, c3, c4⟩ := kahnNbrs_go (keysOf g) (adj g node) m qt
    (remDeg g res) hnsnd hnssub hmk hmnd (fun v hv => hdeg v hv)
  have hrd : ∀ v, remDeg g (res ++ [node]) v =
      remDeg g res v - (if v ∈ adj g node then 1 else 0) :=
    fun v => remDeg_append_one g res node v
  refine ⟨c1, c2, ?_, ?_, ?_, ?_, ?_⟩
  · intro v hv
    rw [c3 v hv, hrd v]
  · have hrw : (res ++ [node]) ++ (kahnNbrs (adj g node) m qt).2 =
        (res ++ node :: qt) ++
          (adj g node).filter (fun v => decide (remDeg g res v = 1)) := by
      rw [c4]
      simp
    rw [hrw, List.nodup_append]
    refine ⟨hqnd, hnsnd.filter _, ?_⟩
    intro a ha hafil
    have hfil := List.of_mem_filter hafil
    simp only [decide_eq_true_eq] at hfil
    have hak : a ∈ keysOf g := hqsub a ha
    have h0 : remDeg g res a = 0 := (hzero a hak).mp ha
    omega
  · intro x hx
    rcases List.mem_append.mp hx with hx | hx
    · rcases List.mem_append.mp hx with hx | hx
      · exact hressub x hx
      · simp at hx
        exact hx ▸ hnodesub
    · rw [c4] at hx
      rcases List.mem_append.mp hx with hx | hx
      · exact hqsub x (by simp [hx])
      · exact hnssub x (List.mem_of_mem_filter hx)
  · intro v hv
    rw [hrd v]
    by_cases hvold : v ∈ res ++ node :: qt
    · have h0 : remDeg g res v = 0 := (hzero v hv).mp hvold
      have hvnadj : v ∉ adj g node := by
        intro hadj
        exact hnodenres (remDeg_zero_all_in g hw res hresnd v h0 node hadj)
      rw [if_neg hvnadj]
      constructor
      · intro _
        omega
      · intro _
        rcases List.mem_append.mp hvold with h | h
        · exact List.mem_append_left _ (List.mem_append_left _ h)
        · rcases List.mem_cons.mp h with h | h
          · exact List.mem_append_left _ (List.mem_append_right _ (by simp [h]))
          · refine List.mem_append_right _ ?_
            rw [c4]
            exact List.mem_append_left _ h
    · have hne : remDeg g res v ≠ 0 := fun h0 => hvold ((hzero v hv).mpr h0)
      have hge : 0 ≤ remDeg g res v := remDeg_nonneg g hw res hresnd v
      have hvres : v ∉ res := fun h => hvold (List.mem_append_left _ h)
      have hvnode : v ≠ node := fun h => hvold (h ▸ (by simp))
      have hvqt : v ∉ qt := fun h => hvold (List.mem_append_right _ (by simp [h]))
      have hvmem : (v ∈ (res ++ [node]) ++ (kahnNbrs (adj g node) m qt).2 ↔
          v ∈ (adj g node).filter (fun w => decide (remDeg g res w = 1))) := by
        rw [c4]
        constructor
        · intro h
          rcases List.mem_append.mp h with h | h
          · rcases List.mem_append.mp h with h | h
            · exact absurd h hvres
            · simp at h
              exact absurd h hvnode
          · rcases List.mem_append.mp h with h | h
            · exact absurd h hvqt
            · exact h
        · intro h
          exact List.mem_append_right _ (List.mem_append_right _ h)
      rw [hvmem]
      by_cases hvadj : v ∈ adj g node
      · rw [if_pos hvadj]
        constructor
        · intro h
          have hh := List.of_mem_filter h
          simp only [decide_eq_true_eq] at hh
          omega
        · intro h
          refine List.mem_filter.mpr ⟨hvadj, ?_⟩
          simp only [decide_eq_true_eq]
          omega
      · rw [if_neg hvadj]
        constructor
        · intro h
          exact absurd (List.mem_of_mem_filter h) hvadj
        · intro h
          omega
  · intro j hj u hedge
    by_cases hjr : j < res.length
    · have hget : (res ++ [node]).get ⟨j, hj⟩ = res.get ⟨j, hjr⟩ := by
        rw [List.get_append j hjr]
      rw [hget] at hedge
      have hmem := hord j hjr u hedge
      rw [List.take_append_of_le_length (le_of_lt hjr)]
      exact hmem
    · have hjeq : j = res.length := by
        have hlen : j < res.length + 1 := by simpa using hj
        omega
      subst hjeq
      have hget : (res ++ [node]).get ⟨res.length, hj⟩ = node := by
        rw [List.get_append_right] <;> simp
      rw [hget] at hedge
      have hmem := hall u hedge
      rw [List.take_left]
      exact hmem

theorem kahnLoop_spec [DecidableEq α] (g : GraphA α) (hw : WFGraph g) :
    ∀ (fuel : Nat) (m : List (α × Option Int)) (q res : List α),
      KInv g m q res →
      (keysOf g).length < fuel + res.length →
      (kahnLoop g fuel m q res).2.1 = [] ∧
      KInv g (kahnLoop g fuel m q res).1 [] (kahnLoop g fuel m q res).2.2 := by
  intro fuel
  induction fuel with
  | zero =>
    intro m q res hinv hfuel
    exfalso
    have hresnd : res.Nodup := List.Nodup.of_append_left hinv.2.2.2.1
    have hressub : ∀ x ∈ res, x ∈ keysOf g :=
      fun x hx => hinv.2.2.2.2.1 x (List.mem_append_left _ hx)
    have hle := (List.Nodup.subperm hresnd hressub).length_le
    omega
  | succ fuel ih =>
    intro m q res hinv hfuel
    match q with
    | [] =>
      refine ⟨rfl, ?_⟩
      show KInv g m [] res
      exact hinv
    | node :: qt =>
      show (kahnLoop g fuel (kahnNbrs (adj g node) m qt).1
          (kahnNbrs (adj g node) m qt).2 (res ++ [node])).2.1 = [] ∧ _
      have hstep := KInv_step g hw m node qt res hinv
      have hfuel' : (keysOf g).length < fuel + (res ++ [node]).length := by
        rw [List.length_append, List.length_singleton]
        omega
      exact ih _ _ _ hstep hfuel'

theorem KInv_init [DecidableEq α] (g : GraphA α) (hw : WFGraph g) :
    KInv g (buildInDeg g)
      (((buildInDeg g).filter (fun e => e.2 = some 0)).map (fun e => e.1))
      [] := by
  have hmk := mem_keysOf_buildInDeg g hw
  have hmnd := nodup_keysOf_buildInDeg g hw
  have hdeg := alookup_buildInDeg g hw
  have hentry : ∀ e ∈ buildInDeg g, e.1 ∈ keysOf g ∧
      e.2 = some ((inDegC g e.1 : Int)) := by
    intro e he
    have hk : e.1 ∈ keysOf (buildInDeg g) := List.mem_map.mpr ⟨e, he, rfl⟩
    have hkg : e.1 ∈ keysOf g := (hmk e.1).mp hk
    have hl := alookup_of_mem_nodup (buildInDeg g) e.1 e.2 hmnd
      (by simpa using he)
    rw [hdeg e.1, if_pos hkg] at hl
    exact ⟨hkg, by injection hl.symm⟩
  have hq0 : ∀ x, x ∈ ((buildInDeg g).filter
      (fun e => e.2 = some 0)).map (fun e => e.1) ↔
      x ∈ keysOf g ∧ inDegC g x = 0 := by
    intro x
    constructor
    · intro hx
      obtain ⟨e, hef, hex⟩ := List.mem_map.mp hx
      have hee := List.mem_of_mem_filter hef
      have hval := List.of_mem_filter hef
      simp only [decide_eq_true_eq] at hval
      obtain ⟨hk, hv⟩ := hentry e hee
      rw [hv] at hval
      refine ⟨hex ▸ hk, ?_⟩
      have : ((inDegC g e.1 : Int)) = 0 := by injection hval
      rw [← hex]
      exact_mod_cast this
    · rintro ⟨hk, hz⟩
      have hl : alookup (buildInDeg g) x = some (some 0) := by
        rw [hdeg x, if_pos hk, hz]
        norm_num
      have hmem : (x, some (0 : Int)) ∈ buildInDeg g :=
        mem_of_alookup_eq_some _ x _ hl
      exact List.mem_map.mpr ⟨(x, some 0),
        List.mem_filter.mpr ⟨hmem, by simp⟩, rfl⟩
  refine ⟨hmk, hmnd, ?_, ?_, ?_, ?_, ?_⟩
  · intro v hv
    rw [hdeg v, if_pos hv, remDeg_nil]
  · rw [List.nil_append]
    have hsub : List.Sublist ((buildInDeg g).filter (fun e => e.2 = some 0))
        (buildInDeg g) := List.filter_sublist _
    exact List.Nodup.sublist (List.Sublist.map (fun e => e.1) hsub) hmnd
  · intro x hx
    rw [List.nil_append] at hx
    exact ((hq0 x).mp hx).1
  · intro v hv
    rw [List.nil_append, hq0 v, remDeg_nil]
    constructor
    · rintro ⟨_, hz⟩
      exact_mod_cast hz
    · intro hz
      exact ⟨hv, by exact_mod_cast hz⟩
  · intro j hj
    simp at hj

theorem length_le_filter_add_sumPos (m : List (α × Option Int))
    (h : ∀ e ∈ m, ∃ c : Nat, e.2 = some ((c : Int))) :
    m.length ≤ (m.filter (fun e => e.2 = some 0)).length + sumPos m := by
  induction m with
  | nil => simp
  | cons e rest ih =>
    obtain ⟨c, hc⟩ := h e (List.mem_cons_self e rest)
    have ih' := ih (fun e' he' => h e' (List.mem_cons_of_mem e he'))
    have hsum : sumPos (e :: rest) = c + sumPos rest := by
      unfold sumPos
      rw [List.map_cons, List.sum_cons, hc]
      simp
    rw [hsum, List.length_cons]
    by_cases hc0 : c = 0
    · rw [List.filter_cons_of_pos (by simp [hc, hc0]), List.length_cons]
      omega
    · rw [List.filter_cons_of_neg (by simp [hc]; exact_mod_cast hc0)]
      omega

theorem keys_length_eq [DecidableEq α] (l₁ l₂ : List α) (h₁ : l₁.Nodup)
    (h₂ : l₂.Nodup) (h : ∀ x, x ∈ l₁ ↔ x ∈ l₂) : l₁.length = l₂.length :=
  le_antisymm (List.Nodup.subperm h₁ (fun x hx => (h x).mp hx)).length_le
    (List.Nodup.subperm h₂ (fun x hx => (h x).mpr hx)).length_le

/-- The output list of the Kahn loop as invoked by `topologicalSort`. -/
def kahnResult [DecidableEq α] (g : GraphA α) : List α :=
  let m := buildInDeg g
  let q0 := (m.filter (fun e => e.2 = some 0)).map (fun e => e.1)
  (kahnLoop g (q0.length + sumPos m + 1) m q0 []).2.2

theorem topologicalSort_eq_kahnResult [DecidableEq α] (g : GraphA α) :
    topologicalSort g =
      if (kahnResult g).length ≠ g.length then none
      else some (kahnResult g) := rfl

theorem kahnResult_inv [DecidableEq α] (g : GraphA α) (hw : WFGraph g) :
    ∃ m', KInv g m' [] (kahnResult g) := by
  have hinit := KInv_init g hw
  have hmk := mem_keysOf_buildInDeg g hw
  have hmnd := nodup_keysOf_buildInDeg g hw
  have hdeg := alookup_buildInDeg g hw
  have hentry : ∀ e ∈ buildInDeg g, ∃ c : Nat, e.2 = some ((c : Int)) := by
    intro e he
    have hk : e.1 ∈ keysOf (buildInDeg g) := List.mem_map.mpr ⟨e, he, rfl⟩
    have hkg : e.1 ∈ keysOf g := (hmk e.1).mp hk
    have hl := alookup_of_mem_nodup (buildInDeg g) e.1 e.2 hmnd
      (by simpa using he)
    rw [hdeg e.1, if_pos hkg] at hl
    exact ⟨inDegC g e.1, by injection hl.symm⟩
  have hlen := length_le_filter_add_sumPos (buildInDeg g) hentry
  have hkeq : (keysOf g).length = (buildInDeg g).length := by
    have hm : (keysOf (buildInDeg g)).length = (buildInDeg g).length := by
      simp [keysOf]
    rw [← hm]
    exact keys_length_eq _ _ (by rw [keysOf_eq]; exact hw.1) hmnd
      (fun x => (hmk x).symm)
  have hfuel : (keysOf g).length <
      (((buildInDeg g).filter (fun e => e.2 = some 0)).map
        (fun e => e.1)).length + sumPos (buildInDeg g) + 1 +
        ([] : List α).length := by
    rw [List.length_map, List.length_nil]
    omega
  have hres := kahnLoop_spec g hw _ _ _ _ hinit hfuel
  exact ⟨_, hres.2⟩

theorem reach_mem_take [DecidableEq α] (g : GraphA α) (res : List α)
    (hord : ∀ j (hj : j < res.length) u, edgeG g u (res.get ⟨j, hj⟩) →
      u ∈ res.take j) :
    ∀ j (hj : j < res.length) u,
      Relation.TransGen (edgeG g) u (res.get ⟨j, hj⟩) → u ∈ res.take j := by
  intro j
  induction j using Nat.strong_induction_on with
  | _ j ih =>
    intro hj u htg
    cases htg with
    | single h => exact hord j hj u h
    | tail htg' h =>
      rename_i c
      have hc := hord j hj _ h
      obtain ⟨i, hilt, hig⟩ := List.getElem_of_mem hc
      have hminlt : i < j ∧ i < res.length := by
        simp only [List.length_take] at hilt
        omega
      have hgi : res.get ⟨i, hminlt.2⟩ = c := by
        rw [List.get_eq_getElem]
        exact (List.getElem_take res).symm.trans hig
      rw [← hgi] at htg'
      have hmem := ih i hminlt.1 hminlt.2 _ htg'
      have hsub : res.take i ⊆ res.take j := by
        intro a ha
        have heq : res.take i = (res.take j).take i := by
          rw [List.take_take]
          congr 1
          omega
        rw [heq] at ha
        exact List.take_subset _ _ ha
      exact hsub hmem

theorem cycle_node_not_mem [DecidableEq α] (g : GraphA α) (res : List α)
    (hnd : res.Nodup)
    (hord : ∀ j (hj : j < res.length) u, edgeG g u (res.get ⟨j, hj⟩) →
      u ∈ res.take j)
    (u : α) (htg : Relation.TransGen (edgeG g) u u) : u ∉ res := by
  intro hu
  obtain ⟨j, hj, hgj⟩ := List.getElem_of_mem hu
  have hget : res.get ⟨j, hj⟩ = u := by
    rw [List.get_eq_getElem]
    exact hgj
  rw [← hget] at htg
  have hmem := reach_mem_take g res hord j hj _ htg
  obtain ⟨i, hilt, hig⟩ := List.getElem_of_mem hmem
  have hminlt : i < j ∧ i < res.length := by
    simp only [List.length_take] at hilt
    omega
  have hij : i = j := (List.Nodup.getElem_inj_iff hnd).mp
    (((List.getElem_take res).symm.trans hig).trans
      (List.get_eq_getElem res ⟨j, hj⟩))
  omega

theorem missing_node_has_missing_pred [DecidableEq α] (g : GraphA α)
    (hw : WFGraph g) (res : List α) (hnd : res.Nodup)
    (v : α) (hvres : v ∉ res) (hnz : remDeg g res v ≠ 0) :
    ∃ u, edgeG g u v ∧ u ∉ res := by
  by_contra h
  push_neg at h
  have hge : inDegC g v ≤ res.countP (fun u => decide (v ∈ adj g u)) := by
    rw [List.countP_eq_length_filter, inDegC_eq_length_filter g hw.2.1 v]
    have hsub : ∀ u ∈ (g.filter (fun e => decide (v ∈ e.2))).map
        (fun e => e.1), u ∈ res.filter (fun u => decide (v ∈ adj g u)) := by
      intro u hu
      obtain ⟨e, hef, heu⟩ := List.mem_map.mp hu
      have hee := List.mem_of_mem_filter hef
      have hval := List.of_mem_filter hef
      simp only [decide_eq_true_eq] at hval
      have hadj : adj g e.1 = e.2 := by
        rw [adj_eq_alookup, alookup_of_mem_nodup g e.1 e.2 hw.1
          (by simpa using hee)]
        rfl
      have hedge : edgeG g e.1 v := by
        unfold edgeG
        rw [hadj]
        exact hval
      refine List.mem_filter.mpr ⟨heu ▸ h e.1 hedge, ?_⟩
      simp only [decide_eq_true_eq]
      rw [heu] at hadj
      rw [hadj]
      exact hval
    have hndk : ((g.filter (fun e => decide (v ∈ e.2))).map
        (fun e => e.1)).Nodup := by
      have hs : List.Sublist (g.filter (fun e => decide (v ∈ e.2))) g :=
        List.filter_sublist _
      exact List.Nodup.sublist (List.Sublist.map (fun e => e.1) hs) hw.1
    have hsp := List.Nodup.subperm hndk hsub
    have hlen := hsp.length_le
    rw [List.length_map] at hlen
    exact hlen
  have hle := countP_edges_le g hw res hnd v
  unfold remDeg at hnz
  omega

theorem all_keys_in_res_of_acyclic [DecidableEq α] (g : GraphA α)
    (hw : WFGraph g) (res : List α) (hnd : res.Nodup)
    (hstuck : ∀ v ∈ keysOf g, v ∉ res → remDeg g res v ≠ 0)
    (hnc : ¬ hasCycle g) : ∀ v ∈ keysOf g, v ∈ res := by
  intro v₀ hv₀
  by_contra hv₀r
  have step : ∀ v : α, v ∈ keysOf g ∧ v ∉ res →
      ∃ u, (u ∈ keysOf g ∧ u ∉ res) ∧ edgeG g u v := by
    rintro v ⟨hv, hvr⟩
    obtain ⟨u, hu1, hu2⟩ := missing_node_has_missing_pred g hw res hnd v hvr
      (hstuck v hv hvr)
    refine ⟨u, ⟨?_, hu2⟩, hu1⟩
    rw [keysOf_eq]
    exact edge_src_key g u v hu1
  let f : {v : α // v ∈ keysOf g ∧ v ∉ res} →
      {v : α // v ∈ keysOf g ∧ v ∉ res} := fun v =>
    ⟨(step v.1 v.2).choose, (step v.1 v.2).choose_spec.1⟩
  have hf : ∀ v, edgeG g (f v).1 v.1 := fun v => (step v.1 v.2).choose_spec.2
  let x₀ : {v : α // v ∈ keysOf g ∧ v ∉ res} := ⟨v₀, hv₀, hv₀r⟩
  have hmaps : ∀ n ∈ Finset.range ((keysOf g).length + 1),
      (f^[n] x₀).1 ∈ (keysOf g).toFinset := by
    intro n _
    exact List.mem_toFinset.mpr (f^[n] x₀).2.1
  have hcard : ((keysOf g).toFinset).card <
      (Finset.range ((keysOf g).length + 1)).card := by
    rw [Finset.card_range]
    have := List.toFinset_card_le (keysOf g)
    omega
  obtain ⟨a, ha, b, hb, hab, heq⟩ :=
    Finset.exists_ne_map_eq_of_card_lt_of_maps_to hcard hmaps
  have hchain : ∀ d n : Nat, Relation.TransGen (edgeG g)
      (f^[n + d + 1] x₀).1 (f^[n] x₀).1 := by
    intro d
    induction d with
    | zero =>
      intro n
      have hit : f^[n + 1] x₀ = f (f^[n] x₀) := Function.iterate_succ_apply' f n x₀
      rw [show n + 0 + 1 = n + 1 from rfl, hit]
      exact Relation.TransGen.single (hf _)
    | succ d ihd =>
      intro n
      have hit : f^[n + (d + 1) + 1] x₀ = f (f^[n + d + 1] x₀) := by
        rw [show n + (d + 1) + 1 = (n + d + 1) + 1 by ring]
        exact Function.iterate_succ_apply' f _ x₀
      rw [hit]
      exact Relation.TransGen.head (hf _) (ihd n)
  rcases Nat.lt_or_ge a b with hlt | hge
  · obtain ⟨d, hd⟩ : ∃ d, b = a + d + 1 := ⟨b - a - 1, by omega⟩
    have hc := hchain d a
    rw [← hd, ← heq] at hc
    exact hnc ⟨_, hc⟩
  · have hlt : b < a := lt_of_le_of_ne hge (Ne.symm hab)
    obtain ⟨d, hd⟩ : ∃ d, a = b + d + 1 := ⟨a - b - 1, by omega⟩
    have hc := hchain d b
    rw [← hd, heq] at hc
    exact hnc ⟨_, hc⟩

theorem topologicalSort_of_hasCycle [DecidableEq α] (g : GraphA α)
    (hw : WFGraph g) (hc : hasCycle g) : topologicalSort g = none := by
  obtain ⟨m', hinv⟩ := kahnResult_inv g hw
  obtain ⟨hmk, hmnd, hdeg, hqnd, hqsub, hzero, hord⟩ := hinv
  rw [List.append_nil] at hqnd
  have hqsub' : ∀ x ∈ kahnResult g, x ∈ keysOf g := by
    intro x hx
    exact hqsub x (by rw [List.append_nil]; exact hx)
  obtain ⟨u, htg⟩ := hc
  have hukey : u ∈ keysOf g := by
    cases htg with
    | single h =>
      rw [keysOf_eq]
      exact edge_src_key g _ _ h
    | tail htg' h => exact edge_tgt_key g hw _ _ h
  have hunotres : u ∉ kahnResult g :=
    cycle_node_not_mem g _ hqnd hord u htg
  have hne : (kahnResult g).length ≠ g.length := by
    intro hlen
    have hsp := List.Nodup.subperm hqnd hqsub'
    have hperm : (kahnResult g).Perm (keysOf g) := by
      refine hsp.perm_of_length_le ?_
      have hkg : (keysOf g).length = g.length := by simp [keysOf]
      omega
    exact hunotres (hperm.mem_iff.mpr hukey)
  rw [topologicalSort_eq_kahnResult, if_pos hne]

theorem topologicalSort_of_acyclic [DecidableEq α] (g : GraphA α)
    (hw : WFGraph g) (hnc : ¬ hasCycle g) :
    ∃ l, topologicalSort g = some l ∧ l.Perm (g.map (fun e => e.1)) ∧
      ∀ u v, edgeG g u v →
        ∃ i j : Nat, i < j ∧ l[i]? = some u ∧ l[j]? = some v := by
  obtain ⟨m', hinv⟩ := kahnResult_inv g hw
  obtain ⟨hmk, hmnd, hdeg, hqnd, hqsub, hzero, hord⟩ := hinv
  rw [List.append_nil] at hqnd
  have hqsub' : ∀ x ∈ kahnResult g, x ∈ keysOf g := by
    intro x hx
    exact hqsub x (by rw [List.append_nil]; exact hx)
  have hstuck : ∀ v ∈ keysOf g, v ∉ kahnResult g →
      remDeg g (kahnResult g) v ≠ 0 := by
    intro v hv hvr h0
    refine hvr ?_
    have := (hzero v hv).mpr h0
    rwa [List.append_nil] at this
  have hall := all_keys_in_res_of_acyclic g hw _ hqnd hstuck hnc
  have hsp := List.Nodup.subperm hqnd hqsub'
  have hkgnd : (keysOf g).Nodup := by
    rw [keysOf_eq]
    exact hw.1
  have hsp2 := List.Nodup.subperm hkgnd hall
  have hperm : (kahnResult g).Perm (keysOf g) := hsp.antisymm hsp2
  have hlen : (kahnResult g).length = g.length := by
    rw [hperm.length_eq]
    simp [keysOf]
  refine ⟨kahnResult g, ?_, ?_, ?_⟩
  · rw [topologicalSort_eq_kahnResult, if_neg (fun h => h hlen)]
  · rw [← keysOf_eq]
    exact hperm
  · intro u v hedge
    have hvkey : v ∈ keysOf g := edge_tgt_key g hw u v hedge
    have hvres : v ∈ kahnResult g := hall v hvkey
    obtain ⟨j, hj, hgj⟩ := List.getElem_of_mem hvres
    have hget : (kahnResult g).get ⟨j, hj⟩ = v := by
      rw [List.get_eq_getElem]
      exact hgj
    have hu := hord j hj u (by rw [hget]; exact hedge)
    obtain ⟨i, hilt, hgi⟩ := List.getElem_of_mem hu
    have hminlt : i < j ∧ i < (kahnResult g).length := by
      simp only [List.length_take] at hilt
      omega
    refine ⟨i, j, hminlt.1, ?_, ?_⟩
    · rw [List.getElem?_eq_getElem hminlt.2]
      exact congrArg some ((List.getElem_take (kahnResult g)).symm.trans hgi)
    · rw [List.getElem?_eq_getElem hj, hgj]

/-- C8 (confirmed): on every directed graph in the §4.1 representation
(`WFGraph`: a `Map` from each node to its duplicate-free successor set,
every successor having its own entry), `topologicalSort` returns `none`
(JS `null`) when the graph has a cycle, and otherwise returns a
permutation of all nodes in which the source of every edge precedes its
target. -/
theorem C8_topologicalSort_correct [DecidableEq α] (g : GraphA α)
    (hw : WFGraph g) :
    (hasCycle g → topologicalSort g = none) ∧
    (¬ hasCycle g → ∃ l, topologicalSort g = some l ∧
      l.Perm (g.map (fun e => e.1)) ∧
      ∀ u v, edgeG g u v →
        ∃ i j : Nat, i < j ∧ l[i]? = some u ∧ l[j]? = some v) :=
  ⟨topologicalSort_of_hasCycle g hw, topologicalSort_of_acyclic g hw⟩

/-- The acyclic diamond graph used to witness C8. -/
def c8G : GraphA String :=
  [("a", ["b", "c"]), ("b", ["d"]), ("c", ["d"]), ("d", [])]

/-- Witness for C8 at the concrete acyclic diamond graph. -/
theorem C8_witness :
    WFGraph c8G ∧
    ((hasCycle c8G → topologicalSort c8G = none) ∧
    (¬ hasCycle c8G → ∃ l, topologicalSort c8G = some l ∧
      l.Perm (c8G.map (fun e => e.1)) ∧
      ∀ u v, edgeG c8G u v →
        ∃ i j : Nat, i < j ∧ l[i]? = some u ∧ l[j]? = some v)) :=
  ⟨by decide, C8_topologicalSort_correct c8G (by decide)⟩

/-- C9 (confirmed): on every directed graph in the §4.1 representation
(`WFGraph`), the two independent cycle detectors agree: `topologicalSort`
returns `none` exactly when `detectCycles` returns a non-empty collection,
and `isAcyclic` is `true` exactly when `topologicalSort` is non-`none`. -/
theorem C9_kahn_agrees_with_detectCycles [DecidableEq α] (g : GraphA α)
    (hw : WFGraph g) :
    (topologicalSort g = none ↔ detectCycles g ≠ []) ∧
    (isAcyclic g = true ↔ topologicalSort g ≠ none) := by
  have hdc := detectCycles_ne_nil_iff_hasCycle g
  constructor
  · constructor
    · intro hnone
      rw [hdc]
      by_contra hnc
      obtain ⟨l, hl, _⟩ := topologicalSort_of_acyclic g hw hnc
      rw [hl] at hnone
      simp at hnone
    · intro hne
      exact topologicalSort_of_hasCycle g hw (hdc.mp hne)
  · constructor
    · intro hac hnone
      have hnil : detectCycles g = [] := by
        unfold isAcyclic at hac
        simpa using hac
      have hnc : ¬ hasCycle g := fun hcyc => (hdc.mpr hcyc) hnil
      obtain ⟨l, hl, _⟩ := topologicalSort_of_acyclic g hw hnc
      rw [hl] at hnone
      simp at hnone
    · intro hsome
      unfold isAcyclic
      have hnc : ¬ hasCycle g :=
        fun hcyc => hsome (topologicalSort_of_hasCycle g hw hcyc)
      have hnil : detectCycles g = [] := by
        by_contra hne
        exact hnc (hdc.mp hne)
      rw [hnil]
      rfl

/-- The two-node cycle graph used to witness C9. -/
def c9G : GraphA String := [("a", ["b"]), ("b", ["a"])]

/-- Witness for C9 at the concrete two-node cycle graph. -/
theorem C9_witness :
    WFGraph c9G ∧
    ((topologicalSort c9G = none ↔ detectCycles c9G ≠ []) ∧
    (isAcyclic c9G = true ↔ topologicalSort c9G ≠ none)) :=
  ⟨by decide, C9_kahn_agrees_with_detectCycles c9G (by decide)⟩
